import Mathlib

/-!
# Verification of the rustdb storage core

A shallow embedding of the storage engine of `tristanpoland/rustdb`:
the slotted `Page` (`src/storage/page.rs`), the `BufferPool`
(`src/storage/buffer_pool.rs`) and the `BTree` index (`src/index/btree.rs`),
together with theorems checking the specification's claims against the code.

Machine integers are modelled as `Nat` with explicit `% 2^w` truncation at
the points where the source performs an `as` cast or stores into a fixed
width field.  A page's 4096 bytes are modelled as a function `Nat → Nat`
whose writes truncate to `% 256`, exactly mirroring `u8` cells.
-/

namespace RustDB

/-- Bytes of a page: value of the `u8` cell at each index (only indices
`0..4095` are meaningful). -/
abbrev Bytes := Nat → Nat

def PAGE_SIZE : Nat := 4096

def PAGE_HEADER_SIZE : Nat := 64

/-- `const SLOT_SIZE: usize = 8;` in `page.rs` (the spec instead says 4). -/
def SLOT_SIZE : Nat := 8

/-- Write a list of bytes starting at `off` (mirrors `copy_from_slice`);
cells are `u8`, hence the `% 256`. -/
def writeRange (d : Bytes) (off : Nat) (bs : List Nat) : Bytes :=
  fun j => if off ≤ j ∧ j < off + bs.length then bs.getD (j - off) 0 % 256 else d j

/-- Read `len` bytes starting at `off`. -/
def readRange (d : Bytes) (off len : Nat) : List Nat :=
  (List.range len).map (fun k => d (off + k))

/-- `copy_from_slice` of `len` bytes from a source byte function. -/
def writeBuf (d : Bytes) (off : Nat) (src : Bytes) (len : Nat) : Bytes :=
  fun j => if off ≤ j ∧ j < off + len then src (j - off) % 256 else d j

/-- `u16::from_le_bytes` on two cells. -/
def readU16 (d : Bytes) (off : Nat) : Nat := d off + 256 * d (off + 1)

/-- `u16::to_le_bytes` store. -/
def writeU16 (d : Bytes) (off v : Nat) : Bytes :=
  writeRange d off [v % 256, v / 256 % 256]

/-- `u32::from_le_bytes` on four cells. -/
def readU32 (d : Bytes) (off : Nat) : Nat :=
  d off + 256 * d (off + 1) + 65536 * d (off + 2) + 16777216 * d (off + 3)

/-- `u32::to_le_bytes` store. -/
def writeU32 (d : Bytes) (off v : Nat) : Bytes :=
  writeRange d off [v % 256, v / 256 % 256, v / 65536 % 256, v / 16777216 % 256]

/-- `u64::to_le_bytes` store. -/
def writeU64 (d : Bytes) (off v : Nat) : Bytes :=
  writeRange d off [v % 256, v / 256 % 256, v / 65536 % 256, v / 16777216 % 256,
    v / 4294967296 % 256, v / 1099511627776 % 256,
    v / 281474976710656 % 256, v / 72057594037927936 % 256]

/-- Errors (`Error::Storage(..)` in `error.rs`); the message is irrelevant. -/
inductive Err
  | storage
deriving DecidableEq, Repr

deriving instance DecidableEq for Except

/-- `PageId { file_id: u64, page_num: u64 }`. -/
structure PageId where
  file_id : Nat
  page_num : Nat
deriving DecidableEq, Repr

/-- `Page { id, data, dirty }` from `page.rs`; `data` always has
`PAGE_SIZE` bytes. -/
structure Page where
  id : PageId
  data : Bytes
  dirty : Bool

/-- `Slot { offset: u16, length: u16 }`. -/
structure Slot where
  offset : Nat
  length : Nat
deriving DecidableEq, Repr

namespace Page

/-! Header accessors, mirroring the private helper methods of `Page`. -/

def setPageId (p : Page) (v : Nat) : Page :=
  { p with data := writeU64 p.data 0 v, dirty := true }

def setPrevPage (p : Page) (v : Nat) : Page :=
  { p with data := writeU64 p.data 8 v, dirty := true }

def setNextPage (p : Page) (v : Nat) : Page :=
  { p with data := writeU64 p.data 16 v, dirty := true }

def getFreeSpaceOffset (p : Page) : Nat := readU16 p.data 24

def setFreeSpaceOffset (p : Page) (v : Nat) : Page :=
  { p with data := writeU16 p.data 24 v, dirty := true }

def getSlotCount (p : Page) : Nat := readU16 p.data 26

def setSlotCount (p : Page) (v : Nat) : Page :=
  { p with data := writeU16 p.data 26 v, dirty := true }

def getChecksum (p : Page) : Nat := readU32 p.data 28

def setChecksum (p : Page) (v : Nat) : Page :=
  { p with data := writeU32 p.data 28 v, dirty := true }

def setFlags (p : Page) (v : Nat) : Page :=
  { p with data := writeRange p.data 32 [v], dirty := true }

def setPageType (p : Page) (v : Nat) : Page :=
  { p with data := writeRange p.data 33 [v], dirty := true }

/-- The `u32` little-endian value of 4-byte chunk `i` of the page
(`u32::from_le_bytes` on `data.chunks(4)`; 4096 is divisible by 4 so no
chunk is padded). -/
def chunkVal (d : Bytes) (i : Nat) : Nat := readU32 d (4 * i)

/-- XOR of all 4-byte chunks, written exactly as the source's loop
`for chunk in self.data.chunks(4) { checksum ^= u32::from_le_bytes(..) }`. -/
def xorChunksFold (d : Bytes) : Nat :=
  (List.range (PAGE_SIZE / 4)).foldl (fun acc i => acc ^^^ chunkVal d i) 0

/-- Balanced XOR of chunks `lo, lo+1, …, lo+n-1`, structurally recursive on
a fuel so that the kernel can evaluate it with logarithmic depth.  Proved
equal to the source-shaped left fold in `xorChunks_eq_fold` below. -/
def xorRangeAux (d : Bytes) : Nat → Nat → Nat → Nat
  | 0, lo, n => if n = 1 then chunkVal d lo else 0
  | f + 1, lo, n =>
    if n ≤ 1 then (if n = 1 then chunkVal d lo else 0)
    else xorRangeAux d f lo (n / 2) ^^^ xorRangeAux d f (lo + n / 2) (n - n / 2)

/-- XOR of all 4-byte chunks of a 4096-byte buffer. -/
def xorChunks (d : Bytes) : Nat := xorRangeAux d 11 0 (PAGE_SIZE / 4)

/-- `update_checksum`: XORs all 4-byte chunks of `self.data` — with the
*current* checksum field still in place — and stores the result. -/
def updateChecksum (p : Page) : Page := p.setChecksum (xorChunks p.data)

/-- `verify_checksum`: recomputes over a copy whose checksum field has been
zeroed and compares with the stored value. -/
def verify_checksum (p : Page) : Bool :=
  p.getChecksum == xorChunks (writeRange p.data 28 [0, 0, 0, 0])

/-- `Page::new(id, data)`, with the `data: Vec<u8>` argument represented
as a byte function together with its length (`writeBuf` is
`copy_from_slice` of the first `min(len, PAGE_SIZE - PAGE_HEADER_SIZE)`
source bytes). -/
def newBuf (id : PageId) (buf : Bytes) (len : Nat) : Page :=
  let p : Page := { id := id, data := fun _ => 0, dirty := false }
  let p := p.setPageId id.page_num
  let p := p.setPrevPage 0
  let p := p.setNextPage 0
  let p := p.setFreeSpaceOffset PAGE_HEADER_SIZE
  let p := p.setSlotCount 0
  let p := p.setPageType 0
  let p := p.setFlags 0
  let p :=
    if len = 0 then p
    else
      let l := min len (PAGE_SIZE - PAGE_HEADER_SIZE)
      let p := { p with data := writeBuf p.data PAGE_HEADER_SIZE buf l }
      p.setFreeSpaceOffset (PAGE_HEADER_SIZE + l)
  p.updateChecksum

/-- `Page::new(id, data)` on a concrete byte list. -/
def new (id : PageId) (init : List Nat) : Page :=
  newBuf id (fun k => init.getD k 0) init.length

/-- `read_at`. -/
def read_at (p : Page) (off len : Nat) : Except Err (List Nat) :=
  if off + len > PAGE_SIZE then .error .storage
  else .ok (readRange p.data off len)

/-- `write_at`. -/
def write_at (p : Page) (off : Nat) (bs : List Nat) : Except Err Page :=
  if off + bs.length > PAGE_SIZE then .error .storage
  else .ok { p with data := writeRange p.data off bs, dirty := true }

/-- `read_slot`. -/
def read_slot (p : Page) (slot_id : Nat) : Except Err Slot :=
  if slot_id ≥ p.getSlotCount then .error .storage
  else
    let off := PAGE_HEADER_SIZE + slot_id * SLOT_SIZE
    .ok ⟨readU16 p.data off, readU16 p.data (off + 2)⟩

/-- `write_slot` (writes the slot's two `u16` fields at
`PAGE_HEADER_SIZE + slot_id * SLOT_SIZE`). -/
def write_slot (p : Page) (slot_id : Nat) (s : Slot) : Except Err Page :=
  if slot_id > p.getSlotCount then .error .storage
  else
    let off := PAGE_HEADER_SIZE + slot_id * SLOT_SIZE
    let d := writeU16 (writeU16 p.data off s.offset) (off + 2) s.length
    .ok { p with data := d, dirty := true }

/-- `get_free_space` (`usize` subtraction; in every state reachable below
the subtraction does not underflow, so `Nat` truncated subtraction agrees
with the source). -/
def get_free_space (p : Page) : Nat :=
  PAGE_SIZE - p.getFreeSpaceOffset - p.getSlotCount * SLOT_SIZE

/-- `insert_record`: returns the new page and the returned slot id.  The
`?` early returns of the source are explicit `match`es here, and the local
variables `free_space_offset`/`slot_count` of the source (captured before
any write) appear as `p.getFreeSpaceOffset`/`p.getSlotCount` on the
original page `p`. -/
def insert_record (p : Page) (bs : List Nat) : Except Err (Page × Nat) :=
  if bs.length + SLOT_SIZE > p.get_free_space then .error .storage
  else
    match p.write_at p.getFreeSpaceOffset bs with
    | .error e => .error e
    | .ok p1 =>
      match p1.write_slot p.getSlotCount ⟨p.getFreeSpaceOffset, bs.length % 65536⟩ with
      | .error e => .error e
      | .ok p2 =>
        .ok (((p2.setFreeSpaceOffset (p.getFreeSpaceOffset + bs.length)).setSlotCount
          (p.getSlotCount + 1)).updateChecksum, p.getSlotCount)

/-- `read_record`. -/
def read_record (p : Page) (slot_id : Nat) : Except Err (List Nat) :=
  match p.read_slot slot_id with
  | .error e => .error e
  | .ok s => p.read_at s.offset s.length

/-- `delete_record`. -/
def delete_record (p : Page) (slot_id : Nat) : Except Err Page :=
  match p.read_slot slot_id with
  | .error e => .error e
  | .ok _ =>
    match p.write_slot slot_id ⟨0, 0⟩ with
    | .error e => .error e
    | .ok p => .ok p.updateChecksum

/-- `update_record` (`data.len() as u16 <= slot.length` performs a `u16`
cast of the new length before the comparison). -/
def update_record (p : Page) (slot_id : Nat) (bs : List Nat) : Except Err Page :=
  match p.read_slot slot_id with
  | .error e => .error e
  | .ok s =>
    if bs.length % 65536 ≤ s.length then
      match p.write_at s.offset bs with
      | .error e => .error e
      | .ok p => .ok p.updateChecksum
    else
      match p.insert_record bs with
      | .error e => .error e
      | .ok (p, _) =>
        match p.delete_record slot_id with
        | .error e => .error e
        | .ok p => .ok p.updateChecksum

/-- `compact`: builds `new_data`, copying the header and the live records,
while `write_slot` during the loop writes into the *old* `self.data`, which
is then replaced wholesale by `new_data`. -/
def compact (p : Page) : Except Err Page := do
  let sc := p.getSlotCount
  let newData0 : Bytes := fun j => if j < PAGE_HEADER_SIZE then p.data j else 0
  let st ← (List.range sc).foldlM
    (fun (st : Page × Bytes × Nat) slot_id => do
      let (p, nd, no) := st
      let s ← p.read_slot slot_id
      if s.length > 0 then do
        let bs ← p.read_at s.offset s.length
        let nd := writeRange nd no bs
        let p ← p.write_slot slot_id ⟨no % 65536, s.length⟩
        pure (p, nd, no + bs.length)
      else
        pure (p, nd, no))
    (p, newData0, PAGE_HEADER_SIZE)
  let (p, newData, newOff) := st
  let p := { p with data := newData }
  let p := p.setFreeSpaceOffset newOff
  .ok p.updateChecksum

/-- Sum of the stored lengths of all slots of the page (tombstoned slots
store length 0, so this is the claim's "sum of the lengths of the live
records"). -/
def liveBytes (p : Page) : Nat :=
  ((List.range p.getSlotCount).map
    (fun sid => readU16 p.data (PAGE_HEADER_SIZE + sid * SLOT_SIZE + 2))).sum

end Page

/-- A page-mutating operation of the slotted page. -/
inductive PageOp
  | ins (bs : List Nat)
  | del (slot : Nat)

/-- Apply one operation; a failing operation leaves the page unchanged
(`insert_record` checks space before writing, `delete_record` validates the
slot id before writing). -/
def applyOp (p : Page) (op : PageOp) : Page :=
  match op with
  | .ins bs => match p.insert_record bs with | .ok (p', _) => p' | .error _ => p
  | .del sid => match p.delete_record sid with | .ok p' => p' | .error _ => p

def applyOps (p : Page) : List PageOp → Page
  | [] => p
  | op :: ops => applyOps (applyOp p op) ops

/-- Total bytes appended into the data region by the successful inserts of
a trace (later deletions do not reclaim them). -/
def appendedBytes (p : Page) : List PageOp → Nat
  | [] => 0
  | .ins bs :: ops =>
    (match p.insert_record bs with | .ok _ => bs.length | .error _ => 0)
      + appendedBytes (applyOp p (.ins bs)) ops
  | .del sid :: ops => appendedBytes (applyOp p (.del sid)) ops

/-! ## Buffer pool (`src/storage/buffer_pool.rs`)

The async methods are modelled with sequential semantics (one call runs to
completion); the shared `Arc<Mutex<..>>` state is threaded explicitly, so a
method returns its `Result` together with the pool (and the disk, when it
may write).  The disk is a byte store; `load_page` reads and `flush`
writes `PAGE_SIZE` bytes at `page_num * PAGE_SIZE` (the pager convention
used by `load_page`'s offset computation). -/

/-- The backing file: value of the byte at each offset. -/
abbrev Disk := Nat → Nat

/-- `BufferEntry { page, dirty, pin_count, last_accessed }`; the `Instant`
is a logical clock value. -/
structure BufferEntry where
  page : Page
  dirty : Bool
  pin_count : Nat
  last_accessed : Nat

structure BufferPoolStats where
  total_pages : Nat := 0
  dirty_pages : Nat := 0
  pinned_pages : Nat := 0
  hit_count : Nat := 0
  miss_count : Nat := 0
  eviction_count : Nat := 0

/-- `BufferPool`; the `HashMap` is an association list and the `LruCache`
a list of page ids, least-recently-used first. -/
structure BufferPool where
  max_pages : Nat
  pages : List (PageId × BufferEntry)
  lru : List PageId
  stats : BufferPoolStats
  clock : Nat

def BufferPool.new (max_pages : Nat) : BufferPool :=
  { max_pages := max_pages, pages := [], lru := [], stats := {}, clock := 0 }

def mapGet (m : List (PageId × BufferEntry)) (id : PageId) : Option BufferEntry :=
  match m with
  | [] => none
  | (k, v) :: rest => if k = id then some v else mapGet rest id

def mapSet (m : List (PageId × BufferEntry)) (id : PageId) (e : BufferEntry) :
    List (PageId × BufferEntry) :=
  match m with
  | [] => [(id, e)]
  | (k, v) :: rest => if k = id then (k, e) :: rest else (k, v) :: mapSet rest id e

def mapRemove (m : List (PageId × BufferEntry)) (id : PageId) :
    List (PageId × BufferEntry) :=
  match m with
  | [] => []
  | (k, v) :: rest => if k = id then rest else (k, v) :: mapRemove rest id

/-- `LruCache::put` (refresh-or-insert at the most-recent end). -/
def lruPut (l : List PageId) (id : PageId) : List PageId :=
  (l.filter (fun x => x ≠ id)) ++ [id]

/-- `Page::flush` at eviction/flush time: write the page's `PAGE_SIZE`
bytes at `page_num * PAGE_SIZE`. -/
def diskFlush (disk : Disk) (p : Page) : Disk :=
  fun a =>
    if p.id.page_num * PAGE_SIZE ≤ a ∧ a < p.id.page_num * PAGE_SIZE + PAGE_SIZE then
      p.data (a - p.id.page_num * PAGE_SIZE)
    else disk a

/-- `load_page`: read `PAGE_SIZE` bytes at the page's offset and build a
page from them via `Page::new(page_id, buffer)`. -/
def loadPage (disk : Disk) (id : PageId) : Page :=
  Page.newBuf id (fun k => disk (id.page_num * PAGE_SIZE + k)) PAGE_SIZE

/-- The `while pages.len() >= max_pages` eviction loop of `add_to_cache`.
`lru.pop_lru()` permanently removes the popped id, even when the entry is
pinned and therefore skipped; the loop's mutations persist when it fails.
Returns `(success?, pages, lru, stats, disk)`. -/
def addLoop (max : Nat) :
    List PageId → List (PageId × BufferEntry) → BufferPoolStats → Disk →
    Bool × List (PageId × BufferEntry) × List PageId × BufferPoolStats × Disk
  | lru, pages, stats, disk =>
    if pages.length < max then (true, pages, lru, stats, disk)
    else
      match lru with
      | [] => (false, pages, [], stats, disk)
      | evict_id :: rest =>
        match mapGet pages evict_id with
        | some entry =>
          if entry.pin_count = 0 then
            let disk := if entry.dirty then diskFlush disk entry.page else disk
            addLoop max rest (mapRemove pages evict_id)
              { stats with eviction_count := stats.eviction_count + 1 } disk
          else addLoop max rest pages stats disk
        | none => addLoop max rest pages stats disk

/-- `add_to_cache`: evict as needed, then insert the new entry with
`pin_count = 1` and put it into the LRU. -/
def addToCache (bp : BufferPool) (disk : Disk) (id : PageId) (page : Page) :
    Except Err Page × BufferPool × Disk :=
  match addLoop bp.max_pages bp.lru bp.pages bp.stats disk with
  | (true, pages, lru, stats, disk) =>
    let entry : BufferEntry :=
      { page := page, dirty := false, pin_count := 1, last_accessed := bp.clock }
    ( .ok page,
      { bp with
        pages := mapSet pages id entry,
        lru := lruPut lru id,
        stats := stats,
        clock := bp.clock + 1 },
      disk )
  | (false, pages, lru, stats, disk) =>
    ( .error .storage,
      { bp with
        pages := pages,
        lru := lru,
        stats := stats },
      disk )

/-- `get_page`. -/
def getPage (bp : BufferPool) (disk : Disk) (id : PageId) :
    Except Err Page × BufferPool × Disk :=
  match mapGet bp.pages id with
  | some e =>
    let e' := { e with pin_count := e.pin_count + 1, last_accessed := bp.clock }
    ( .ok e'.page,
      { bp with
        pages := mapSet bp.pages id e',
        stats := { bp.stats with hit_count := bp.stats.hit_count + 1 },
        clock := bp.clock + 1 },
      disk )
  | none =>
    let bp := { bp with stats := { bp.stats with miss_count := bp.stats.miss_count + 1 } }
    addToCache bp disk id (loadPage disk id)

/-- `pin_page`: note the signature — it does not touch the disk at all. -/
def pinPage (bp : BufferPool) (id : PageId) : Except Err Unit × BufferPool :=
  match mapGet bp.pages id with
  | some e =>
    let e' := { e with pin_count := e.pin_count + 1, last_accessed := bp.clock }
    (.ok (), { bp with pages := mapSet bp.pages id e', clock := bp.clock + 1 })
  | none => (.error .storage, bp)

/-- `unpin_page`. -/
def unpinPage (bp : BufferPool) (id : PageId) : Except Err Unit × BufferPool :=
  match mapGet bp.pages id with
  | some e =>
    if e.pin_count > 0 then
      (.ok (), { bp with pages := mapSet bp.pages id { e with pin_count := e.pin_count - 1 } })
    else (.error .storage, bp)
  | none => (.error .storage, bp)

/-- `mark_dirty`. -/
def markDirty (bp : BufferPool) (id : PageId) : Except Err Unit × BufferPool :=
  match mapGet bp.pages id with
  | some e =>
    (.ok (), { bp with pages := mapSet bp.pages id { e with dirty := true } })
  | none => (.error .storage, bp)

/-- `flush_page`. -/
def flushPage (bp : BufferPool) (disk : Disk) (id : PageId) :
    Except Err Unit × BufferPool × Disk :=
  match mapGet bp.pages id with
  | some e =>
    if e.dirty then
      ( .ok (),
        { bp with pages := mapSet bp.pages id { e with dirty := false } },
        diskFlush disk e.page )
    else (.ok (), bp, disk)
  | none => (.error .storage, bp, disk)

/-- Is an `Except` result `Ok`? -/
def isOkE {α : Type} : Except Err α → Bool
  | .ok _ => true
  | .error _ => false

/-! ## B-tree (`src/index/btree.rs`)

The tree algorithms read and write whole `Node`s through
`load_node`/`save_node` (buffer pool + `Node::{from_page,to_page}`).  The
serialization glue calls `Page` methods (`get_data`, `write_data`) that do
not exist in the repository, so the storage layer below the algorithms is
abstracted to a store mapping a page id to the node it holds; `load_node`
of an unmapped id is the I/O failure case.  `allocate_page` (also absent
from `buffer_pool.rs`) hands out fresh ids from a counter, following the
spec's pager contract ("assign next unused page_num"); `free_page` removes
the binding.  Key comparison `key < keys[i]` on `&[u8]` is unsigned
lexicographic byte order. -/

def B : Nat := 6

def MIN_KEYS : Nat := B - 1

def MAX_KEYS : Nat := 2 * B - 1

/-- `Node { page_id, keys, values, children, is_leaf }`. -/
structure Node where
  page_id : Nat
  keys : List (List Nat)
  values : List Nat
  children : List Nat
  is_leaf : Bool
deriving DecidableEq, Repr

/-- The node-level view of the pager/buffer-pool storage. -/
abbrev Store := Nat → Option Node

/-- A `BTree` handle together with the storage it operates on:
`root_page_id`, `config.unique`, the allocation counter and the store. -/
structure TreeState where
  root : Nat
  unique : Bool
  nextPage : Nat
  store : Store

/-- `&[u8] < &[u8]`: lexicographic order on byte strings. -/
def bytesLt : List Nat → List Nat → Bool
  | _, [] => false
  | [], _ :: _ => true
  | a :: as, b :: bs => if a < b then true else if b < a then false else bytesLt as bs

/-- `Vec::insert(i, a)` (in-bounds in every reachable call). -/
def insertAt {α : Type} (l : List α) (i : Nat) (a : α) : List α :=
  l.take i ++ a :: l.drop i

/-- `Vec::remove(i)` (in-bounds in every reachable call). -/
def removeAt {α : Type} (l : List α) (i : Nat) : List α :=
  l.take i ++ l.drop (i + 1)

/-- `load_node` (`get_page` + `Node::from_page`). -/
def loadNode (st : Store) (id : Nat) : Except Err Node :=
  match st id with
  | some n => .ok n
  | none => .error .storage

/-- `save_node` (`get_page` + `Node::to_page`). -/
def saveNode (st : Store) (n : Node) : Store :=
  fun i => if i = n.page_id then some n else st i

/-- The descending scan `let mut i = len; while i > 0 && key < keys[i-1]
{ i -= 1 }` of `insert_non_full`, by the number of remaining steps. -/
def scanPosAux (keys : List (List Nat)) (key : List Nat) : Nat → Nat
  | 0 => 0
  | i + 1 => if bytesLt key (keys.getD i []) then scanPosAux keys key i else i + 1

def scanPos (keys : List (List Nat)) (key : List Nat) : Nat :=
  scanPosAux keys key keys.length

/-- The ascending scan `let mut i = 0; while i < len && key > keys[i]
{ i += 1 }` of `search_node`/`delete_key`. -/
def searchScan (keys : List (List Nat)) (key : List Nat) : Nat :=
  match keys with
  | [] => 0
  | k :: rest => if bytesLt k key then searchScan rest key + 1 else 0

/-- `split_child(parent, index, child)`: allocate a page for the right
sibling, move `keys[mid+1..]` into it (`split_off(mid+1)`), extract the
median (`remove(mid)`) into the parent at `index`, and save parent, left
child and new sibling.  Returns the updated state and parent. -/
def splitChild (ts : TreeState) (parent : Node) (index : Nat) (child : Node) :
    TreeState × Node :=
  let newId := ts.nextPage
  let mid := MIN_KEYS
  let newNode : Node :=
    { page_id := newId,
      keys := child.keys.drop (mid + 1),
      values := child.values.drop (mid + 1),
      children := if child.is_leaf then [] else child.children.drop (mid + 1),
      is_leaf := child.is_leaf }
  let medianKey := child.keys.getD mid []
  let medianVal := child.values.getD mid 0
  let child :=
    { child with
      keys := child.keys.take mid,
      values := child.values.take mid,
      children := if child.is_leaf then child.children else child.children.take (mid + 1) }
  let parent :=
    { parent with
      keys := insertAt parent.keys index medianKey,
      values := insertAt parent.values index medianVal,
      children := insertAt parent.children (index + 1) newId }
  let st := saveNode (saveNode (saveNode ts.store parent) child) newNode
  ({ ts with nextPage := ts.nextPage + 1, store := st }, parent)

/-- `insert_non_full`; mutations already saved persist when an error
propagates, so the state is returned alongside the `Result`. -/
def insertNonFull : Nat → TreeState → Node → List Nat → Nat →
    Except Err Unit × TreeState
  | 0, ts, _, _, _ => (.error .storage, ts)
  | fuel + 1, ts, node, key, val =>
    if node.is_leaf then
      let i := scanPos node.keys key
      if ts.unique = true ∧ 0 < i ∧ node.keys.getD (i - 1) [] = key then
        (.error .storage, ts)
      else
        let node :=
          { node with
            keys := insertAt node.keys i key,
            values := insertAt node.values i val }
        (.ok (), { ts with store := saveNode ts.store node })
    else
      let i := scanPos node.keys key
      match loadNode ts.store (node.children.getD i 0) with
      | .error e => (.error e, ts)
      | .ok child =>
        if child.keys.length = MAX_KEYS then
          let (ts, node) := splitChild ts node i child
          let i := if bytesLt (node.keys.getD i []) key then i + 1 else i
          match loadNode ts.store (node.children.getD i 0) with
          | .error e => (.error e, ts)
          | .ok child => insertNonFull fuel ts child key val
        else insertNonFull fuel ts child key val

/-- `BTree::insert`: split a full root under a freshly allocated root
first, then descend. -/
def insertTree (fuel : Nat) (ts : TreeState) (key : List Nat) (val : Nat) :
    Except Err Unit × TreeState :=
  match loadNode ts.store ts.root with
  | .error e => (.error e, ts)
  | .ok root =>
    if root.keys.length = MAX_KEYS then
      let newRootId := ts.nextPage
      let newRoot : Node :=
        { page_id := newRootId, keys := [], values := [], children := [ts.root],
          is_leaf := false }
      let ts := { ts with nextPage := ts.nextPage + 1 }
      let (ts, newRoot) := splitChild ts newRoot 0 root
      let ts := { ts with root := newRootId }
      insertNonFull fuel ts newRoot key val
    else insertNonFull fuel ts root key val

/-- `search_node`. -/
def searchNode : Nat → Store → Nat → List Nat → Except Err (Option Nat)
  | 0, _, _, _ => .error .storage
  | fuel + 1, st, id, key =>
    match loadNode st id with
    | .error e => .error e
    | .ok node =>
      let i := searchScan node.keys key
      if i < node.keys.length ∧ node.keys.getD i [] = key then
        .ok (some (node.values.getD i 0))
      else if node.is_leaf then .ok none
      else searchNode fuel st (node.children.getD i 0) key

/-- `BTree::search`. -/
def searchTree (fuel : Nat) (ts : TreeState) (key : List Nat) : Except Err (Option Nat) :=
  searchNode fuel ts.store ts.root key

/-- The descent of `get_predecessor` ("while !current.is_leaf { current =
load(children.last) }"); indexing an empty `keys`/`children` would panic
in the source and is an error here. -/
def predDescend : Nat → Store → Node → Except Err (List Nat × Nat)
  | 0, _, _ => .error .storage
  | fuel + 1, st, current =>
    if current.is_leaf then
      if current.keys.length = 0 ∨ current.values.length = 0 then .error .storage
      else
        .ok (current.keys.getD (current.keys.length - 1) [],
          current.values.getD (current.values.length - 1) 0)
    else
      if current.children.length = 0 then .error .storage
      else
        match loadNode st (current.children.getD (current.children.length - 1) 0) with
        | .error e => .error e
        | .ok next => predDescend fuel st next

/-- `get_predecessor(node, index)`. -/
def getPredecessor (fuel : Nat) (st : Store) (node : Node) (index : Nat) :
    Except Err (List Nat × Nat) :=
  match loadNode st (node.children.getD index 0) with
  | .error e => .error e
  | .ok current => predDescend fuel st current

/-- `rotate_left(parent, index)`. -/
def rotateLeft (ts : TreeState) (parent : Node) (index : Nat) :
    Except Err Unit × TreeState :=
  match loadNode ts.store (parent.children.getD index 0) with
  | .error e => (.error e, ts)
  | .ok left =>
    match loadNode ts.store (parent.children.getD (index + 1) 0) with
    | .error e => (.error e, ts)
    | .ok right =>
      let left :=
        { left with
          keys := left.keys ++ [parent.keys.getD index []],
          values := left.values ++ [parent.values.getD index 0] }
      let parent :=
        { parent with
          keys := parent.keys.set index (right.keys.getD 0 []),
          values := parent.values.set index (right.values.getD 0 0) }
      let left :=
        if left.is_leaf then left
        else { left with children := left.children ++ [right.children.getD 0 0] }
      let right :=
        { right with
          keys := right.keys.drop 1,
          values := right.values.drop 1,
          children := if left.is_leaf then right.children else right.children.drop 1 }
      (.ok (), { ts with
        store := saveNode (saveNode (saveNode ts.store parent) left) right })

/-- `rotate_right(parent, index)`. -/
def rotateRight (ts : TreeState) (parent : Node) (index : Nat) :
    Except Err Unit × TreeState :=
  match loadNode ts.store (parent.children.getD index 0) with
  | .error e => (.error e, ts)
  | .ok left =>
    match loadNode ts.store (parent.children.getD (index + 1) 0) with
    | .error e => (.error e, ts)
    | .ok right =>
      let right :=
        { right with
          keys := insertAt right.keys 0 (parent.keys.getD index []),
          values := insertAt right.values 0 (parent.values.getD index 0) }
      let parent :=
        { parent with
          keys := parent.keys.set index (left.keys.getD (left.keys.length - 1) []),
          values := parent.values.set index (left.values.getD (left.values.length - 1) 0) }
      let left' :=
        { left with
          keys := left.keys.take (left.keys.length - 1),
          values := left.values.take (left.values.length - 1) }
      let right :=
        if right.is_leaf then right
        else { right with
          children := insertAt right.children 0
            (left.children.getD (left.children.length - 1) 0) }
      let left' :=
        if right.is_leaf then left'
        else { left' with children := left.children.take (left.children.length - 1) }
      (.ok (), { ts with
        store := saveNode (saveNode (saveNode ts.store parent) left') right })

/-- `merge_nodes(parent, index)`: fold the separator and the right
sibling into the left child, drop the right child pointer, save parent and
left, free the right sibling's page. -/
def mergeNodes (ts : TreeState) (parent : Node) (index : Nat) :
    Except Err Unit × TreeState :=
  match loadNode ts.store (parent.children.getD index 0) with
  | .error e => (.error e, ts)
  | .ok left =>
    match loadNode ts.store (parent.children.getD (index + 1) 0) with
    | .error e => (.error e, ts)
    | .ok right =>
      let left :=
        { left with
          keys := left.keys ++ [parent.keys.getD index []] ++ right.keys,
          values := left.values ++ [parent.values.getD index 0] ++ right.values,
          children := if left.is_leaf then left.children
            else left.children ++ right.children }
      let parent :=
        { parent with
          keys := removeAt parent.keys index,
          values := removeAt parent.values index,
          children := removeAt parent.children (index + 1) }
      let st := saveNode (saveNode ts.store parent) left
      let st := fun i => if i = right.page_id then none else st i
      (.ok (), { ts with store := st })

/-- The merge fallback of `rebalance`. -/
def rebalanceMerge (ts : TreeState) (parent : Node) (child_index : Nat) :
    Except Err Unit × TreeState :=
  if 0 < child_index then mergeNodes ts parent (child_index - 1)
  else mergeNodes ts parent child_index

/-- The right-sibling attempt of `rebalance`. -/
def rebalanceRight (ts : TreeState) (parent : Node) (child_index : Nat) :
    Except Err Unit × TreeState :=
  if child_index < parent.children.length - 1 then
    match loadNode ts.store (parent.children.getD (child_index + 1) 0) with
    | .error e => (.error e, ts)
    | .ok rs =>
      if MIN_KEYS < rs.keys.length then rotateLeft ts parent child_index
      else rebalanceMerge ts parent child_index
  else rebalanceMerge ts parent child_index

/-- `rebalance(parent, child_index)`: borrow from the left sibling, else
from the right sibling, else merge. -/
def rebalance (ts : TreeState) (parent : Node) (child_index : Nat) :
    Except Err Unit × TreeState :=
  match loadNode ts.store (parent.children.getD child_index 0) with
  | .error e => (.error e, ts)
  | .ok _ =>
    if 0 < child_index then
      match loadNode ts.store (parent.children.getD (child_index - 1) 0) with
      | .error e => (.error e, ts)
      | .ok ls =>
        if MIN_KEYS < ls.keys.length then rotateRight ts parent (child_index - 1)
        else rebalanceRight ts parent child_index
    else rebalanceRight ts parent child_index

/-- `delete_key`.  Note: in the "key found in an internal node" branch the
code replaces the key by its predecessor and recursively deletes the
predecessor from `children[i]` *without* any rebalance check afterwards. -/
def deleteKey : Nat → TreeState → Nat → List Nat → Except Err Unit × TreeState
  | 0, ts, _, _ => (.error .storage, ts)
  | fuel + 1, ts, pid, key =>
    match loadNode ts.store pid with
    | .error e => (.error e, ts)
    | .ok node =>
      let i := searchScan node.keys key
      if node.is_leaf then
        if i < node.keys.length ∧ node.keys.getD i [] = key then
          let node :=
            { node with
              keys := removeAt node.keys i,
              values := removeAt node.values i }
          (.ok (), { ts with store := saveNode ts.store node })
        else (.ok (), ts)
      else
        if i < node.keys.length ∧ node.keys.getD i [] = key then
          match getPredecessor fuel ts.store node i with
          | .error e => (.error e, ts)
          | .ok pred =>
            let node :=
              { node with
                keys := node.keys.set i pred.1,
                values := node.values.set i pred.2 }
            let ts := { ts with store := saveNode ts.store node }
            deleteKey fuel ts (node.children.getD i 0) pred.1
        else
          match deleteKey fuel ts (node.children.getD i 0) key with
          | (.error e, ts) => (.error e, ts)
          | (.ok _, ts) =>
            match loadNode ts.store (node.children.getD i 0) with
            | .error e => (.error e, ts)
            | .ok child =>
              if child.keys.length < MIN_KEYS then rebalance ts node i
              else (.ok (), ts)

/-- `BTree::delete`. -/
def deleteTree (fuel : Nat) (ts : TreeState) (key : List Nat) :
    Except Err Unit × TreeState :=
  deleteKey fuel ts ts.root key

/-- Modelled from the spec: `BTree::create` "allocates a single empty leaf
root" (spec §4.4); the source's body references an undefined `root_node`
and does not compile, so the initial state is taken from the spec's words:
page 0 holds an empty leaf and is the root. -/
def createTree (unique : Bool) : TreeState :=
  { root := 0, unique := unique, nextPage := 1,
    store := fun i => if i = 0 then some ⟨0, [], [], [], true⟩ else none }

/-- Run a sequence of inserts, keeping the state (results discarded). -/
def insertSeq (fuel : Nat) (ts : TreeState) (kvs : List (List Nat × Nat)) : TreeState :=
  kvs.foldl (fun ts kv => (insertTree fuel ts kv.1 kv.2).2) ts

/-- Twelve inserts with distinct single-byte keys `[0] … [11]`: the root
leaf fills at 11 keys and the 12th insert splits it, promoting key `[5]`
into the new internal root. -/
def keys12 : List (List Nat × Nat) := (List.range 12).map (fun i => ([i], i))

/-- C4 scenario: the 12 inserts, then delete of the promoted median `[5]`. -/
def c4tree : TreeState := (deleteTree 20 (insertSeq 20 (createTree false) keys12) [5]).2

/-- Key count of the node stored at a given page id (999 if absent). -/
def keyCountAt (ts : TreeState) (id : Nat) : Nat :=
  match ts.store id with
  | some n => n.keys.length
  | none => 999

/-- Children of the node stored at a given page id. -/
def childrenAt (ts : TreeState) (id : Nat) : List Nat :=
  match ts.store id with
  | some n => n.children
  | none => []

/-- C5 scenario: the same 12 distinct inserts on a unique tree. -/
def c5tree : TreeState := insertSeq 20 (createTree true) keys12

/-- Keys of the node stored at a given page id. -/
def keysAt (ts : TreeState) (id : Nat) : List (List Nat) :=
  match ts.store id with
  | some n => n.keys
  | none => []

/-- C2 scenario: two inserts of the same key on a non-unique tree. -/
def c2s1 : Except Err Unit × TreeState := insertTree 20 (createTree false) [1] 10

def c2s2 : Except Err Unit × TreeState := insertTree 20 c2s1.2 [1] 20

/-- Run a sequence of deletes, recording whether every one returned Ok. -/
def deleteSeqOk (fuel : Nat) : TreeState → List (List Nat) → Bool × TreeState
  | ts, [] => (true, ts)
  | ts, k :: ks =>
    match deleteTree fuel ts k with
    | (.ok _, ts2) => deleteSeqOk fuel ts2 ks
    | (.error _, ts2) => (false, ts2)

/-- C2 delete-trace scenario: the eight deletes `[0] … [7]` after the
twelve inserts of `keys12`.  The second delete forces the root-level merge
that leaves the internal root with zero keys and a single child; the
eighth underflows that only child, and `rebalance` falls through to
`merge_nodes(root, 0)` although `parent.children.len() = 1`. -/
def c2dels : List (List Nat) := [[0], [1], [2], [3], [4], [5], [6], [7]]

def c2delRun : Bool × TreeState :=
  deleteSeqOk 20 (insertSeq 20 (createTree false) keys12) c2dels

/-- A concrete single-leaf unique tree for the amended-C5 witness. -/
def c5leafNode : Node := ⟨0, [[2], [4]], [5, 6], [], true⟩

def c5leafTS : TreeState :=
  { root := 0, unique := true, nextPage := 1,
    store := fun i => if i = 0 then some c5leafNode else none }

/-- Strict ascending sortedness of a key sequence. -/
def Sorted (ks : List (List Nat)) : Prop :=
  List.Pairwise (fun a b => bytesLt a b = true) ks

instance : DecidablePred Sorted := fun ks =>
  List.instDecidablePairwise ks

/-! ## Wellformedness of a stored B-tree

The remaining definitions are the specification vocabulary used to verify
the tree algorithms: windows of keys, the wellformedness predicate `Good`
(sorted separated nodes, children one level down, uniform leaf depth via
the height index), the page ids of a subtree, its in-order contents, and
sorted-association-list operations. -/

/-- `k` is above the (exclusive, optional) lower bound. -/
def okLo : Option (List Nat) → List Nat → Prop
  | none, _ => True
  | some l, k => bytesLt l k = true

/-- `k` is below the (exclusive, optional) upper bound. -/
def okHi : List Nat → Option (List Nat) → Prop
  | _, none => True
  | k, some h => bytesLt k h = true

/-- Lower bound of the `j`-th child's window. -/
def childLo (n : Node) (lo : Option (List Nat)) (j : Nat) : Option (List Nat) :=
  if j = 0 then lo else some (n.keys.getD (j - 1) [])

/-- Upper bound of the `j`-th child's window. -/
def childHi (n : Node) (hi : Option (List Nat)) (j : Nat) : Option (List Nat) :=
  if j = n.keys.length then hi else some (n.keys.getD j [])

/-- Wellformed subtree of the given height stored at the given page id,
with all keys strictly inside the window `(lo, hi)`. -/
inductive Good (st : Store) : Nat → Nat → Option (List Nat) → Option (List Nat) → Prop
  | leaf (id : Nat) (n : Node) (lo hi : Option (List Nat)) :
      st id = some n → n.page_id = id → n.is_leaf = true →
      n.values.length = n.keys.length →
      Sorted n.keys →
      (∀ k ∈ n.keys, okLo lo k ∧ okHi k hi) →
      Good st id 0 lo hi
  | node (id : Nat) (n : Node) (lo hi : Option (List Nat)) (h : Nat) :
      st id = some n → n.page_id = id → n.is_leaf = false →
      n.values.length = n.keys.length →
      n.children.length = n.keys.length + 1 →
      Sorted n.keys →
      (∀ k ∈ n.keys, okLo lo k ∧ okHi k hi) →
      (∀ j, j < n.children.length →
        Good st (n.children.getD j 0) h (childLo n lo j) (childHi n hi j)) →
      Good st id (h + 1) lo hi

/-- Page ids of the subtree of the given height. -/
def idsOf : Nat → Store → Nat → List Nat
  | 0, _, id => [id]
  | h + 1, st, id =>
    match st id with
    | some n => id :: (n.children.map (fun c => idsOf h st c)).flatten
    | none => [id]

/-- In-order `child₀ key₀ child₁ key₁ …` interleaving, with one child
*before* each key (the final child is appended by `glue`). -/
def glueSegs (f : Nat → List (List Nat × Nat)) :
    List (List Nat) → List Nat → List Nat → List (List Nat × Nat)
  | [], _, _ => []
  | k :: ks, vs, cs =>
    f (cs.getD 0 0) ++ (k, vs.getD 0 0) :: glueSegs f ks (vs.drop 1) (cs.drop 1)

/-- In-order contents of an internal node from its parallel lists. -/
def glue (f : Nat → List (List Nat × Nat)) (ks : List (List Nat)) (vs : List Nat)
    (cs : List Nat) : List (List Nat × Nat) :=
  glueSegs f ks vs cs ++ f (cs.getD ks.length 0)

/-- In-order contents of the subtree of the given height. -/
def treeList : Nat → Store → Nat → List (List Nat × Nat)
  | 0, st, id =>
    match st id with
    | some n => n.keys.zip n.values
    | none => []
  | h + 1, st, id =>
    match st id with
    | some n => glue (fun c => treeList h st c) n.keys n.values n.children
    | none => []

/-- First value bound to a key in an association list. -/
def lookupKV : List (List Nat × Nat) → List Nat → Option Nat
  | [], _ => none
  | (k', v) :: rest, k => if k' = k then some v else lookupKV rest k

/-- Insertion into a `bytesLt`-sorted association list. -/
def kvsSortedInsert (k : List Nat) (v : Nat) :
    List (List Nat × Nat) → List (List Nat × Nat)
  | [] => [(k, v)]
  | (k', v') :: rest =>
    if bytesLt k k' then (k, v) :: (k', v') :: rest
    else (k', v') :: kvsSortedInsert k v rest

/-- Wellformed tree state of a given height: good tree under the root,
no page aliasing inside the tree, and every tree page already allocated. -/
def WF (ts : TreeState) (h : Nat) : Prop :=
  Good ts.store ts.root h none none
    ∧ (idsOf h ts.store ts.root).Nodup
    ∧ (∀ i ∈ idsOf h ts.store ts.root, i < ts.nextPage)

/-! ## Free-space accounting invariant -/

/-- Header sanity: `free_space_offset` is at least the header size and the
(record, slot) regions fit in the page, so `get_free_space`'s `usize`
subtractions do not underflow. -/
def HdrInv (p : Page) : Prop :=
  PAGE_HEADER_SIZE ≤ p.getFreeSpaceOffset ∧
  p.getFreeSpaceOffset + p.getSlotCount * SLOT_SIZE ≤ PAGE_SIZE

/-! ## Concrete scenarios on pages -/

/-- Fresh page with `page_num` 0, as produced by `Page::new` with no
initial data. -/
def freshPage : Page := Page.new ⟨0, 0⟩ []

/-- Insert one record into a fresh page and read it back, returning the
slot id handed out and the bytes read. -/
def insertThenRead (bs : List Nat) : Option (Nat × List Nat) :=
  match freshPage.insert_record bs with
  | .error _ => none
  | .ok (p, sid) =>
    match p.read_record sid with
    | .error _ => none
    | .ok out => some (sid, out)

/-- `verify_checksum` after inserting one record into a fresh page. -/
def verifyAfterInsert (bs : List Nat) : Option Bool :=
  match freshPage.insert_record bs with
  | .error _ => none
  | .ok (p, _) => some p.verify_checksum

/-- Two inserts then `compact`, as in the C7 scenario. -/
def c7pre : Page :=
  match freshPage.insert_record [9, 9, 9, 9, 9] with
  | .ok (p, _) =>
    match p.insert_record [7, 7, 7] with
    | .ok (p, _) => p
    | .error _ => p
  | .error _ => freshPage

def c7post : Page :=
  match c7pre.compact with
  | .ok p => p
  | .error _ => c7pre

/-- One insert into a fresh page, as in the C6 counterexample. -/
def c6page : Page :=
  match freshPage.insert_record [1, 2, 3, 4, 5] with
  | .ok (p, _) => p
  | .error _ => freshPage

/-! Buffer-pool scenarios. -/

/-- An all-zero backing file. -/
def disk0 : Disk := fun _ => 0

def pidA : PageId := ⟨1, 1⟩

def pidB : PageId := ⟨1, 2⟩

/-- C8 scenario: pool of capacity 1; load A (miss), mark A dirty, unpin A,
load B (evicts A, flushing it), unpin B, load A again (miss, reload). -/
def c8s1 : Except Err Page × BufferPool × Disk := getPage (BufferPool.new 1) disk0 pidA

/-- A's in-memory page just before its eviction. -/
def c8preEvict : Page :=
  match c8s1.1 with
  | .ok p => p
  | .error _ => freshPage

def c8s2 : BufferPool := (markDirty c8s1.2.1 pidA).2

def c8s3 : BufferPool := (unpinPage c8s2 pidA).2

def c8s4 : Except Err Page × BufferPool × Disk := getPage c8s3 c8s1.2.2 pidB

def c8s4b : BufferPool := (unpinPage c8s4.2.1 pidB).2

def c8s5 : Except Err Page × BufferPool × Disk := getPage c8s4b c8s4.2.2 pidA

/-- The page produced by reloading A after its eviction. -/
def c8reload : Page :=
  match c8s5.1 with
  | .ok p => p
  | .error _ => freshPage

/-- C9 scenario: pool of capacity 1; load A (pinned), load B while A is
still pinned (fails), unpin A, retry loading B. -/
def c9s1 : Except Err Page × BufferPool × Disk := getPage (BufferPool.new 1) disk0 pidA

def c9s2 : Except Err Page × BufferPool × Disk := getPage c9s1.2.1 c9s1.2.2 pidB

def c9s3 : BufferPool := (unpinPage c9s2.2.1 pidA).2

def c9s4 : Except Err Page × BufferPool × Disk := getPage c9s3 c9s2.2.2 pidB

/-! ## The balanced XOR equals the source's sequential fold -/

theorem foldl_xor_acc (f : Nat → Nat) (l : List Nat) (acc : Nat) :
    l.foldl (fun a i => a ^^^ f i) acc = acc ^^^ l.foldl (fun a i => a ^^^ f i) 0 := by
  induction l generalizing acc with
  | nil => simp
  | cons x xs ih =>
    simp only [List.foldl_cons]
    rw [ih (acc ^^^ f x), ih (0 ^^^ f x), Nat.zero_xor, Nat.xor_assoc]

theorem xorRangeAux_eq_foldl (d : Bytes) (f lo n : Nat) (h : n ≤ 2 ^ f) :
    Page.xorRangeAux d f lo n
      = (List.range' lo n).foldl (fun a i => a ^^^ Page.chunkVal d i) 0 := by
  induction f generalizing lo n with
  | zero =>
    interval_cases n <;> simp [Page.xorRangeAux]
  | succ f ih =>
    rw [Page.xorRangeAux]
    by_cases h1 : n ≤ 1
    · rw [if_pos h1]
      interval_cases n <;> simp
    · rw [if_neg h1]
      have hsplit : List.range' lo n
          = List.range' lo (n / 2) ++ List.range' (lo + n / 2) (n - n / 2) := by
        rw [List.range'_append_1]
        congr 1
        omega
      have hl : n / 2 ≤ 2 ^ f := by
        have : (2 : Nat) ^ (f + 1) = 2 ^ f * 2 := by ring
        omega
      have hr : n - n / 2 ≤ 2 ^ f := by
        have : (2 : Nat) ^ (f + 1) = 2 ^ f * 2 := by ring
        omega
      rw [ih lo (n / 2) hl, ih (lo + n / 2) (n - n / 2) hr, hsplit,
        List.foldl_append, foldl_xor_acc]
      exact (foldl_xor_acc _ _ _).symm

theorem xorChunks_eq_fold (d : Bytes) :
    Page.xorChunks d = Page.xorChunksFold d := by
  have h1024 : PAGE_SIZE / 4 = 1024 := by norm_num [PAGE_SIZE]
  rw [Page.xorChunks, Page.xorChunksFold, xorRangeAux_eq_foldl d 11 0 (PAGE_SIZE / 4)
    (by rw [h1024]; norm_num), List.range_eq_range']

/-! ## Byte-level lemmas about header fields -/

theorem writeRange_out {off : Nat} {bs : List Nat} (d : Bytes) {j : Nat}
    (h : j < off ∨ off + bs.length ≤ j) : writeRange d off bs j = d j := by
  unfold writeRange
  rw [if_neg]
  omega

theorem readU16_writeRange_out {off : Nat} {bs : List Nat} (d : Bytes) {o : Nat}
    (h : o + 2 ≤ off ∨ off + bs.length ≤ o) :
    readU16 (writeRange d off bs) o = readU16 d o := by
  unfold readU16
  rw [writeRange_out d (by omega), writeRange_out d (by omega)]

theorem readU16_writeU16_out (d : Bytes) (off v o : Nat)
    (h : o + 2 ≤ off ∨ off + 2 ≤ o) :
    readU16 (writeU16 d off v) o = readU16 d o := by
  unfold writeU16
  exact readU16_writeRange_out d (by simpa using h)

theorem readU16_writeU32_out (d : Bytes) (off v o : Nat)
    (h : o + 2 ≤ off ∨ off + 4 ≤ o) :
    readU16 (writeU32 d off v) o = readU16 d o := by
  unfold writeU32
  exact readU16_writeRange_out d (by simpa using h)

theorem readU16_writeU64_out (d : Bytes) (off v o : Nat)
    (h : o + 2 ≤ off ∨ off + 8 ≤ o) :
    readU16 (writeU64 d off v) o = readU16 d o := by
  unfold writeU64
  exact readU16_writeRange_out d (by simpa using h)

theorem readU16_writeU16_same (d : Bytes) (off v : Nat) :
    readU16 (writeU16 d off v) off = v % 65536 := by
  have e0 : writeU16 d off v off = v % 256 := by
    unfold writeU16 writeRange
    rw [if_pos (by simp)]
    simp
  have e1 : writeU16 d off v (off + 1) = v / 256 % 256 := by
    unfold writeU16 writeRange
    rw [if_pos (by simp)]
    have h1 : off + 1 - off = 1 := by omega
    rw [h1]
    simp
  unfold readU16
  rw [e0, e1]
  omega

namespace Page

@[simp] theorem getFSO_setSlotCount (p : Page) (v : Nat) :
    (p.setSlotCount v).getFreeSpaceOffset = p.getFreeSpaceOffset :=
  readU16_writeU16_out _ _ _ _ (by omega)

@[simp] theorem getFSO_setChecksum (p : Page) (v : Nat) :
    (p.setChecksum v).getFreeSpaceOffset = p.getFreeSpaceOffset :=
  readU16_writeU32_out _ _ _ _ (by omega)

@[simp] theorem getFSO_updateChecksum (p : Page) :
    p.updateChecksum.getFreeSpaceOffset = p.getFreeSpaceOffset :=
  getFSO_setChecksum _ _

@[simp] theorem getFSO_setFlags (p : Page) (v : Nat) :
    (p.setFlags v).getFreeSpaceOffset = p.getFreeSpaceOffset :=
  readU16_writeRange_out _ (by simp)

@[simp] theorem getFSO_setPageType (p : Page) (v : Nat) :
    (p.setPageType v).getFreeSpaceOffset = p.getFreeSpaceOffset :=
  readU16_writeRange_out _ (by simp)

@[simp] theorem getFSO_setPageId (p : Page) (v : Nat) :
    (p.setPageId v).getFreeSpaceOffset = p.getFreeSpaceOffset :=
  readU16_writeU64_out _ _ _ _ (by omega)

@[simp] theorem getFSO_setPrevPage (p : Page) (v : Nat) :
    (p.setPrevPage v).getFreeSpaceOffset = p.getFreeSpaceOffset :=
  readU16_writeU64_out _ _ _ _ (by omega)

@[simp] theorem getFSO_setNextPage (p : Page) (v : Nat) :
    (p.setNextPage v).getFreeSpaceOffset = p.getFreeSpaceOffset :=
  readU16_writeU64_out _ _ _ _ (by omega)

@[simp] theorem getFSO_setFSO (p : Page) (v : Nat) :
    (p.setFreeSpaceOffset v).getFreeSpaceOffset = v % 65536 :=
  readU16_writeU16_same _ _ _

@[simp] theorem getSC_setFSO (p : Page) (v : Nat) :
    (p.setFreeSpaceOffset v).getSlotCount = p.getSlotCount :=
  readU16_writeU16_out _ _ _ _ (by omega)

@[simp] theorem getSC_setChecksum (p : Page) (v : Nat) :
    (p.setChecksum v).getSlotCount = p.getSlotCount :=
  readU16_writeU32_out _ _ _ _ (by omega)

@[simp] theorem getSC_updateChecksum (p : Page) :
    p.updateChecksum.getSlotCount = p.getSlotCount :=
  getSC_setChecksum _ _

@[simp] theorem getSC_setFlags (p : Page) (v : Nat) :
    (p.setFlags v).getSlotCount = p.getSlotCount :=
  readU16_writeRange_out _ (by simp)

@[simp] theorem getSC_setPageType (p : Page) (v : Nat) :
    (p.setPageType v).getSlotCount = p.getSlotCount :=
  readU16_writeRange_out _ (by simp)

@[simp] theorem getSC_setPageId (p : Page) (v : Nat) :
    (p.setPageId v).getSlotCount = p.getSlotCount :=
  readU16_writeU64_out _ _ _ _ (by omega)

@[simp] theorem getSC_setPrevPage (p : Page) (v : Nat) :
    (p.setPrevPage v).getSlotCount = p.getSlotCount :=
  readU16_writeU64_out _ _ _ _ (by omega)

@[simp] theorem getSC_setNextPage (p : Page) (v : Nat) :
    (p.setNextPage v).getSlotCount = p.getSlotCount :=
  readU16_writeU64_out _ _ _ _ (by omega)

@[simp] theorem getSC_setSC (p : Page) (v : Nat) :
    (p.setSlotCount v).getSlotCount = v % 65536 :=
  readU16_writeU16_same _ _ _

theorem new_getFSO (id : PageId) : (Page.new id []).getFreeSpaceOffset = PAGE_HEADER_SIZE := by
  unfold Page.new Page.newBuf
  simp [PAGE_HEADER_SIZE]

theorem new_getSC (id : PageId) : (Page.new id []).getSlotCount = 0 := by
  unfold Page.new Page.newBuf
  simp

end Page

theorem write_at_ok (p : Page) (off : Nat) (bs : List Nat)
    (h : off + bs.length ≤ PAGE_SIZE) :
    p.write_at off bs
      = .ok { id := p.id, data := writeRange p.data off bs, dirty := true } := by
  unfold Page.write_at
  rw [if_neg (Nat.not_lt.mpr h)]

theorem write_slot_ok (p : Page) (sid : Nat) (s : Slot) (h : sid ≤ p.getSlotCount) :
    p.write_slot sid s
      = .ok (Page.mk p.id
          (writeU16 (writeU16 p.data (PAGE_HEADER_SIZE + sid * SLOT_SIZE) s.offset)
            (PAGE_HEADER_SIZE + sid * SLOT_SIZE + 2) s.length)
          true) := by
  unfold Page.write_slot
  rw [if_neg (Nat.not_lt.mpr h)]

theorem insert_record_ok (p : Page) (bs : List Nat)
    (hfree : bs.length + SLOT_SIZE ≤ p.get_free_space) (hinv : HdrInv p) :
    ∃ p', p.insert_record bs = .ok (p', p.getSlotCount) ∧
      p'.getFreeSpaceOffset = p.getFreeSpaceOffset + bs.length ∧
      p'.getSlotCount = p.getSlotCount + 1 := by
  obtain ⟨h1, h2⟩ := hinv
  have h1' : 64 ≤ p.getFreeSpaceOffset := h1
  have h2' : p.getFreeSpaceOffset + p.getSlotCount * 8 ≤ 4096 := h2
  have hfree' : bs.length + 8 ≤ 4096 - p.getFreeSpaceOffset - p.getSlotCount * 8 := hfree
  have hA : p.getFreeSpaceOffset + bs.length ≤ PAGE_SIZE := by
    show p.getFreeSpaceOffset + bs.length ≤ 4096
    omega
  unfold Page.insert_record
  rw [if_neg (Nat.not_lt.mpr hfree), write_at_ok p _ bs hA]
  simp only []
  have hle : p.getSlotCount
      ≤ (Page.mk p.id (writeRange p.data p.getFreeSpaceOffset bs) true).getSlotCount :=
    Nat.le_of_eq (readU16_writeRange_out _ (Or.inl (by omega))).symm
  rw [write_slot_ok _ _ _ hle]
  simp only []
  refine ⟨_, rfl, ?_, ?_⟩
  · rw [Page.getFSO_updateChecksum, Page.getFSO_setSlotCount, Page.getFSO_setFSO]
    omega
  · rw [Page.getSC_updateChecksum, Page.getSC_setSC]
    omega

theorem insert_record_err (p : Page) (bs : List Nat)
    (hfree : bs.length + SLOT_SIZE > p.get_free_space) :
    p.insert_record bs = .error .storage := by
  unfold Page.insert_record
  rw [if_pos hfree]

theorem delete_record_ok (p : Page) (sid : Nat) (hsid : sid < p.getSlotCount) :
    ∃ p', p.delete_record sid = .ok p' ∧
      p'.getFreeSpaceOffset = p.getFreeSpaceOffset ∧
      p'.getSlotCount = p.getSlotCount := by
  unfold Page.delete_record Page.read_slot
  rw [if_neg (Nat.not_le.mpr hsid)]
  unfold Page.write_slot
  rw [if_neg (Nat.not_lt.mpr (Nat.le_of_lt hsid))]
  refine ⟨_, rfl, ?_, ?_⟩
  · rw [Page.getFSO_updateChecksum]
    show readU16 _ 24 = _
    rw [readU16_writeU16_out _ _ _ _ (Or.inl (by unfold PAGE_HEADER_SIZE; omega)),
      readU16_writeU16_out _ _ _ _ (Or.inl (by unfold PAGE_HEADER_SIZE; omega))]
    rfl
  · rw [Page.getSC_updateChecksum]
    show readU16 _ 26 = _
    rw [readU16_writeU16_out _ _ _ _ (Or.inl (by unfold PAGE_HEADER_SIZE; omega)),
      readU16_writeU16_out _ _ _ _ (Or.inl (by unfold PAGE_HEADER_SIZE; omega))]
    rfl

theorem delete_record_err (p : Page) (sid : Nat) (hsid : p.getSlotCount ≤ sid) :
    p.delete_record sid = .error .storage := by
  unfold Page.delete_record Page.read_slot
  rw [if_pos hsid]

/-- An insert step preserves the header invariant and advances
`free_space_offset` by exactly the appended length. -/
theorem applyOp_hdr_ins (p : Page) (bs : List Nat) (h : HdrInv p) :
    HdrInv (applyOp p (.ins bs)) ∧
    (applyOp p (.ins bs)).getFreeSpaceOffset
      = p.getFreeSpaceOffset
        + (match p.insert_record bs with | .ok _ => bs.length | .error _ => 0) := by
  obtain ⟨h1, h2⟩ := h
  by_cases hf : bs.length + SLOT_SIZE ≤ p.get_free_space
  · obtain ⟨p', hok, hfso, hsc⟩ := insert_record_ok p bs hf ⟨h1, h2⟩
    have hfree' : bs.length + 8 ≤ 4096 - p.getFreeSpaceOffset - p.getSlotCount * 8 := hf
    have h1' : (64 : Nat) ≤ p.getFreeSpaceOffset := h1
    have h2' : p.getFreeSpaceOffset + p.getSlotCount * 8 ≤ 4096 := h2
    have he : applyOp p (.ins bs) = p' := by simp only [applyOp, hok]
    refine ⟨⟨?_, ?_⟩, ?_⟩
    · rw [he]
      show 64 ≤ p'.getFreeSpaceOffset
      omega
    · rw [he]
      show p'.getFreeSpaceOffset + p'.getSlotCount * 8 ≤ 4096
      rw [hfso, hsc]
      omega
    · rw [he, hok, hfso]
  · have herr : p.insert_record bs = .error .storage :=
      insert_record_err p bs (Nat.not_le.mp hf)
    have he : applyOp p (.ins bs) = p := by simp only [applyOp, herr]
    refine ⟨?_, ?_⟩
    · rw [he]
      exact ⟨h1, h2⟩
    · rw [he, herr]
      simp

/-- A delete step changes neither header field used by `get_free_space`. -/
theorem applyOp_hdr_del (p : Page) (sid : Nat) (h : HdrInv p) :
    HdrInv (applyOp p (.del sid)) ∧
    (applyOp p (.del sid)).getFreeSpaceOffset = p.getFreeSpaceOffset := by
  obtain ⟨h1, h2⟩ := h
  by_cases hs : sid < p.getSlotCount
  · obtain ⟨p', hok, hfso, hsc⟩ := delete_record_ok p sid hs
    have he : applyOp p (.del sid) = p' := by simp only [applyOp, hok]
    rw [he]
    refine ⟨⟨?_, ?_⟩, hfso⟩
    · show PAGE_HEADER_SIZE ≤ p'.getFreeSpaceOffset
      rw [hfso]; exact h1
    · show p'.getFreeSpaceOffset + p'.getSlotCount * SLOT_SIZE ≤ PAGE_SIZE
      rw [hfso, hsc]; exact h2
  · have herr : p.delete_record sid = .error .storage :=
      delete_record_err p sid (Nat.not_lt.mp hs)
    have he : applyOp p (.del sid) = p := by simp only [applyOp, herr]
    rw [he]
    exact ⟨⟨h1, h2⟩, rfl⟩

theorem applyOps_hdr (ops : List PageOp) (p : Page) (h : HdrInv p) :
    HdrInv (applyOps p ops) ∧
    (applyOps p ops).getFreeSpaceOffset
      = p.getFreeSpaceOffset + appendedBytes p ops := by
  induction ops generalizing p with
  | nil => exact ⟨h, by simp [applyOps, appendedBytes]⟩
  | cons op ops ih =>
    match op with
    | .ins bs =>
      obtain ⟨hinv', hfso'⟩ := applyOp_hdr_ins p bs h
      obtain ⟨hinvF, hfsoF⟩ := ih (applyOp p (.ins bs)) hinv'
      refine ⟨hinvF, ?_⟩
      show (applyOps (applyOp p (.ins bs)) ops).getFreeSpaceOffset = _
      rw [hfsoF, hfso']
      show _ = p.getFreeSpaceOffset
        + ((match p.insert_record bs with | .ok _ => bs.length | .error _ => 0)
           + appendedBytes (applyOp p (.ins bs)) ops)
      omega
    | .del sid =>
      obtain ⟨hinv', hfso'⟩ := applyOp_hdr_del p sid h
      obtain ⟨hinvF, hfsoF⟩ := ih (applyOp p (.del sid)) hinv'
      refine ⟨hinvF, ?_⟩
      show (applyOps (applyOp p (.del sid)) ops).getFreeSpaceOffset = _
      rw [hfsoF, hfso']
      show _ = p.getFreeSpaceOffset + appendedBytes (applyOp p (.del sid)) ops
      omega

theorem HdrInv_new (id : PageId) : HdrInv (Page.new id []) :=
  ⟨Nat.le_of_eq (Page.new_getFSO id).symm, by
    rw [Page.new_getFSO, Page.new_getSC]
    norm_num [PAGE_SIZE, PAGE_HEADER_SIZE]⟩

set_option maxRecDepth 10000
set_option maxHeartbeats 4000000

/-- C1: on a freshly created page, `insert_record` does hand out slot id
`slot_count` (= 0), but `read_record` of that slot does **not** return the
inserted bytes: the record is appended at `free_space_offset`, which starts
at `PAGE_HEADER_SIZE` — the very region where the slot array lives — so
`write_slot` overwrites the record's first four bytes with the slot entry
(offset 64 = `[64,0]`, length 5 = `[5,0]`).  The claim's round-trip fails
on the concrete input `[1,2,3,4,5]`, whose precondition
`len + SLOT_SIZE ≤ free_space()` holds. -/
theorem C1_insert_read_bug :
    insertThenRead [1, 2, 3, 4, 5] = some (0, [64, 0, 5, 0, 5])
      ∧ [64, 0, 5, 0, 5] ≠ [1, 2, 3, 4, 5] := by
  decide

/-- C3: a fresh page verifies, but after the very next checksum-recomputing
mutation (`insert_record`) `verify_checksum` is `false`: `update_checksum`
XORs the page with the *previous* checksum still stored in the field,
while `verify_checksum` zeroes the field before recomputing, so the stored
value is `X ^ old_checksum ≠ X` whenever `old_checksum ≠ 0`. -/
theorem C3_checksum_bug :
    freshPage.verify_checksum = true ∧ verifyAfterInsert [1] = some false := by
  decide

/-- C6 counterexample: after a single `insert_record([1,2,3,4,5])` on a
fresh page (a reachable page), `get_free_space()` is 4019, while the
claim's formula `PAGE_SIZE − PAGE_HEADER_SIZE − slot_count×4 − Σ live
lengths` gives 4023 — the code's `SLOT_SIZE` is 8, not 4. -/
theorem C6_claim_counterexample :
    ¬ (c6page.get_free_space
        = PAGE_SIZE - PAGE_HEADER_SIZE - c6page.getSlotCount * 4 - c6page.liveBytes) := by
  decide

/-- C6 (amended): for every page reached from `Page::new` by any sequence
of `insert_record`/`delete_record`, `get_free_space()` equals
`PAGE_SIZE − PAGE_HEADER_SIZE − slot_count × SLOT_SIZE(= 8) −` the total
length of all successfully inserted records — including later-deleted
ones, since `delete_record` does not reclaim their bytes. -/
theorem C6_free_space_amended (id : PageId) (ops : List PageOp) :
    (applyOps (Page.new id []) ops).get_free_space
      = PAGE_SIZE - PAGE_HEADER_SIZE
        - (applyOps (Page.new id []) ops).getSlotCount * SLOT_SIZE
        - appendedBytes (Page.new id []) ops := by
  obtain ⟨⟨hf1, hf2⟩, hfso⟩ := applyOps_hdr ops (Page.new id []) (HdrInv_new id)
  have hnew' : (Page.new id []).getFreeSpaceOffset = 64 := Page.new_getFSO id
  have hf2' : (applyOps (Page.new id []) ops).getFreeSpaceOffset
      + (applyOps (Page.new id []) ops).getSlotCount * 8 ≤ 4096 := hf2
  show 4096 - (applyOps (Page.new id []) ops).getFreeSpaceOffset
      - (applyOps (Page.new id []) ops).getSlotCount * 8
    = 4096 - 64 - (applyOps (Page.new id []) ops).getSlotCount * 8
      - appendedBytes (Page.new id []) ops
  omega

/-- C7: `compact` loses live records.  With records `[9,…]` (slot 0) and
`[7,7,7]` (slot 1) on a fresh page, slot 1 reads back `[7,7,7]` before
`compact()`, but afterwards reads back `[]`: compact writes the relocated
slot entries into the **old** buffer and then replaces `self.data` with
`new_data`, whose slot-array region was never populated. -/
theorem C7_compact_bug :
    c7pre.read_record 1 = .ok [7, 7, 7] ∧ c7post.read_record 1 = .ok [] := by
  decide

/-- C8: reloading an evicted page is counted as a miss (that part of the
claim holds), but the reloaded page is **not** byte-identical to the page
before eviction: `load_page` passes the raw 4096 disk bytes to
`Page::new`, which writes a fresh header and copies the buffer to offset
`PAGE_HEADER_SIZE`, shifting the old image by 64 bytes.  Here byte 64 of
A's pre-eviction image is 0, while byte 64 after reload is 1 (the low
byte of A's old `page_id` header field, displaced into the data area). -/
theorem C8_eviction_reload_bug :
    c8s5.2.1.stats.miss_count = c8s4.2.1.stats.miss_count + 1
      ∧ c8preEvict.data 64 = 0
      ∧ c8reload.data 64 = 1 := by
  decide

/-- C9: with the pool at capacity and every entry pinned, `get_page` of an
uncached id does return the no-eviction-candidate error — but it also
drains the LRU list (`pop_lru` removes even the pinned entries it skips),
so the pool state is *not* unchanged, and after unpinning A a retried
`get_page(B)` still fails instead of evicting A. -/
theorem C9_backpressure_bug :
    (c9s1.2.1.pages.all fun e => 0 < e.2.pin_count)
      ∧ c9s1.2.1.lru = [pidA]
      ∧ isOkE c9s2.1 = false
      ∧ c9s2.2.1.lru = []
      ∧ (mapGet c9s2.2.1.pages pidA).isSome
      ∧ isOkE c9s4.1 = false := by
  decide

/-! ## Order lemmas for byte-string comparison -/

theorem bytesLt_irrefl (k : List Nat) : bytesLt k k = false := by
  induction k with
  | nil => rfl
  | cons a as ih => simp [bytesLt, ih]

theorem bytesLt_trans : ∀ {a b c : List Nat},
    bytesLt a b = true → bytesLt b c = true → bytesLt a c = true
  | _, [], _, h1, _ => by simp [bytesLt] at h1
  | _, _ :: _, [], _, h2 => by simp [bytesLt] at h2
  | [], _ :: _, _ :: _, _, _ => rfl
  | a :: as, b :: bs, c :: cs, h1, h2 => by
    simp only [bytesLt] at h1 h2 ⊢
    rcases Nat.lt_trichotomy a b with hab | hab | hab
    · rcases Nat.lt_trichotomy b c with hbc | hbc | hbc
      · rw [if_pos (by omega)]
      · subst hbc
        rw [if_pos hab]
      · rw [if_neg (by omega), if_pos hbc] at h2
        exact absurd h2 (by simp)
    · subst hab
      rcases Nat.lt_trichotomy a c with hac | hac | hac
      · rw [if_pos hac]
      · subst hac
        rw [if_neg (by omega), if_neg (by omega)] at h1 h2 ⊢
        exact bytesLt_trans h1 h2
      · rw [if_neg (by omega), if_pos hac] at h2
        exact absurd h2 (by simp)
    · rw [if_neg (by omega), if_pos hab] at h1
      exact absurd h1 (by simp)

theorem bytesLt_conn : ∀ {a b : List Nat},
    bytesLt a b = false → bytesLt b a = false → a = b
  | [], [], _, _ => rfl
  | [], _ :: _, h1, _ => by simp [bytesLt] at h1
  | _ :: _, [], _, h2 => by simp [bytesLt] at h2
  | a :: as, b :: bs, h1, h2 => by
    simp only [bytesLt] at h1 h2
    rcases Nat.lt_trichotomy a b with hab | hab | hab
    · rw [if_pos hab] at h1
      exact absurd h1 (by simp)
    · subst hab
      rw [if_neg (by omega), if_neg (by omega)] at h1 h2
      rw [bytesLt_conn h1 h2]
    · rw [if_pos hab] at h2
      exact absurd h2 (by simp)

theorem sorted_getD_lt {ks : List (List Nat)} (hs : Sorted ks) {i j : Nat}
    (hij : i < j) (hj : j < ks.length) :
    bytesLt (ks.getD i []) (ks.getD j []) = true := by
  have hi : i < ks.length := by omega
  rw [List.getD_eq_getElem _ _ hi, List.getD_eq_getElem _ _ hj]
  exact List.pairwise_iff_getElem.mp hs i j hi hj hij

/-! ## The descending insert scan on a sorted leaf -/

theorem scanPosAux_at_dup {ks : List (List Nat)} {k : List Nat} {j : Nat}
    (hj : j < ks.length) (hk : ks.getD j [] = k) (hs : Sorted ks) :
    ∀ i, j < i → i ≤ ks.length → scanPosAux ks k i = j + 1 := by
  intro i
  induction i with
  | zero => intro h1 _; exact absurd h1 (Nat.not_lt_zero j)
  | succ i ih =>
    intro h1 h2
    unfold scanPosAux
    by_cases he : i = j
    · subst he
      rw [hk, bytesLt_irrefl]
      simp
    · have hij : j < i := by omega
      have hg : bytesLt k (ks.getD i []) = true := by
        rw [← hk]
        exact sorted_getD_lt hs hij (by omega)
      simp only [hg, if_true]
      exact ih (by omega) (by omega)

theorem scanPos_dup {ks : List (List Nat)} {k : List Nat}
    (hs : Sorted ks) (hm : k ∈ ks) :
    0 < scanPos ks k ∧ ks.getD (scanPos ks k - 1) [] = k := by
  obtain ⟨j, hj, hk⟩ := List.mem_iff_getElem.mp hm
  have he : scanPos ks k = j + 1 :=
    scanPosAux_at_dup hj (by rw [List.getD_eq_getElem _ _ hj]; exact hk) hs
      ks.length hj (Nat.le_refl _)
  rw [he]
  refine ⟨Nat.succ_pos j, ?_⟩
  rw [Nat.add_sub_cancel, List.getD_eq_getElem _ _ hj]
  exact hk

/-! ## List helpers for node surgery -/

theorem getD_drop {α : Type} (l : List α) (n j : Nat) (d : α) :
    (l.drop n).getD j d = l.getD (n + j) d := by
  by_cases h : n + j < l.length
  · rw [List.getD_eq_getElem _ _ (by simp [List.length_drop]; omega),
      List.getElem_drop, List.getD_eq_getElem _ _ h]
  · rw [List.getD_eq_default _ _ (by simp [List.length_drop]; omega),
      List.getD_eq_default _ _ (by omega)]

theorem getD_take {α : Type} (l : List α) (n j : Nat) (d : α) (hj : j < n) :
    (l.take n).getD j d = l.getD j d := by
  by_cases h : j < l.length
  · rw [List.getD_eq_getElem _ _ (by simp [List.length_take]; omega),
      List.getElem_take, List.getD_eq_getElem _ _ h]
  · rw [List.getD_eq_default _ _ (by simp [List.length_take]; omega),
      List.getD_eq_default _ _ (by omega)]

theorem insertAt_length {α : Type} (l : List α) (i : Nat) (a : α) :
    (insertAt l i a).length = l.length + 1 := by
  simp [insertAt]
  omega

theorem getD_insertAt_lt {α : Type} (l : List α) (i : Nat) (a : α) (j : Nat) (d : α)
    (hji : j < i) (hj : j < l.length) :
    (insertAt l i a).getD j d = l.getD j d := by
  unfold insertAt
  rw [List.getD_append _ _ _ j (by simp [List.length_take]; omega)]
  exact getD_take _ _ _ _ hji

theorem getD_insertAt_self {α : Type} (l : List α) (i : Nat) (a : α) (d : α)
    (hi : i ≤ l.length) :
    (insertAt l i a).getD i d = a := by
  unfold insertAt
  rw [List.getD_append_right _ _ _ i (by simp [List.length_take])]
  have : i - (l.take i).length = 0 := by simp [List.length_take]; omega
  rw [this, List.getD_cons_zero]

theorem getD_insertAt_gt {α : Type} (l : List α) (i : Nat) (a : α) (j : Nat) (d : α)
    (hij : i < j) (hi : i ≤ l.length) :
    (insertAt l i a).getD j d = l.getD (j - 1) d := by
  unfold insertAt
  rw [List.getD_append_right _ _ _ j (by simp [List.length_take]; omega)]
  have h1 : j - (l.take i).length = (j - i - 1) + 1 := by simp [List.length_take]; omega
  rw [h1, List.getD_cons_succ, getD_drop]
  congr 1
  omega

theorem bytesLt_asymm {a b : List Nat} (h : bytesLt a b = true) : bytesLt b a = false := by
  cases hb : bytesLt b a
  · rfl
  · exact absurd (bytesLt_trans h hb) (by simp [bytesLt_irrefl])

theorem sorted_take {ks : List (List Nat)} (n : Nat) (hs : Sorted ks) : Sorted (ks.take n) :=
  List.Pairwise.sublist (List.take_sublist n ks) hs

theorem sorted_drop {ks : List (List Nat)} (n : Nat) (hs : Sorted ks) : Sorted (ks.drop n) :=
  List.Pairwise.sublist (List.drop_sublist n ks) hs

theorem sorted_insertAt {ks : List (List Nat)} {k : List Nat} {i : Nat}
    (hs : Sorted ks) (hi : i ≤ ks.length)
    (hlow : ∀ j, j < i → bytesLt (ks.getD j []) k = true)
    (hhigh : ∀ j, i ≤ j → j < ks.length → bytesLt k (ks.getD j []) = true) :
    Sorted (insertAt ks i k) := by
  unfold insertAt Sorted
  rw [List.pairwise_append]
  refine ⟨sorted_take i hs, ?_, ?_⟩
  · refine List.Pairwise.cons ?_ (sorted_drop i hs)
    intro b hb
    obtain ⟨m, hm, hbm⟩ := List.mem_iff_getElem.mp hb
    have hm' : i + m < ks.length := by
      simp [List.length_drop] at hm
      omega
    have hb' : b = ks.getD (i + m) [] := by
      rw [List.getD_eq_getElem _ _ hm', ← List.getElem_drop ks]
      exact hbm.symm
    rw [hb']
    exact hhigh (i + m) (by omega) hm'
  · intro a ha b hb
    obtain ⟨ja, hja, haj⟩ := List.mem_iff_getElem.mp ha
    have hja' : ja < i := by
      simp [List.length_take] at hja
      omega
    have hjalen : ja < ks.length := by omega
    have ha' : a = ks.getD ja [] := by
      rw [List.getD_eq_getElem _ _ hjalen, ← List.getElem_take ks]
      exact haj.symm
    rcases List.mem_cons.mp hb with hbk | hbd
    · subst hbk
      rw [ha']
      exact hlow ja hja'
    · obtain ⟨m, hm, hbm⟩ := List.mem_iff_getElem.mp hbd
      have hm' : i + m < ks.length := by
        simp [List.length_drop] at hm
        omega
      have hb' : b = ks.getD (i + m) [] := by
        rw [List.getD_eq_getElem _ _ hm', ← List.getElem_drop ks]
        exact hbm.symm
      rw [ha', hb']
      exact sorted_getD_lt hs (by omega) hm'

theorem zip_take_take {α β : Type} : ∀ (l1 : List α) (l2 : List β) (n : Nat),
    (l1.take n).zip (l2.take n) = (l1.zip l2).take n
  | [], _, _ => by simp
  | _ :: _, [], _ => by simp
  | _ :: _, _ :: _, 0 => by simp
  | a :: as, b :: bs, n + 1 => by
    simp only [List.take_succ_cons, List.zip_cons_cons]
    rw [zip_take_take as bs n]

theorem zip_drop_drop {α β : Type} : ∀ (l1 : List α) (l2 : List β) (n : Nat),
    (l1.drop n).zip (l2.drop n) = (l1.zip l2).drop n
  | [], _, _ => by simp
  | _ :: _, [], _ => by simp
  | _ :: _, _ :: _, 0 => by simp
  | a :: as, b :: bs, n + 1 => by
    simp only [List.drop_succ_cons, List.zip_cons_cons]
    rw [zip_drop_drop as bs n]

theorem zip_insertAt (ks : List (List Nat)) (vs : List Nat) (k : List Nat) (v : Nat)
    (i : Nat) (hlen : vs.length = ks.length) :
    (insertAt ks i k).zip (insertAt vs i v) = insertAt (ks.zip vs) i (k, v) := by
  unfold insertAt
  rw [List.zip_append (by simp [List.length_take, hlen]), List.zip_cons_cons,
    zip_take_take, zip_drop_drop]

/-! ## Specifications of the two index scans -/

theorem scanPosAux_spec (ks : List (List Nat)) (k : List Nat) :
    ∀ i, i ≤ ks.length →
      scanPosAux ks k i ≤ i
      ∧ (∀ j, scanPosAux ks k i ≤ j → j < i → bytesLt k (ks.getD j []) = true)
      ∧ (scanPosAux ks k i = 0
        ∨ bytesLt k (ks.getD (scanPosAux ks k i - 1) []) = false) := by
  intro i
  induction i with
  | zero =>
    intro _
    exact ⟨Nat.le_refl _, fun j h1 h2 => absurd h2 (Nat.not_lt_zero j), Or.inl rfl⟩
  | succ i ih =>
    intro hlen
    unfold scanPosAux
    by_cases hg : bytesLt k (ks.getD i []) = true
    · simp only [hg, if_true]
      obtain ⟨h1, h2, h3⟩ := ih (by omega)
      refine ⟨by omega, ?_, h3⟩
      intro j hj1 hj2
      by_cases hji : j = i
      · subst hji; exact hg
      · exact h2 j hj1 (by omega)
    · rw [Bool.not_eq_true] at hg
      simp only [hg, Bool.false_eq_true, if_false]
      refine ⟨Nat.le_refl _, fun j h1 h2 => absurd h2 (by omega), Or.inr ?_⟩
      simpa using hg

theorem getD_mem {α : Type} {l : List α} {j : Nat} (d : α) (hj : j < l.length) :
    l.getD j d ∈ l := by
  rw [List.getD_eq_getElem _ _ hj]
  exact List.getElem_mem hj

theorem scanPos_fresh {ks : List (List Nat)} {k : List Nat}
    (hs : Sorted ks) (hm : k ∉ ks) :
    scanPos ks k ≤ ks.length
    ∧ (∀ j, j < scanPos ks k → bytesLt (ks.getD j []) k = true)
    ∧ (∀ j, scanPos ks k ≤ j → j < ks.length → bytesLt k (ks.getD j []) = true) := by
  obtain ⟨h1, h2, h3⟩ := scanPosAux_spec ks k ks.length (Nat.le_refl _)
  have h1' : scanPos ks k ≤ ks.length := h1
  have h2' : ∀ j, scanPos ks k ≤ j → j < ks.length → bytesLt k (ks.getD j []) = true := h2
  have h3' : scanPos ks k = 0
      ∨ bytesLt k (ks.getD (scanPos ks k - 1) []) = false := h3
  refine ⟨h1', ?_, h2'⟩
  intro j hj
  rcases h3' with h0 | hlast
  · omega
  · have hr1len : scanPos ks k - 1 < ks.length := by omega
    have hne : ks.getD (scanPos ks k - 1) [] ≠ k := by
      intro he
      exact hm (he ▸ getD_mem [] hr1len)
    have hlt : bytesLt (ks.getD (scanPos ks k - 1) []) k = true := by
      cases hb : bytesLt (ks.getD (scanPos ks k - 1) []) k
      · exact absurd (bytesLt_conn hb hlast) hne
      · rfl
    by_cases hje : j = scanPos ks k - 1
    · subst hje; exact hlt
    · exact bytesLt_trans (sorted_getD_lt hs (by omega) hr1len) hlt

theorem searchScan_spec : ∀ (ks : List (List Nat)) (k : List Nat),
    searchScan ks k ≤ ks.length
    ∧ (∀ j, j < searchScan ks k → bytesLt (ks.getD j []) k = true)
    ∧ (searchScan ks k < ks.length → bytesLt (ks.getD (searchScan ks k) []) k = false)
  | [], k => by
    refine ⟨Nat.le_refl _, ?_, ?_⟩ <;> intro j <;> simp [searchScan] at *
  | x :: rest, k => by
    unfold searchScan
    by_cases hx : bytesLt x k = true
    · simp only [hx, if_true]
      obtain ⟨h1, h2, h3⟩ := searchScan_spec rest k
      refine ⟨by simp; omega, ?_, ?_⟩
      · intro j hj
        cases j with
        | zero => simpa using hx
        | succ j => rw [List.getD_cons_succ]; exact h2 j (by omega)
      · intro hlt
        rw [List.getD_cons_succ]
        exact h3 (by simp at hlt; omega)
    · rw [Bool.not_eq_true] at hx
      simp only [hx, if_false]
      refine ⟨by simp, fun j hj => absurd hj (Nat.not_lt_zero j), fun _ => by simpa using hx⟩

/-! ## Association-list lemmas -/

theorem lookupKV_append (A B : List (List Nat × Nat)) (k : List Nat) :
    lookupKV (A ++ B) k
      = match lookupKV A k with
        | some v => some v
        | none => lookupKV B k := by
  induction A with
  | nil => rfl
  | cons x xs ih =>
    obtain ⟨k', v⟩ := x
    by_cases h : k' = k
    · simp [lookupKV, h]
    · simp [lookupKV, h, ih]

theorem lookupKV_none_of_ne (A : List (List Nat × Nat)) (k : List Nat)
    (h : ∀ x ∈ A, x.1 ≠ k) : lookupKV A k = none := by
  induction A with
  | nil => rfl
  | cons x xs ih =>
    obtain ⟨k', v⟩ := x
    have : k' ≠ k := h (k', v) (by simp)
    simp only [lookupKV, if_neg this]
    exact ih (fun y hy => h y (by simp [hy]))

theorem lookupKV_eq_none_iff (l : List (List Nat × Nat)) (k : List Nat) :
    lookupKV l k = none ↔ ∀ x ∈ l, x.1 ≠ k := by
  constructor
  · intro h x hx he
    induction l with
    | nil => simp at hx
    | cons y ys ih =>
      obtain ⟨k', v⟩ := y
      by_cases hk : k' = k
      · simp [lookupKV, hk] at h
      · rcases List.mem_cons.mp hx with hxy | hxy
        · subst hxy; exact hk he
        · exact ih (by simpa [lookupKV, hk] using h) hxy
  · exact lookupKV_none_of_ne l k

theorem lookupKV_of_mem_nodup (l : List (List Nat × Nat)) (k : List Nat) (v : Nat)
    (hnd : (l.map Prod.fst).Nodup) (hm : (k, v) ∈ l) : lookupKV l k = some v := by
  induction l with
  | nil => simp at hm
  | cons x xs ih =>
    obtain ⟨k', v'⟩ := x
    rcases List.mem_cons.mp hm with hx | hx
    · injection hx with h1 h2
      subst h1
      subst h2
      simp [lookupKV]
    · have hnd' : (k' :: xs.map Prod.fst).Nodup := by simpa using hnd
      have hk' : k' ≠ k := by
        intro he
        exact (List.nodup_cons.mp hnd').1
          (he.symm ▸ List.mem_map.mpr ⟨(k, v), hx, rfl⟩)
      simp only [lookupKV, if_neg hk']
      exact ih (List.nodup_cons.mp hnd').2 hx

/-! ## Sorted-insert lemmas -/

theorem kvsSortedInsert_eq_insertAt (k : List Nat) (v : Nat) :
    ∀ (l : List (List Nat × Nat)) (i : Nat),
      i ≤ l.length →
      (∀ x ∈ l.take i, bytesLt x.1 k = true) →
      (∀ x ∈ l.drop i, bytesLt k x.1 = true) →
      kvsSortedInsert k v l = insertAt l i (k, v)
  | [], 0, _, _, _ => rfl
  | x :: xs, 0, _, _, hhigh => by
    unfold kvsSortedInsert insertAt
    have hx := hhigh x (by simp)
    simp [hx]
  | [], i + 1, hi, _, _ => by simp at hi
  | x :: xs, i + 1, hi, hlow, hhigh => by
    unfold kvsSortedInsert
    have hx : bytesLt x.1 k = true := hlow x (by simp)
    have hx' : bytesLt k x.1 = false := bytesLt_asymm hx
    obtain ⟨k', v'⟩ := x
    simp only [hx', if_false]
    rw [kvsSortedInsert_eq_insertAt k v xs i (by simp at hi; omega)
      (fun y hy => hlow y (by simp [hy]))
      (fun y hy => hhigh y (by simpa using hy))]
    simp [insertAt]

theorem kvsSortedInsert_mem (k : List Nat) (v : Nat) :
    ∀ (l : List (List Nat × Nat)) (x : List Nat × Nat), x ∈ l → x ∈ kvsSortedInsert k v l
  | [], _, hx => by simp at hx
  | y :: ys, x, hx => by
    unfold kvsSortedInsert
    obtain ⟨k', v'⟩ := y
    by_cases h : bytesLt k k' = true
    · simp [h, hx]
    · rw [Bool.not_eq_true] at h
      simp only [h, if_false]
      rcases List.mem_cons.mp hx with hxy | hxy
      · simp [hxy]
      · simp [kvsSortedInsert_mem k v ys x hxy]

theorem kvsSortedInsert_self (k : List Nat) (v : Nat) :
    ∀ (l : List (List Nat × Nat)), (k, v) ∈ kvsSortedInsert k v l
  | [] => by simp [kvsSortedInsert]
  | y :: ys => by
    unfold kvsSortedInsert
    obtain ⟨k', v'⟩ := y
    by_cases h : bytesLt k k' = true
    · simp [h]
    · rw [Bool.not_eq_true] at h
      simp [h, kvsSortedInsert_self k v ys]

theorem kvsSortedInsert_keys_perm (k : List Nat) (v : Nat) :
    ∀ (l : List (List Nat × Nat)),
      ((kvsSortedInsert k v l).map Prod.fst).Perm (k :: l.map Prod.fst)
  | [] => by simp [kvsSortedInsert]
  | y :: ys => by
    unfold kvsSortedInsert
    obtain ⟨k', v'⟩ := y
    by_cases h : bytesLt k k' = true
    · simp [h]
    · rw [Bool.not_eq_true] at h
      simp only [h, Bool.false_eq_true, if_false, List.map_cons]
      exact (List.Perm.cons k' (kvsSortedInsert_keys_perm k v ys)).trans
        (List.Perm.swap k k' _)

/-! ## Window and glue lemmas -/

theorem okLo_trans {lo : Option (List Nat)} {a b : List Nat}
    (h1 : okLo lo a) (h2 : bytesLt a b = true) : okLo lo b := by
  cases lo with
  | none => trivial
  | some l => exact bytesLt_trans h1 h2

theorem okHi_trans {hi : Option (List Nat)} {a b : List Nat}
    (h1 : bytesLt a b = true) (h2 : okHi b hi) : okHi a hi := by
  cases hi with
  | none => trivial
  | some l => exact bytesLt_trans h1 h2

theorem glueSegs_append (f : Nat → List (List Nat × Nat)) :
    ∀ (A B : List (List Nat)) (vs cs : List Nat),
      glueSegs f (A ++ B) vs cs
        = glueSegs f A vs cs ++ glueSegs f B (vs.drop A.length) (cs.drop A.length)
  | [], B, vs, cs => by simp [glueSegs]
  | k :: A, B, vs, cs => by
    rw [show (k :: A) ++ B = k :: (A ++ B) from rfl]
    simp only [glueSegs]
    rw [glueSegs_append f A B (vs.drop 1) (cs.drop 1)]
    simp [List.drop_drop, List.append_assoc, Nat.add_comm]

theorem glueSegs_congr (f g : Nat → List (List Nat × Nat)) :
    ∀ (ks : List (List Nat)) (vs cs : List Nat),
      ks.length ≤ cs.length →
      (∀ c ∈ cs, f c = g c) →
      glueSegs f ks vs cs = glueSegs g ks vs cs
  | [], _, _, _, _ => rfl
  | k :: ks, vs, cs, hlen, hfg => by
    simp only [glueSegs]
    rw [hfg (cs.getD 0 0) (getD_mem 0 (by simp at hlen; omega)),
      glueSegs_congr f g ks (vs.drop 1) (cs.drop 1)
        (by simp [List.length_drop] at hlen ⊢; omega)
        (fun c hc => hfg c (List.mem_of_mem_drop hc))]

theorem mem_glueSegs (f : Nat → List (List Nat × Nat)) :
    ∀ (ks : List (List Nat)) (vs cs : List Nat) (x : List Nat × Nat),
      x ∈ glueSegs f ks vs cs →
      (∃ j, j < ks.length ∧ x ∈ f (cs.getD j 0))
        ∨ (∃ j, j < ks.length ∧ x = (ks.getD j [], vs.getD j 0))
  | [], _, _, _, hx => by simp [glueSegs] at hx
  | k :: ks, vs, cs, x, hx => by
    simp only [glueSegs, List.mem_append, List.mem_cons] at hx
    rcases hx with hx | hx | hx
    · exact Or.inl ⟨0, by simp, hx⟩
    · exact Or.inr ⟨0, by simp, by simpa using hx⟩
    · rcases mem_glueSegs f ks (vs.drop 1) (cs.drop 1) x hx with ⟨j, hj, hxf⟩ | ⟨j, hj, hxe⟩
      · refine Or.inl ⟨j + 1, by simp; omega, ?_⟩
        rwa [getD_drop, Nat.add_comm] at hxf
      · refine Or.inr ⟨j + 1, by simp; omega, ?_⟩
        rw [List.getD_cons_succ]
        rwa [getD_drop, Nat.add_comm] at hxe

theorem mem_glue (f : Nat → List (List Nat × Nat)) (ks : List (List Nat))
    (vs cs : List Nat) (x : List Nat × Nat) (hx : x ∈ glue f ks vs cs) :
    (∃ j, j ≤ ks.length ∧ x ∈ f (cs.getD j 0))
      ∨ (∃ j, j < ks.length ∧ x = (ks.getD j [], vs.getD j 0)) := by
  unfold glue at hx
  rcases List.mem_append.mp hx with hx | hx
  · rcases mem_glueSegs f ks vs cs x hx with ⟨j, hj, hxf⟩ | he
    · exact Or.inl ⟨j, by omega, hxf⟩
    · exact Or.inr he
  · exact Or.inl ⟨ks.length, Nat.le_refl _, hx⟩

/-- Decomposition of a node's in-order contents around child `i`. -/
theorem glue_decomp (f : Nat → List (List Nat × Nat)) (ks : List (List Nat))
    (vs cs : List Nat) (i : Nat) (hi : i < ks.length) :
    glue f ks vs cs
      = glueSegs f (ks.take i) vs cs
        ++ f (cs.getD i 0)
        ++ (ks.getD i [], vs.getD i 0)
          :: (glueSegs f (ks.drop (i + 1)) (vs.drop (i + 1)) (cs.drop (i + 1))
            ++ f (cs.getD ks.length 0)) := by
  have hlt : (ks.take i).length = i := by simp [List.length_take]; omega
  have hsplit : glueSegs f ks vs cs
      = glueSegs f (ks.take i) vs cs
        ++ glueSegs f (ks.drop i) (vs.drop i) (cs.drop i) := by
    conv =>
      lhs
      rw [← List.take_append_drop i ks]
    rw [glueSegs_append, hlt]
  have hdrop : ks.drop i = ks.getD i [] :: ks.drop (i + 1) := by
    rw [List.getD_eq_getElem _ _ hi]
    exact (List.cons_getElem_drop_succ).symm
  unfold glue
  rw [hsplit, hdrop]
  simp only [glueSegs]
  rw [getD_drop cs i 0, getD_drop vs i 0]
  simp only [Nat.add_zero, List.drop_drop, List.getD_cons_zero]
  simp [List.append_assoc]

/-! ## Frame lemmas: agreement on a subtree's pages preserves everything -/

theorem idsOf_mem_self (h : Nat) (st : Store) (id : Nat) : id ∈ idsOf h st id := by
  cases h with
  | zero => simp [idsOf]
  | succ h =>
    unfold idsOf
    cases hst : st id <;> simp

theorem idsOf_succ_eq {st : Store} {id : Nat} {n : Node} (h : Nat) (hst : st id = some n) :
    idsOf (h + 1) st id = id :: (n.children.map (fun c => idsOf h st c)).flatten := by
  simp only [idsOf]
  rw [hst]

theorem treeList_zero_eq {st : Store} {id : Nat} {n : Node} (hst : st id = some n) :
    treeList 0 st id = n.keys.zip n.values := by
  simp only [treeList]
  rw [hst]

theorem treeList_succ_eq {st : Store} {id : Nat} {n : Node} (h : Nat) (hst : st id = some n) :
    treeList (h + 1) st id
      = glue (fun c => treeList h st c) n.keys n.values n.children := by
  simp only [treeList]
  rw [hst]

theorem mem_idsOf_child {h : Nat} {st : Store} {id : Nat} {n : Node}
    (hst : st id = some n) {j : Nat} (hj : j < n.children.length) :
    ∀ i ∈ idsOf h st (n.children.getD j 0), i ∈ idsOf (h + 1) st id := by
  intro i hi
  rw [idsOf_succ_eq h hst]
  refine List.mem_cons.mpr (Or.inr ?_)
  rw [List.mem_flatten]
  exact ⟨idsOf h st (n.children.getD j 0),
    List.mem_map.mpr ⟨n.children.getD j 0, getD_mem 0 hj, rfl⟩, hi⟩

theorem mem_children_getD {cs : List Nat} {c : Nat} (hc : c ∈ cs) :
    ∃ j, j < cs.length ∧ cs.getD j 0 = c := by
  obtain ⟨j, hj, he⟩ := List.mem_iff_getElem.mp hc
  exact ⟨j, hj, by rw [List.getD_eq_getElem _ _ hj]; exact he⟩

theorem good_frame {st st' : Store} :
    ∀ {id h lo hi}, Good st id h lo hi →
      (∀ i ∈ idsOf h st id, st' i = st i) →
      Good st' id h lo hi
      ∧ idsOf h st' id = idsOf h st id
      ∧ treeList h st' id = treeList h st id := by
  intro id h lo hi hg
  induction hg with
  | leaf id n lo hi hst hpid hleaf hvlen hsort hwin =>
    intro hagree
    have hid : st' id = some n := by
      rw [hagree id (idsOf_mem_self 0 st id), hst]
    refine ⟨Good.leaf id n lo hi hid hpid hleaf hvlen hsort hwin, ?_, ?_⟩
    · simp [idsOf]
    · rw [treeList_zero_eq hid, treeList_zero_eq hst]
  | node id n lo hi h hst hpid hleaf hvlen hclen hsort hwin hch ih =>
    intro hagree
    have hid : st' id = some n := by
      rw [hagree id (idsOf_mem_self (h + 1) st id), hst]
    have hchAll : ∀ j, j < n.children.length →
        Good st' (n.children.getD j 0) h (childLo n lo j) (childHi n hi j)
        ∧ idsOf h st' (n.children.getD j 0) = idsOf h st (n.children.getD j 0)
        ∧ treeList h st' (n.children.getD j 0) = treeList h st (n.children.getD j 0) :=
      fun j hj => ih j hj (fun i hi => hagree i (mem_idsOf_child hst hj i hi))
    have hchMem : ∀ c ∈ n.children,
        idsOf h st' c = idsOf h st c ∧ treeList h st' c = treeList h st c := by
      intro c hc
      obtain ⟨j, hj, he⟩ := mem_children_getD hc
      exact ⟨he ▸ (hchAll j hj).2.1, he ▸ (hchAll j hj).2.2⟩
    refine ⟨Good.node id n lo hi h hid hpid hleaf hvlen hclen hsort hwin
      (fun j hj => (hchAll j hj).1), ?_, ?_⟩
    · rw [idsOf_succ_eq h hid, idsOf_succ_eq h hst]
      congr 1
      congr 1
      exact List.map_congr_left (fun c hc => (hchMem c hc).1)
    · rw [treeList_succ_eq h hid, treeList_succ_eq h hst]
      unfold glue
      congr 1
      · exact glueSegs_congr _ _ _ _ _ (by omega) (fun c hc => (hchMem c hc).2)
      · exact (hchMem _ (getD_mem 0 (by omega))).2

/-! ## Every key of a wellformed subtree lies in its window -/

theorem treeList_window {st : Store} :
    ∀ {id h lo hi}, Good st id h lo hi →
      ∀ x ∈ treeList h st id, okLo lo x.1 ∧ okHi x.1 hi := by
  intro id h lo hi hg
  induction hg with
  | leaf id n lo hi hst hpid hleaf hvlen hsort hwin =>
    intro x hx
    rw [treeList_zero_eq hst] at hx
    obtain ⟨a, b⟩ := x
    exact hwin a (List.of_mem_zip hx).1
  | node id n lo hi h hst hpid hleaf hvlen hclen hsort hwin hch ih =>
    intro x hx
    rw [treeList_succ_eq h hst] at hx
    rcases mem_glue _ _ _ _ _ hx with ⟨j, hj, hxf⟩ | ⟨j, hj, hxe⟩
    · have hxw := ih j (by omega) x hxf
      constructor
      · by_cases hj0 : j = 0
        · subst hj0
          simpa [childLo] using hxw.1
        · have hj1 : j - 1 < n.keys.length := by omega
          have hksep := hwin (n.keys.getD (j - 1) []) (getD_mem [] hj1)
          have hlt : bytesLt (n.keys.getD (j - 1) []) x.1 = true := by
            have := hxw.1
            rw [childLo, if_neg hj0] at this
            exact this
          exact okLo_trans hksep.1 hlt
      · by_cases hjl : j = n.keys.length
        · subst hjl
          have := hxw.2
          rwa [childHi, if_pos rfl] at this
        · have hjl' : j < n.keys.length := by omega
          have hksep := hwin (n.keys.getD j []) (getD_mem [] hjl')
          have hlt : bytesLt x.1 (n.keys.getD j []) = true := by
            have := hxw.2
            rw [childHi, if_neg hjl] at this
            exact this
          exact okHi_trans hlt hksep.2
    · have hksep := hwin (n.keys.getD j []) (getD_mem [] hj)
      rw [hxe]
      exact hksep

/-! ## Search correctness on wellformed trees -/

theorem bytesLt_ne {a b : List Nat} (h : bytesLt a b = true) : a ≠ b := by
  intro he
  rw [he, bytesLt_irrefl] at h
  exact absurd h (by simp)

theorem loadNode_eq {st : Store} {id : Nat} {n : Node} (hst : st id = some n) :
    loadNode st id = .ok n := by
  unfold loadNode
  rw [hst]

theorem lookupKV_zip : ∀ (ks : List (List Nat)) (vs : List Nat) (k : List Nat) (i : Nat),
    vs.length = ks.length → i < ks.length →
    (∀ j, j < i → bytesLt (ks.getD j []) k = true) →
    ks.getD i [] = k →
    lookupKV (ks.zip vs) k = some (vs.getD i 0)
  | [], _, _, i, _, hi, _, _ => by simp at hi
  | a :: as, [], _, _, hlen, _, _, _ => by simp at hlen
  | a :: as, b :: bs, k, 0, hlen, hi, hbelow, hit => by
    rw [List.getD_cons_zero] at hit
    simp [List.zip_cons_cons, lookupKV, hit]
  | a :: as, b :: bs, k, i + 1, hlen, hi, hbelow, hit => by
    have ha : a ≠ k := by
      have := hbelow 0 (by omega)
      rw [List.getD_cons_zero] at this
      exact bytesLt_ne this
    rw [List.zip_cons_cons]
    simp only [lookupKV, if_neg ha, List.getD_cons_succ]
    exact lookupKV_zip as bs k i (by simpa using hlen) (by simpa using hi)
      (fun j hj => by
        have := hbelow (j + 1) (by omega)
        rwa [List.getD_cons_succ] at this)
      (by rwa [List.getD_cons_succ] at hit)

theorem lookupKV_zip_none (ks : List (List Nat)) (vs : List Nat) (k : List Nat)
    (hne : ∀ j, j < ks.length → ks.getD j [] ≠ k) :
    lookupKV (ks.zip vs) k = none := by
  apply lookupKV_none_of_ne
  intro x hx
  obtain ⟨a, b⟩ := x
  have ha : a ∈ ks := (List.of_mem_zip hx).1
  obtain ⟨j, hj, he⟩ := List.mem_iff_getElem.mp ha
  have hgd : ks.getD j [] = a := by
    rw [List.getD_eq_getElem _ _ hj]
    exact he
  exact fun hk => hne j hj (hgd.trans hk)

theorem lookupKV_append_of_none (A B : List (List Nat × Nat)) (k : List Nat)
    (h : ∀ x ∈ A, x.1 ≠ k) : lookupKV (A ++ B) k = lookupKV B k := by
  induction A with
  | nil => rfl
  | cons a as ih =>
    obtain ⟨k', v'⟩ := a
    have hk : k' ≠ k := h (k', v') (by simp)
    show lookupKV ((k', v') :: (as ++ B)) k = lookupKV B k
    simp only [lookupKV, if_neg hk]
    exact ih (fun x hx => h x (by simp [hx]))

theorem lookupKV_append_left_of (A B : List (List Nat × Nat)) (k : List Nat)
    (hB : ∀ x ∈ B, x.1 ≠ k) : lookupKV (A ++ B) k = lookupKV A k := by
  induction A with
  | nil => exact lookupKV_none_of_ne B k hB
  | cons a as ih =>
    obtain ⟨k', v'⟩ := a
    by_cases hk : k' = k
    · show lookupKV ((k', v') :: (as ++ B)) k = lookupKV ((k', v') :: as) k
      simp only [lookupKV, if_pos hk]
    · show lookupKV ((k', v') :: (as ++ B)) k = lookupKV ((k', v') :: as) k
      simp only [lookupKV, if_neg hk]
      exact ih

theorem lookupKV_middle (A C B : List (List Nat × Nat)) (k : List Nat)
    (hA : ∀ x ∈ A, x.1 ≠ k) (hB : ∀ x ∈ B, x.1 ≠ k) :
    lookupKV (A ++ C ++ B) k = lookupKV C k := by
  rw [lookupKV_append_left_of (A ++ C) B k hB]
  exact lookupKV_append_of_none A C k hA

/-- Everything left of (and below) separator `i` in a node is `< k`,
provided the separators before `i` are. -/
theorem node_prefix_below {st : Store} {n : Node} {lo hi : Option (List Nat)} {h : Nat}
    (hch : ∀ j, j < n.children.length →
      Good st (n.children.getD j 0) h (childLo n lo j) (childHi n hi j))
    (hclen : n.children.length = n.keys.length + 1)
    {k : List Nat} {i : Nat} (hile : i ≤ n.keys.length)
    (hsep : ∀ j, j < i → bytesLt (n.keys.getD j []) k = true) :
    ∀ x ∈ glueSegs (fun c => treeList h st c) (n.keys.take i) n.values n.children,
      bytesLt x.1 k = true := by
  intro x hx
  rcases mem_glueSegs _ _ _ _ _ hx with ⟨j, hj, hxf⟩ | ⟨j, hj, hxe⟩
  · have hj' : j < i := by
      simp [List.length_take] at hj
      omega
    have hg := hch j (by omega)
    have hw := (treeList_window hg x hxf).2
    rw [childHi, if_neg (by omega)] at hw
    exact bytesLt_trans hw (hsep j hj')
  · have hj' : j < i := by
      simp [List.length_take] at hj
      omega
    rw [hxe]
    show bytesLt ((n.keys.take i).getD j []) k = true
    rw [getD_take _ _ _ _ hj']
    exact hsep j hj'

/-- Everything right of separator `i` in a node is `> k`, provided
`k < keys[i]`. -/
theorem node_suffix_above {st : Store} {n : Node} {lo hi : Option (List Nat)} {h : Nat}
    (hch : ∀ j, j < n.children.length →
      Good st (n.children.getD j 0) h (childLo n lo j) (childHi n hi j))
    (hclen : n.children.length = n.keys.length + 1)
    (hsort : Sorted n.keys)
    {k : List Nat} {i : Nat} (hilt : i < n.keys.length)
    (hk : bytesLt k (n.keys.getD i []) = true) :
    (∀ x ∈ glueSegs (fun c => treeList h st c) (n.keys.drop (i + 1))
        (n.values.drop (i + 1)) (n.children.drop (i + 1)),
      bytesLt k x.1 = true)
    ∧ (∀ x ∈ treeList h st (n.children.getD n.keys.length 0), bytesLt k x.1 = true) := by
  constructor
  · intro x hx
    rcases mem_glueSegs _ _ _ _ _ hx with ⟨j, hj, hxf⟩ | ⟨j, hj, hxe⟩
    · rw [getD_drop] at hxf
      have hcidx : i + 1 + j < n.children.length := by
        simp [List.length_drop] at hj
        omega
      have hg := hch (i + 1 + j) hcidx
      have hw := (treeList_window hg x hxf).1
      rw [childLo, if_neg (by omega)] at hw
      have hik : bytesLt k (n.keys.getD (i + 1 + j - 1) []) = true := by
        by_cases hj0 : j = 0
        · subst hj0
          simpa using hk
        · exact bytesLt_trans hk
            (sorted_getD_lt hsort (by omega) (by simp [List.length_drop] at hj; omega))
      exact bytesLt_trans hik hw
    · rw [hxe]
      show bytesLt k ((n.keys.drop (i + 1)).getD j []) = true
      rw [getD_drop]
      have hjlen : i + 1 + j < n.keys.length := by
        simp [List.length_drop] at hj
        omega
      exact bytesLt_trans hk (sorted_getD_lt hsort (by omega) hjlen)
  · intro x hx
    have hg := hch n.keys.length (by omega)
    have hw := (treeList_window hg x hx).1
    by_cases h0 : n.keys.length = 0
    · exact absurd hilt (by omega)
    · rw [childLo, if_neg h0] at hw
      have hik : bytesLt k (n.keys.getD (n.keys.length - 1) []) = true := by
        by_cases hie : i = n.keys.length - 1
        · subst hie
          exact hk
        · exact bytesLt_trans hk (sorted_getD_lt hsort (by omega) (by omega))
      exact bytesLt_trans hik hw

theorem searchNode_correct {st : Store} :
    ∀ {id h lo hi}, Good st id h lo hi →
      ∀ (k : List Nat) (fuel : Nat), h < fuel →
        searchNode fuel st id k = .ok (lookupKV (treeList h st id) k) := by
  intro id h lo hi hg
  induction hg with
  | leaf id n lo hi hst hpid hleaf hvlen hsort hwin =>
    intro k fuel hfuel
    obtain ⟨f, rfl⟩ : ∃ f, fuel = f + 1 := ⟨fuel - 1, by omega⟩
    obtain ⟨h1, h2, h3⟩ := searchScan_spec n.keys k
    rw [treeList_zero_eq hst]
    simp only [searchNode, loadNode_eq hst]
    by_cases hfound : searchScan n.keys k < n.keys.length
        ∧ n.keys.getD (searchScan n.keys k) [] = k
    · rw [if_pos hfound]
      rw [lookupKV_zip n.keys n.values k (searchScan n.keys k) hvlen hfound.1 h2 hfound.2]
    · rw [if_neg hfound, if_pos hleaf]
      rw [lookupKV_zip_none]
      intro j hj
      by_cases hji : j < searchScan n.keys k
      · exact bytesLt_ne (h2 j hji)
      · by_cases hje : j = searchScan n.keys k
        · subst hje
          intro he
          exact hfound ⟨hj, he⟩
        · -- j > scan: k < keys[scan] ≤ keys[j]
          have hscanlt : searchScan n.keys k < n.keys.length := by omega
          have hnlt := h3 hscanlt
          have hne : n.keys.getD (searchScan n.keys k) [] ≠ k := fun he => hfound ⟨hscanlt, he⟩
          have hklt : bytesLt k (n.keys.getD (searchScan n.keys k) []) = true := by
            cases hb : bytesLt k (n.keys.getD (searchScan n.keys k) [])
            · exact absurd (bytesLt_conn hnlt hb) hne
            · rfl
          have : bytesLt k (n.keys.getD j []) = true := by
            by_cases hje2 : searchScan n.keys k = j
            · omega
            · exact bytesLt_trans hklt (sorted_getD_lt hsort (by omega) hj)
          exact (bytesLt_ne this).symm
  | node id n lo hi h hst hpid hleaf hvlen hclen hsort hwin hch ih =>
    intro k fuel hfuel
    obtain ⟨f, rfl⟩ : ∃ f, fuel = f + 1 := ⟨fuel - 1, by omega⟩
    obtain ⟨h1, h2, h3⟩ := searchScan_spec n.keys k
    rw [treeList_succ_eq h hst]
    simp only [searchNode, loadNode_eq hst]
    by_cases hfound : searchScan n.keys k < n.keys.length
        ∧ n.keys.getD (searchScan n.keys k) [] = k
    · rw [if_pos hfound]
      rw [glue_decomp _ _ _ _ (searchScan n.keys k) hfound.1]
      rw [lookupKV_append_of_none]
      · simp only [lookupKV, if_pos hfound.2]
      · intro x hx
        rcases List.mem_append.mp hx with hx | hx
        · exact bytesLt_ne (node_prefix_below hch hclen (by omega) h2 x hx)
        · have hg := hch (searchScan n.keys k) (by omega)
          have hw := (treeList_window hg x hx).2
          rw [childHi, if_neg (by omega)] at hw
          rw [← hfound.2]
          exact bytesLt_ne hw
    · rw [if_neg hfound, if_neg (by rw [hleaf]; simp)]
      have hscan_le : searchScan n.keys k ≤ n.keys.length := h1
      have hrec := ih (searchScan n.keys k) (by omega) k f (by omega)
      rw [hrec]
      congr 1
      by_cases hlen : searchScan n.keys k < n.keys.length
      · have hnlt := h3 hlen
        have hne : n.keys.getD (searchScan n.keys k) [] ≠ k := fun he => hfound ⟨hlen, he⟩
        have hklt : bytesLt k (n.keys.getD (searchScan n.keys k) []) = true := by
          cases hb : bytesLt k (n.keys.getD (searchScan n.keys k) [])
          · exact absurd (bytesLt_conn hnlt hb) hne
          · rfl
        obtain ⟨habove, hlast⟩ := node_suffix_above hch hclen hsort hlen hklt
        rw [glue_decomp _ _ _ _ (searchScan n.keys k) hlen]
        refine Eq.symm (lookupKV_middle _ _ _ k ?_ ?_)
        · intro x hx
          exact bytesLt_ne (node_prefix_below hch hclen (by omega) h2 x hx)
        · intro x hx
          rcases List.mem_cons.mp hx with hx | hx
          · rw [hx]
            exact (bytesLt_ne hklt).symm
          · rcases List.mem_append.mp hx with hx | hx
            · exact (bytesLt_ne (habove x hx)).symm
            · exact (bytesLt_ne (hlast x hx)).symm
      · have hse : searchScan n.keys k = n.keys.length := by omega
        rw [hse]
        simp only [glue]
        rw [lookupKV_append_of_none]
        intro x hx
        have hx' : x ∈ glueSegs (fun c => treeList h st c)
            (n.keys.take n.keys.length) n.values n.children := by
          rw [List.take_length]
          exact hx
        exact bytesLt_ne (node_prefix_below hch hclen (Nat.le_refl _)
          (fun j hj => h2 j (by omega)) x hx')

/-! ## Glue surgery lemmas for node splitting -/

theorem insertAt_zero {α : Type} (l : List α) (a : α) : insertAt l 0 a = a :: l := rfl

theorem insertAt_cons_succ {α : Type} (x : α) (l : List α) (i : Nat) (a : α) :
    insertAt (x :: l) (i + 1) a = x :: insertAt l i a := rfl

theorem mem_insertAt {α : Type} {l : List α} {i : Nat} {a x : α}
    (hx : x ∈ insertAt l i a) : x ∈ l ∨ x = a := by
  unfold insertAt at hx
  rcases List.mem_append.mp hx with hx | hx
  · exact Or.inl (List.mem_of_mem_take hx)
  · rcases List.mem_cons.mp hx with hx | hx
    · exact Or.inr hx
    · exact Or.inl (List.mem_of_mem_drop hx)

theorem take_getD_drop {α : Type} (l : List α) (i : Nat) (d : α) (hi : i < l.length) :
    l.take i ++ l.getD i d :: l.drop (i + 1) = l := by
  have hdrop : l.drop i = l.getD i d :: l.drop (i + 1) := by
    rw [List.getD_eq_getElem _ _ hi]
    exact (List.cons_getElem_drop_succ).symm
  rw [← hdrop]
  exact List.take_append_drop i l

theorem glue_nil (f : Nat → List (List Nat × Nat)) (vs cs : List Nat) :
    glue f [] vs cs = f (cs.getD 0 0) := by
  simp [glue, glueSegs]

theorem glue_cons (f : Nat → List (List Nat × Nat)) (k : List Nat) (ks : List (List Nat))
    (v : Nat) (vs : List Nat) (c : Nat) (cs : List Nat) :
    glue f (k :: ks) (v :: vs) (c :: cs) = f c ++ (k, v) :: glue f ks vs cs := by
  unfold glue
  simp [glueSegs, List.getD_cons_succ, List.append_assoc]

theorem glueSegs_congr_getD (f g : Nat → List (List Nat × Nat)) :
    ∀ (ks : List (List Nat)) (vs cs : List Nat),
      (∀ j, j < ks.length → f (cs.getD j 0) = g (cs.getD j 0)) →
      glueSegs f ks vs cs = glueSegs g ks vs cs
  | [], _, _, _ => rfl
  | k :: ks, vs, cs, hfg => by
    simp only [glueSegs]
    rw [hfg 0 (by simp), glueSegs_congr_getD f g ks (vs.drop 1) (cs.drop 1)
      (fun j hj => by
        rw [getD_drop]
        exact hfg (1 + j) (by simp; omega))]

theorem glue_congr_getD (f g : Nat → List (List Nat × Nat)) (ks : List (List Nat))
    (vs cs : List Nat)
    (hfg : ∀ j, j ≤ ks.length → f (cs.getD j 0) = g (cs.getD j 0)) :
    glue f ks vs cs = glue g ks vs cs := by
  unfold glue
  rw [glueSegs_congr_getD f g ks vs cs (fun j hj => hfg j (by omega)),
    hfg ks.length (Nat.le_refl _)]

theorem glue_split_at (f : Nat → List (List Nat × Nat)) :
    ∀ (i : Nat) (ks : List (List Nat)) (vs cs : List Nat),
      i < ks.length → vs.length = ks.length → cs.length = ks.length + 1 →
      glue f (ks.take i) (vs.take i) (cs.take (i + 1))
        ++ (ks.getD i [], vs.getD i 0)
          :: glue f (ks.drop (i + 1)) (vs.drop (i + 1)) (cs.drop (i + 1))
        = glue f ks vs cs
  | _, [], _, _, hi, _, _ => by simp at hi
  | 0, k :: ks, vs, cs, hi, hv, hc => by
    cases vs with
    | nil => simp at hv
    | cons v vs =>
      cases cs with
      | nil => simp at hc
      | cons c cs =>
        simp only [List.take_zero, List.take_succ_cons, List.getD_cons_zero,
          List.drop_succ_cons, List.drop_zero]
        rw [glue_nil, glue_cons]
        simp
  | i + 1, k :: ks, vs, cs, hi, hv, hc => by
    cases vs with
    | nil => simp at hv
    | cons v vs =>
      cases cs with
      | nil => simp at hc
      | cons c cs =>
        simp only [List.take_succ_cons, List.drop_succ_cons, List.getD_cons_succ]
        rw [glue_cons, glue_cons,
          ← glue_split_at f i ks vs cs (by simpa using hi) (by simpa using hv)
            (by simpa using hc)]
        simp [List.append_assoc]

theorem glue_insert_split (f fn : Nat → List (List Nat × Nat)) (mk : List Nat)
    (mv nid : Nat) :
    ∀ (i : Nat) (ks : List (List Nat)) (vs cs : List Nat),
      i ≤ ks.length → vs.length = ks.length → cs.length = ks.length + 1 →
      fn (cs.getD i 0) ++ (mk, mv) :: fn nid = f (cs.getD i 0) →
      (∀ j, j < cs.length → j ≠ i → fn (cs.getD j 0) = f (cs.getD j 0)) →
      glue fn (insertAt ks i mk) (insertAt vs i mv) (insertAt cs (i + 1) nid)
        = glue f ks vs cs
  | 0, ks, vs, cs, hi, hv, hc, hmid, hfr => by
    cases cs with
    | nil => simp at hc
    | cons c cs =>
      rw [List.getD_cons_zero] at hmid
      rw [insertAt_zero, insertAt_zero, insertAt_cons_succ, insertAt_zero]
      cases ks with
      | nil =>
        have hvs : vs = [] := by
          cases vs with
          | nil => rfl
          | cons a as => simp at hv
        subst hvs
        rw [glue_cons, glue_nil, glue_nil]
        simpa using hmid
      | cons k ks =>
        cases vs with
        | nil => simp at hv
        | cons v vs =>
          have hc' : cs.length = ks.length + 1 := by simpa using hc
          rw [glue_cons, glue_cons, glue_cons]
          rw [glue_congr_getD fn f ks vs cs (fun j hj => by
            have := hfr (j + 1) (by simp; omega) (by omega)
            rwa [List.getD_cons_succ] at this)]
          rw [← hmid]
          simp [List.append_assoc]
  | i + 1, ks, vs, cs, hi, hv, hc, hmid, hfr => by
    cases ks with
    | nil => simp at hi
    | cons k ks =>
      cases vs with
      | nil => simp at hv
      | cons v vs =>
        cases cs with
        | nil => simp at hc
        | cons c cs =>
          rw [insertAt_cons_succ, insertAt_cons_succ, insertAt_cons_succ]
          rw [glue_cons, glue_cons]
          have h0 : fn c = f c := by
            have := hfr 0 (by simp) (by omega)
            rwa [List.getD_cons_zero] at this
          rw [h0, glue_insert_split f fn mk mv nid i ks vs cs (by simpa using hi)
            (by simpa using hv) (by simpa using hc)
            (by rwa [List.getD_cons_succ] at hmid)
            (fun j hj hji => by
              have := hfr (j + 1) (by simp; omega) (by omega)
              rwa [List.getD_cons_succ] at this)]

/-! ## Sorted-insert append lemmas -/

theorem kvsSortedInsert_append_of_lt (k : List Nat) (v : Nat) :
    ∀ (A C : List (List Nat × Nat)),
      (∀ x ∈ A, bytesLt x.1 k = true) →
      kvsSortedInsert k v (A ++ C) = A ++ kvsSortedInsert k v C
  | [], _, _ => rfl
  | a :: A, C, hA => by
    obtain ⟨k', v'⟩ := a
    have hx : bytesLt k k' = false := bytesLt_asymm (hA (k', v') (by simp))
    show kvsSortedInsert k v ((k', v') :: (A ++ C)) = (k', v') :: (A ++ kvsSortedInsert k v C)
    simp only [kvsSortedInsert, hx, Bool.false_eq_true, if_false]
    rw [kvsSortedInsert_append_of_lt k v A C (fun x hx => hA x (by simp [hx]))]

theorem kvsSortedInsert_append_right_of (k : List Nat) (v : Nat) :
    ∀ (C B : List (List Nat × Nat)),
      (∀ x ∈ B, bytesLt k x.1 = true) →
      kvsSortedInsert k v (C ++ B) = kvsSortedInsert k v C ++ B
  | [], B, hB => by
    cases B with
    | nil => rfl
    | cons b B =>
      obtain ⟨k', v'⟩ := b
      have hx : bytesLt k k' = true := hB (k', v') (by simp)
      show kvsSortedInsert k v ((k', v') :: B) = [(k, v)] ++ (k', v') :: B
      simp [kvsSortedInsert, hx]
  | c :: C, B, hB => by
    obtain ⟨k', v'⟩ := c
    show kvsSortedInsert k v ((k', v') :: (C ++ B))
      = kvsSortedInsert k v ((k', v') :: C) ++ B
    by_cases hx : bytesLt k k' = true
    · simp [kvsSortedInsert, hx]
    · rw [Bool.not_eq_true] at hx
      simp only [kvsSortedInsert, hx, Bool.false_eq_true, if_false]
      rw [kvsSortedInsert_append_right_of k v C B hB]
      rfl

/-! ## Membership of separators and child contents in a node's contents -/

theorem sep_mem_glue (f : Nat → List (List Nat × Nat)) (ks : List (List Nat))
    (vs cs : List Nat) {j : Nat} (hj : j < ks.length) :
    (ks.getD j [], vs.getD j 0) ∈ glue f ks vs cs := by
  rw [glue_decomp f ks vs cs j hj]
  simp

theorem child_mem_glue (f : Nat → List (List Nat × Nat)) (ks : List (List Nat))
    (vs cs : List Nat) {j : Nat} (hj : j ≤ ks.length) {x : List Nat × Nat}
    (hx : x ∈ f (cs.getD j 0)) : x ∈ glue f ks vs cs := by
  by_cases hlt : j < ks.length
  · rw [glue_decomp f ks vs cs j hlt]
    exact List.mem_append.mpr (Or.inl (List.mem_append.mpr (Or.inr hx)))
  · have hje : j = ks.length := by omega
    subst hje
    unfold glue
    exact List.mem_append.mpr (Or.inr hx)

theorem good_inv {st : Store} {id h : Nat} {lo hi : Option (List Nat)}
    (hg : Good st id h lo hi) : ∃ m, st id = some m ∧ m.page_id = id := by
  cases hg with
  | leaf id n lo hi hst hpid hleaf hvlen hsort hwin => exact ⟨n, hst, hpid⟩
  | node id n lo hi h hst hpid hleaf hvlen hclen hsort hwin hch => exact ⟨n, hst, hpid⟩

theorem key_mem_treeList {st : Store} {id h : Nat} {lo hi : Option (List Nat)}
    (hg : Good st id h lo hi) {n : Node} (hst : st id = some n)
    {j : Nat} (hj : j < n.keys.length) :
    (n.keys.getD j [], n.values.getD j 0) ∈ treeList h st id := by
  cases hg with
  | leaf id n' lo hi hst' hpid hleaf hvlen hsort hwin =>
    rw [hst] at hst'
    injection hst' with he
    subst he
    rw [treeList_zero_eq hst]
    have hjv : j < n.values.length := by omega
    have hzl : j < (n.keys.zip n.values).length := by
      rw [List.length_zip]
      omega
    have hz : (n.keys.zip n.values).getD j ([], 0)
        = (n.keys.getD j [], n.values.getD j 0) := by
      rw [List.getD_eq_getElem _ _ hzl, List.getElem_zip,
        List.getD_eq_getElem _ _ hj, List.getD_eq_getElem _ _ hjv]
    rw [← hz]
    exact getD_mem ([], 0) hzl
  | node id n' lo hi h hst' hpid hleaf hvlen hclen hsort hwin hch =>
    rw [hst] at hst'
    injection hst' with he
    subst he
    rw [treeList_succ_eq h hst]
    exact sep_mem_glue _ n.keys n.values n.children hj

/-! ## Nodup bookkeeping for flattened subtree id lists -/

theorem getD_map_ids (F : Nat → List Nat) {cs : List Nat} {j : Nat} (hj : j < cs.length) :
    (cs.map F).getD j [] = F (cs.getD j 0) := by
  rw [List.getD_eq_getElem _ _ (by simpa using hj), List.getElem_map,
    List.getD_eq_getElem _ _ hj]

theorem nodup_of_mem_flatten {L : List (List Nat)} (hnd : L.flatten.Nodup)
    {l : List Nat} (hl : l ∈ L) : l.Nodup :=
  (List.nodup_flatten.mp hnd).1 l hl

theorem disjoint_of_nodup_flatten {L : List (List Nat)} (hnd : L.flatten.Nodup)
    {i j : Nat} (hij : i < j) (hj : j < L.length) {q : Nat}
    (hqi : q ∈ L.getD i []) (hqj : q ∈ L.getD j []) : False := by
  have hp := (List.nodup_flatten.mp hnd).2
  have hd := List.pairwise_iff_getElem.mp hp i j (by omega) hj hij
  rw [List.getD_eq_getElem _ _ (by omega : i < L.length)] at hqi
  rw [List.getD_eq_getElem _ _ hj] at hqj
  exact hd hqi hqj

theorem flatten_update (F Fn : Nat → List Nat) :
    ∀ (cs : List Nat) (i : Nat) (NP NPn : Nat),
      i < cs.length →
      ((cs.map F).flatten).Nodup →
      (∀ q ∈ (cs.map F).flatten, q < NP) →
      NP ≤ NPn →
      (Fn (cs.getD i 0)).Nodup →
      (∀ q ∈ Fn (cs.getD i 0), q ∈ F (cs.getD i 0) ∨ (NP ≤ q ∧ q < NPn)) →
      (∀ j, j < cs.length → j ≠ i → Fn (cs.getD j 0) = F (cs.getD j 0)) →
      ((cs.map Fn).flatten).Nodup
      ∧ (∀ q ∈ (cs.map Fn).flatten, q ∈ (cs.map F).flatten ∨ (NP ≤ q ∧ q < NPn))
  | [], _, _, _, hi, _, _, _, _, _, _ => by simp at hi
  | c :: cs, 0, NP, NPn, hi, hnd, hbnd, hNP, hndi, hsub, hfr => by
    have htl : cs.map Fn = cs.map F := by
      apply List.ext_getElem (by simp)
      intro j hj1 hj2
      simp only [List.getElem_map]
      have hjl : j < cs.length := by simpa using hj1
      have := hfr (j + 1) (by simp; omega) (by omega)
      rw [List.getD_cons_succ, List.getD_eq_getElem _ _ hjl] at this
      exact this
    rw [List.getD_cons_zero] at hndi hsub
    simp only [List.map_cons, List.flatten_cons] at hnd ⊢
    rw [List.nodup_append] at hnd
    rw [htl]
    constructor
    · rw [List.nodup_append]
      refine ⟨hndi, hnd.2.1, ?_⟩
      intro q hq hq2
      rcases hsub q hq with hqf | ⟨hq1, _⟩
      · exact hnd.2.2 hqf hq2
      · have := hbnd q (by
          simp only [List.map_cons, List.flatten_cons]
          exact List.mem_append.mpr (Or.inr hq2))
        omega
    · intro q hq
      rcases List.mem_append.mp hq with hq | hq
      · rcases hsub q hq with hqf | hrange
        · exact Or.inl (List.mem_append.mpr (Or.inl hqf))
        · exact Or.inr hrange
      · exact Or.inl (List.mem_append.mpr (Or.inr hq))
  | c :: cs, i + 1, NP, NPn, hi, hnd, hbnd, hNP, hndi, hsub, hfr => by
    have h0 : Fn c = F c := by
      have := hfr 0 (by simp) (by omega)
      rwa [List.getD_cons_zero] at this
    simp only [List.map_cons, List.flatten_cons] at hnd ⊢
    rw [List.nodup_append] at hnd
    rw [List.getD_cons_succ] at hndi hsub
    obtain ⟨hih1, hih2⟩ := flatten_update F Fn cs i NP NPn (by simpa using hi)
      hnd.2.1
      (fun q hq => hbnd q (by
        simp only [List.map_cons, List.flatten_cons]
        exact List.mem_append.mpr (Or.inr hq)))
      hNP hndi hsub
      (fun j hj hji => by
        have := hfr (j + 1) (by simp; omega) (by omega)
        rwa [List.getD_cons_succ] at this)
    rw [h0]
    constructor
    · rw [List.nodup_append]
      refine ⟨hnd.1, hih1, ?_⟩
      intro q hq hq2
      rcases hih2 q hq2 with hqf | ⟨hq1, _⟩
      · exact hnd.2.2 hq hqf
      · have := hbnd q (by
          simp only [List.map_cons, List.flatten_cons]
          exact List.mem_append.mpr (Or.inl hq))
        omega
    · intro q hq
      rcases List.mem_append.mp hq with hq | hq
      · exact Or.inl (List.mem_append.mpr (Or.inl hq))
      · rcases hih2 q hq with hqf | hrange
        · exact Or.inl (List.mem_append.mpr (Or.inr hqf))
        · exact Or.inr hrange

/-! ## What `split_child` computes, and what it preserves -/

theorem splitChild_unfold (ts : TreeState) (n : Node) (i : Nat) (c : Node) :
    (splitChild ts n i c).1.root = ts.root
    ∧ (splitChild ts n i c).1.unique = ts.unique
    ∧ (splitChild ts n i c).1.nextPage = ts.nextPage + 1
    ∧ (splitChild ts n i c).2
        = { n with
            keys := insertAt n.keys i (c.keys.getD MIN_KEYS []),
            values := insertAt n.values i (c.values.getD MIN_KEYS 0),
            children := insertAt n.children (i + 1) ts.nextPage }
    ∧ ∀ q, (splitChild ts n i c).1.store q
        = if q = ts.nextPage then
            some { page_id := ts.nextPage,
                   keys := c.keys.drop (MIN_KEYS + 1),
                   values := c.values.drop (MIN_KEYS + 1),
                   children := if c.is_leaf then [] else c.children.drop (MIN_KEYS + 1),
                   is_leaf := c.is_leaf }
          else if q = c.page_id then
            some { c with
                   keys := c.keys.take MIN_KEYS,
                   values := c.values.take MIN_KEYS,
                   children := if c.is_leaf then c.children
                     else c.children.take (MIN_KEYS + 1) }
          else if q = n.page_id then
            some { n with
                   keys := insertAt n.keys i (c.keys.getD MIN_KEYS []),
                   values := insertAt n.values i (c.values.getD MIN_KEYS 0),
                   children := insertAt n.children (i + 1) ts.nextPage }
          else ts.store q := by
  refine ⟨rfl, rfl, rfl, rfl, fun q => ?_⟩
  simp only [splitChild, saveNode]

/-- Splitting a full child at the median: the two halves are wellformed on
the two half-windows, the in-order contents are preserved around the
median, and the page ids gain exactly the fresh sibling page. -/
theorem split_child_facts {st stn : Store} {cid nid : Nat} {c : Node} {h : Nat}
    {clo chi : Option (List Nat)}
    (hg : Good st cid h clo chi) (hst : st cid = some c)
    (hfull : c.keys.length = MAX_KEYS)
    (hL : stn cid = some ⟨c.page_id, c.keys.take MIN_KEYS, c.values.take MIN_KEYS,
      if c.is_leaf then c.children else c.children.take (MIN_KEYS + 1), c.is_leaf⟩)
    (hR : stn nid = some ⟨nid, c.keys.drop (MIN_KEYS + 1), c.values.drop (MIN_KEYS + 1),
      if c.is_leaf then [] else c.children.drop (MIN_KEYS + 1), c.is_leaf⟩)
    (hagree : ∀ q ∈ idsOf h st cid, q ≠ cid → stn q = st q)
    (hnd : (idsOf h st cid).Nodup)
    (hnidf : nid ∉ idsOf h st cid) :
    Good stn cid h clo (some (c.keys.getD MIN_KEYS []))
    ∧ Good stn nid h (some (c.keys.getD MIN_KEYS [])) chi
    ∧ treeList h stn cid
        ++ (c.keys.getD MIN_KEYS [], c.values.getD MIN_KEYS 0) :: treeList h stn nid
      = treeList h st cid
    ∧ List.Perm (idsOf h stn cid ++ idsOf h stn nid) (nid :: idsOf h st cid) := by
  have hkl : c.keys.length = 11 := by rw [hfull]; rfl
  have hmkl : MIN_KEYS = 5 := rfl
  cases hg with
  | leaf cid c' clo chi hst' hpid hleaf hvlen hsort hwin =>
    rw [hst] at hst'
    injection hst' with he
    subst he
    have hvl : c.values.length = 11 := by omega
    have hwtake : ∀ k' ∈ c.keys.take MIN_KEYS, okLo clo k'
        ∧ okHi k' (some (c.keys.getD MIN_KEYS [])) := by
      intro k' hk'
      obtain ⟨jj, hjj, hje⟩ := List.mem_iff_getElem.mp hk'
      have hjj' : jj < MIN_KEYS := by
        simp [List.length_take] at hjj
        omega
      have hke : k' = c.keys.getD jj [] := by
        rw [List.getD_eq_getElem _ _ (by omega), ← List.getElem_take c.keys]
        exact hje.symm
      refine ⟨(hwin k' (List.mem_of_mem_take hk')).1, ?_⟩
      rw [hke]
      exact sorted_getD_lt hsort hjj' (by omega)
    have hwdrop : ∀ k' ∈ c.keys.drop (MIN_KEYS + 1),
        okLo (some (c.keys.getD MIN_KEYS [])) k' ∧ okHi k' chi := by
      intro k' hk'
      obtain ⟨jj, hjj, hje⟩ := List.mem_iff_getElem.mp hk'
      have hjj' : MIN_KEYS + 1 + jj < c.keys.length := by
        simp [List.length_drop] at hjj
        omega
      have hke : k' = c.keys.getD (MIN_KEYS + 1 + jj) [] := by
        rw [List.getD_eq_getElem _ _ hjj', ← List.getElem_drop c.keys]
        exact hje.symm
      refine ⟨?_, (hwin k' (List.mem_of_mem_drop hk')).2⟩
      rw [hke]
      exact sorted_getD_lt hsort (by omega) hjj'
    refine ⟨?_, ?_, ?_, ?_⟩
    · exact Good.leaf cid _ clo (some (c.keys.getD MIN_KEYS [])) hL hpid hleaf
        (by simp [List.length_take]; omega) (sorted_take _ hsort) hwtake
    · exact Good.leaf nid _ (some (c.keys.getD MIN_KEYS [])) chi hR rfl hleaf
        (by simp [List.length_drop]; omega) (sorted_drop _ hsort) hwdrop
    · rw [treeList_zero_eq hL, treeList_zero_eq hR, treeList_zero_eq hst]
      show (c.keys.take MIN_KEYS).zip (c.values.take MIN_KEYS)
          ++ (c.keys.getD MIN_KEYS [], c.values.getD MIN_KEYS 0)
            :: (c.keys.drop (MIN_KEYS + 1)).zip (c.values.drop (MIN_KEYS + 1))
        = c.keys.zip c.values
      rw [zip_take_take, zip_drop_drop]
      have hzl : MIN_KEYS < (c.keys.zip c.values).length := by
        rw [List.length_zip]
        omega
      have hp : (c.keys.zip c.values).getD MIN_KEYS ([], 0)
          = (c.keys.getD MIN_KEYS [], c.values.getD MIN_KEYS 0) := by
        rw [List.getD_eq_getElem _ _ hzl, List.getElem_zip,
          List.getD_eq_getElem _ _ (by omega : MIN_KEYS < c.keys.length),
          List.getD_eq_getElem _ _ (by omega : MIN_KEYS < c.values.length)]
      rw [← hp]
      exact take_getD_drop _ MIN_KEYS ([], 0) (by rw [List.length_zip]; omega)
    · show List.Perm (idsOf 0 stn cid ++ idsOf 0 stn nid) (nid :: idsOf 0 st cid)
      simp only [idsOf]
      exact List.Perm.swap nid cid []
  | node cid c' clo chi h hst' hpid hleaf hvlen hclen hsort hwin hch =>
    rw [hst] at hst'
    injection hst' with he
    subst he
    have hvl : c.values.length = 11 := by omega
    have hcl : c.children.length = 12 := by omega
    simp only [hleaf, Bool.false_eq_true, if_false] at hL hR
    -- frame every grandchild subtree
    have hgch : ∀ j, j < c.children.length →
        Good stn (c.children.getD j 0) h (childLo c clo j) (childHi c chi j)
        ∧ idsOf h stn (c.children.getD j 0) = idsOf h st (c.children.getD j 0)
        ∧ treeList h stn (c.children.getD j 0) = treeList h st (c.children.getD j 0) := by
      intro j hj
      refine good_frame (hch j hj) ?_
      intro q hq
      refine hagree q (mem_idsOf_child hst hj q hq) ?_
      intro he
      subst he
      rw [idsOf_succ_eq h hst] at hnd
      exact (List.nodup_cons.mp hnd).1
        (List.mem_flatten.mpr ⟨idsOf h st (c.children.getD j 0),
          List.mem_map.mpr ⟨c.children.getD j 0, getD_mem 0 hj, rfl⟩, hq⟩)
    -- window facts for the key halves
    have hwtake : ∀ k' ∈ c.keys.take MIN_KEYS, okLo clo k'
        ∧ okHi k' (some (c.keys.getD MIN_KEYS [])) := by
      intro k' hk'
      obtain ⟨jj, hjj, hje⟩ := List.mem_iff_getElem.mp hk'
      have hjj' : jj < MIN_KEYS := by
        simp [List.length_take] at hjj
        omega
      have hke : k' = c.keys.getD jj [] := by
        rw [List.getD_eq_getElem _ _ (by omega), ← List.getElem_take c.keys]
        exact hje.symm
      refine ⟨(hwin k' (List.mem_of_mem_take hk')).1, ?_⟩
      rw [hke]
      exact sorted_getD_lt hsort hjj' (by omega)
    have hwdrop : ∀ k' ∈ c.keys.drop (MIN_KEYS + 1),
        okLo (some (c.keys.getD MIN_KEYS [])) k' ∧ okHi k' chi := by
      intro k' hk'
      obtain ⟨jj, hjj, hje⟩ := List.mem_iff_getElem.mp hk'
      have hjj' : MIN_KEYS + 1 + jj < c.keys.length := by
        simp [List.length_drop] at hjj
        omega
      have hke : k' = c.keys.getD (MIN_KEYS + 1 + jj) [] := by
        rw [List.getD_eq_getElem _ _ hjj', ← List.getElem_drop c.keys]
        exact hje.symm
      refine ⟨?_, (hwin k' (List.mem_of_mem_drop hk')).2⟩
      rw [hke]
      exact sorted_getD_lt hsort (by omega) hjj'
    refine ⟨?_, ?_, ?_, ?_⟩
    · -- left half wellformed
      refine Good.node cid _ clo (some (c.keys.getD MIN_KEYS [])) h hL hpid rfl
        (by simp [List.length_take]; omega)
        (by simp [List.length_take]; omega)
        (sorted_take _ hsort) hwtake ?_
      intro j hj
      have hj6 : j < MIN_KEYS + 1 := by
        simp [List.length_take] at hj
        omega
      have hgd : (c.children.take (MIN_KEYS + 1)).getD j 0 = c.children.getD j 0 :=
        getD_take _ _ _ _ hj6
      rw [hgd]
      have hlo : childLo ⟨c.page_id, c.keys.take MIN_KEYS, c.values.take MIN_KEYS,
            c.children.take (MIN_KEYS + 1), false⟩ clo j = childLo c clo j := by
        unfold childLo
        by_cases hj0 : j = 0
        · simp [hj0]
        · rw [if_neg hj0, if_neg hj0]
          show some ((c.keys.take MIN_KEYS).getD (j - 1) []) = _
          rw [getD_take _ _ _ _ (by omega)]
      have hhi : childHi ⟨c.page_id, c.keys.take MIN_KEYS, c.values.take MIN_KEYS,
            c.children.take (MIN_KEYS + 1), false⟩ (some (c.keys.getD MIN_KEYS [])) j
          = childHi c chi j := by
        unfold childHi
        show (if j = (c.keys.take MIN_KEYS).length then some (c.keys.getD MIN_KEYS [])
          else some ((c.keys.take MIN_KEYS).getD j [])) = _
        have hlt : (c.keys.take MIN_KEYS).length = MIN_KEYS := by
          simp [List.length_take]
          omega
        by_cases hj5 : j = MIN_KEYS
        · rw [if_pos (by omega), if_neg (by omega)]
          rw [hj5]
        · rw [if_neg (by omega), if_neg (by omega)]
          rw [getD_take _ _ _ _ (by omega)]
      rw [hlo, hhi]
      exact (hgch j (by omega)).1
    · -- right half wellformed
      refine Good.node nid _ (some (c.keys.getD MIN_KEYS [])) chi h hR rfl rfl
        (by simp [List.length_drop]; omega)
        (by simp [List.length_drop]; omega)
        (sorted_drop _ hsort) hwdrop ?_
      intro j hj
      have hj6 : j < 6 := by
        simp [List.length_drop] at hj
        omega
      have hgd : (c.children.drop (MIN_KEYS + 1)).getD j 0
          = c.children.getD (MIN_KEYS + 1 + j) 0 := getD_drop _ _ _ _
      rw [hgd]
      have hlo : childLo ⟨nid, c.keys.drop (MIN_KEYS + 1), c.values.drop (MIN_KEYS + 1),
            c.children.drop (MIN_KEYS + 1), false⟩ (some (c.keys.getD MIN_KEYS [])) j
          = childLo c clo (MIN_KEYS + 1 + j) := by
        unfold childLo
        by_cases hj0 : j = 0
        · subst hj0
          rw [if_pos rfl, if_neg (by omega)]
          simp
        · rw [if_neg hj0, if_neg (by omega)]
          show some ((c.keys.drop (MIN_KEYS + 1)).getD (j - 1) []) = _
          rw [getD_drop]
          have : MIN_KEYS + 1 + (j - 1) = MIN_KEYS + 1 + j - 1 := by omega
          rw [this]
      have hhi : childHi ⟨nid, c.keys.drop (MIN_KEYS + 1), c.values.drop (MIN_KEYS + 1),
            c.children.drop (MIN_KEYS + 1), false⟩ chi j
          = childHi c chi (MIN_KEYS + 1 + j) := by
        unfold childHi
        show (if j = (c.keys.drop (MIN_KEYS + 1)).length then chi
          else some ((c.keys.drop (MIN_KEYS + 1)).getD j [])) = _
        have hdl : (c.keys.drop (MIN_KEYS + 1)).length = 5 := by
          simp [List.length_drop]
          omega
        by_cases hj5 : j = 5
        · rw [if_pos (by omega), if_pos (by omega)]
        · rw [if_neg (by omega), if_neg (by omega)]
          rw [getD_drop]
      rw [hlo, hhi]
      exact (hgch (MIN_KEYS + 1 + j) (by omega)).1
    · -- contents preserved around the median
      rw [treeList_succ_eq h hL, treeList_succ_eq h hR, treeList_succ_eq h hst]
      show glue (fun q => treeList h stn q) (c.keys.take MIN_KEYS)
            (c.values.take MIN_KEYS) (c.children.take (MIN_KEYS + 1))
          ++ (c.keys.getD MIN_KEYS [], c.values.getD MIN_KEYS 0)
            :: glue (fun q => treeList h stn q) (c.keys.drop (MIN_KEYS + 1))
              (c.values.drop (MIN_KEYS + 1)) (c.children.drop (MIN_KEYS + 1))
        = glue (fun q => treeList h st q) c.keys c.values c.children
      rw [glue_congr_getD (fun q => treeList h stn q) (fun q => treeList h st q)
        (c.keys.take MIN_KEYS) (c.values.take MIN_KEYS) (c.children.take (MIN_KEYS + 1))
        (fun j hj => by
          rw [getD_take _ _ _ 0 (by simp [List.length_take] at hj; omega)]
          exact (hgch j (by simp [List.length_take] at hj; omega)).2.2)]
      rw [glue_congr_getD (fun q => treeList h stn q) (fun q => treeList h st q)
        (c.keys.drop (MIN_KEYS + 1)) (c.values.drop (MIN_KEYS + 1))
        (c.children.drop (MIN_KEYS + 1))
        (fun j hj => by
          rw [getD_drop]
          exact (hgch (MIN_KEYS + 1 + j)
            (by simp [List.length_drop] at hj; omega)).2.2)]
      exact glue_split_at (fun q => treeList h st q) MIN_KEYS c.keys c.values
        c.children (by omega) hvlen hclen
    · -- page ids gain exactly the fresh sibling
      rw [idsOf_succ_eq h hL, idsOf_succ_eq h hR, idsOf_succ_eq h hst]
      have hmapL : (c.children.take (MIN_KEYS + 1)).map (fun q => idsOf h stn q)
          = (c.children.take (MIN_KEYS + 1)).map (fun q => idsOf h st q) := by
        apply List.map_congr_left
        intro q hq
        obtain ⟨j, hj, hje⟩ := mem_children_getD (List.mem_of_mem_take hq)
        rw [← hje]
        exact (hgch j hj).2.1
      have hmapR : (c.children.drop (MIN_KEYS + 1)).map (fun q => idsOf h stn q)
          = (c.children.drop (MIN_KEYS + 1)).map (fun q => idsOf h st q) := by
        apply List.map_congr_left
        intro q hq
        obtain ⟨j, hj, hje⟩ := mem_children_getD (List.mem_of_mem_drop hq)
        rw [← hje]
        exact (hgch j hj).2.1
      rw [hmapL, hmapR]
      have hsplit : c.children = c.children.take (MIN_KEYS + 1)
          ++ c.children.drop (MIN_KEYS + 1) := (List.take_append_drop _ _).symm
      conv =>
        rhs
        rw [hsplit]
      rw [List.map_append, List.flatten_append]
      show List.Perm
        ((cid :: (List.map (fun q => idsOf h st q)
            (c.children.take (MIN_KEYS + 1))).flatten)
          ++ nid :: (List.map (fun q => idsOf h st q)
            (c.children.drop (MIN_KEYS + 1))).flatten)
        (nid :: cid
          :: ((List.map (fun q => idsOf h st q)
                (c.children.take (MIN_KEYS + 1))).flatten
            ++ (List.map (fun q => idsOf h st q)
                (c.children.drop (MIN_KEYS + 1))).flatten))
      exact List.perm_middle

theorem good_keys_window {st : Store} {id h : Nat} {lo hi : Option (List Nat)}
    (hg : Good st id h lo hi) {n : Node} (hst : st id = some n) :
    ∀ k' ∈ n.keys, okLo lo k' ∧ okHi k' hi := by
  cases hg with
  | leaf id n' lo hi hst' hpid hleaf hvlen hsort hwin =>
    rw [hst] at hst'
    injection hst' with he
    subst he
    exact hwin
  | node id n' lo hi h hst' hpid hleaf hvlen hclen hsort hwin hch =>
    rw [hst] at hst'
    injection hst' with he
    subst he
    exact hwin

/-- Everything `split_child(parent, i, child)` guarantees at the parent
level: the updated parent is saved, its key gains the median in slot `i`
with the node invariants intact, all (old and new) children are wellformed
on the refined windows, the subtree contents are unchanged, the subtree
pages gain exactly the fresh sibling page, and no other page moves. -/
theorem splitChild_correct {ts : TreeState} {n : Node} {i : Nat} {c : Node}
    {h : Nat} {lo hi : Option (List Nat)}
    (hvlen : n.values.length = n.keys.length)
    (hclen : n.children.length = n.keys.length + 1)
    (hsort : Sorted n.keys)
    (hwin : ∀ k' ∈ n.keys, okLo lo k' ∧ okHi k' hi)
    (hch : ∀ j, j < n.children.length →
      Good ts.store (n.children.getD j 0) h (childLo n lo j) (childHi n hi j))
    (hile : i ≤ n.keys.length)
    (hcid : ts.store (n.children.getD i 0) = some c)
    (hfull : c.keys.length = MAX_KEYS)
    (hnd : (n.page_id :: (n.children.map (fun q => idsOf h ts.store q)).flatten).Nodup)
    (hbnd : ∀ q ∈ n.page_id :: (n.children.map (fun q => idsOf h ts.store q)).flatten,
      q < ts.nextPage) :
    (splitChild ts n i c).1.store n.page_id = some (splitChild ts n i c).2
    ∧ (splitChild ts n i c).2.page_id = n.page_id
    ∧ (splitChild ts n i c).2.is_leaf = n.is_leaf
    ∧ (splitChild ts n i c).2.keys = insertAt n.keys i (c.keys.getD MIN_KEYS [])
    ∧ (splitChild ts n i c).2.values.length = (splitChild ts n i c).2.keys.length
    ∧ (splitChild ts n i c).2.children.length = (splitChild ts n i c).2.keys.length + 1
    ∧ Sorted (splitChild ts n i c).2.keys
    ∧ (∀ k' ∈ (splitChild ts n i c).2.keys, okLo lo k' ∧ okHi k' hi)
    ∧ (∀ j, j < (splitChild ts n i c).2.children.length →
        Good (splitChild ts n i c).1.store ((splitChild ts n i c).2.children.getD j 0) h
          (childLo (splitChild ts n i c).2 lo j) (childHi (splitChild ts n i c).2 hi j))
    ∧ glue (fun q => treeList h (splitChild ts n i c).1.store q)
        (splitChild ts n i c).2.keys (splitChild ts n i c).2.values
        (splitChild ts n i c).2.children
      = glue (fun q => treeList h ts.store q) n.keys n.values n.children
    ∧ List.Perm
        (((splitChild ts n i c).2.children.map
          (fun q => idsOf h (splitChild ts n i c).1.store q)).flatten)
        (ts.nextPage :: (n.children.map (fun q => idsOf h ts.store q)).flatten)
    ∧ ∀ q, q ≠ n.page_id → q ≠ n.children.getD i 0 → q ≠ ts.nextPage →
        (splitChild ts n i c).1.store q = ts.store q := by
  obtain ⟨hroot, huniq, hnp, hn2, hstore⟩ := splitChild_unfold ts n i c
  have hiC : i < n.children.length := by omega
  have hcpid : c.page_id = n.children.getD i 0 := by
    obtain ⟨m, hm1, hm2⟩ := good_inv (hch i hiC)
    rw [hcid] at hm1
    injection hm1 with he
    subst he
    exact hm2
  have hndcons := List.nodup_cons.mp hnd
  have hpidnot : n.page_id ∉ (n.children.map (fun q => idsOf h ts.store q)).flatten :=
    hndcons.1
  have hndflat : ((n.children.map (fun q => idsOf h ts.store q)).flatten).Nodup :=
    hndcons.2
  have hsegmem : ∀ j, j < n.children.length →
      ∀ q ∈ idsOf h ts.store (n.children.getD j 0),
        q ∈ (n.children.map (fun q => idsOf h ts.store q)).flatten := by
    intro j hj q hq
    exact List.mem_flatten.mpr
      ⟨_, List.mem_map.mpr ⟨n.children.getD j 0, getD_mem 0 hj, rfl⟩, hq⟩
  have hqbnd : ∀ j, j < n.children.length →
      ∀ q ∈ idsOf h ts.store (n.children.getD j 0), q < ts.nextPage :=
    fun j hj q hq => hbnd q (List.mem_cons.mpr (Or.inr (hsegmem j hj q hq)))
  have hdisj : ∀ j, j < n.children.length → j ≠ i →
      ∀ q ∈ idsOf h ts.store (n.children.getD j 0),
        q ∉ idsOf h ts.store (n.children.getD i 0) := by
    intro j hj hji q hqj hqi
    have hLi : (n.children.map (fun q => idsOf h ts.store q)).getD i []
        = idsOf h ts.store (n.children.getD i 0) := getD_map_ids _ hiC
    have hLj : (n.children.map (fun q => idsOf h ts.store q)).getD j []
        = idsOf h ts.store (n.children.getD j 0) := getD_map_ids _ hj
    rcases Nat.lt_or_ge j i with hlt | hge
    · exact disjoint_of_nodup_flatten hndflat hlt (by simpa using hiC)
        (by rw [hLj]; exact hqj) (by rw [hLi]; exact hqi)
    · have hlt : i < j := by omega
      exact disjoint_of_nodup_flatten hndflat hlt (by simpa using hj)
        (by rw [hLi]; exact hqi) (by rw [hLj]; exact hqj)
  have hframe1 : ∀ q, q ≠ n.page_id → q ≠ n.children.getD i 0 → q ≠ ts.nextPage →
      (splitChild ts n i c).1.store q = ts.store q := by
    intro q h1 h2 h3
    rw [hstore q, if_neg h3, if_neg (by rw [hcpid]; exact h2), if_neg h1]
  have hagreeSub : ∀ j, j < n.children.length → j ≠ i →
      ∀ q ∈ idsOf h ts.store (n.children.getD j 0),
        (splitChild ts n i c).1.store q = ts.store q := by
    intro j hj hji q hq
    refine hframe1 q ?_ ?_ ?_
    · intro he
      subst he
      exact hpidnot (hsegmem j hj _ hq)
    · intro he
      subst he
      exact hdisj j hj hji _ hq (idsOf_mem_self h _ _)
    · intro he
      subst he
      exact Nat.lt_irrefl _ (hqbnd j hj _ hq)
  have hgframe : ∀ j, j < n.children.length → j ≠ i →
      Good (splitChild ts n i c).1.store (n.children.getD j 0) h
          (childLo n lo j) (childHi n hi j)
      ∧ idsOf h (splitChild ts n i c).1.store (n.children.getD j 0)
          = idsOf h ts.store (n.children.getD j 0)
      ∧ treeList h (splitChild ts n i c).1.store (n.children.getD j 0)
          = treeList h ts.store (n.children.getD j 0) :=
    fun j hj hji => good_frame (hch j hj) (hagreeSub j hj hji)
  have hcidlt : n.children.getD i 0 < ts.nextPage :=
    hqbnd i hiC _ (idsOf_mem_self h _ _)
  have hLs : (splitChild ts n i c).1.store (n.children.getD i 0)
      = some ⟨c.page_id, c.keys.take MIN_KEYS, c.values.take MIN_KEYS,
          if c.is_leaf then c.children else c.children.take (MIN_KEYS + 1),
          c.is_leaf⟩ := by
    rw [hstore _, if_neg (by omega), if_pos hcpid.symm]
  have hRs : (splitChild ts n i c).1.store ts.nextPage
      = some ⟨ts.nextPage, c.keys.drop (MIN_KEYS + 1), c.values.drop (MIN_KEYS + 1),
          if c.is_leaf then [] else c.children.drop (MIN_KEYS + 1), c.is_leaf⟩ := by
    rw [hstore _, if_pos rfl]
  obtain ⟨hGL, hGR, hCT, hPermC⟩ := split_child_facts (hch i hiC) hcid hfull hLs hRs
    (fun q hq hqne => hframe1 q
      (fun he => hpidnot (he ▸ hsegmem i hiC q hq)) hqne
      (fun he => Nat.lt_irrefl _ (he ▸ hqbnd i hiC q hq)))
    (nodup_of_mem_flatten hndflat
      (List.mem_map.mpr ⟨n.children.getD i 0, getD_mem 0 hiC, rfl⟩))
    (fun hq => Nat.lt_irrefl _ (hqbnd i hiC _ hq))
  have hpidlt : n.page_id < ts.nextPage := hbnd _ (List.mem_cons_self _ _)
  have hpidne : n.page_id ≠ n.children.getD i 0 := by
    intro he
    rw [he] at hpidnot
    exact hpidnot (hsegmem i hiC _ (idsOf_mem_self h _ _))
  have hk2 : (splitChild ts n i c).2.keys = insertAt n.keys i (c.keys.getD MIN_KEYS []) := by
    rw [hn2]
  have hv2 : (splitChild ts n i c).2.values
      = insertAt n.values i (c.values.getD MIN_KEYS 0) := by
    rw [hn2]
  have hc2 : (splitChild ts n i c).2.children
      = insertAt n.children (i + 1) ts.nextPage := by
    rw [hn2]
  have hmedwin : okLo (childLo n lo i) (c.keys.getD MIN_KEYS [])
      ∧ okHi (c.keys.getD MIN_KEYS []) (childHi n hi i) :=
    good_keys_window (hch i hiC) hcid _
      (getD_mem [] (by rw [hfull]; decide))
  have hlowm : ∀ j, j < i → bytesLt (n.keys.getD j []) (c.keys.getD MIN_KEYS []) = true := by
    intro j hj
    have h1 : okLo (some (n.keys.getD (i - 1) [])) (c.keys.getD MIN_KEYS []) := by
      have := hmedwin.1
      rwa [childLo, if_neg (by omega)] at this
    by_cases hje : j = i - 1
    · subst hje
      exact h1
    · exact bytesLt_trans (sorted_getD_lt hsort (by omega) (by omega)) h1
  have hhighm : ∀ j, i ≤ j → j < n.keys.length →
      bytesLt (c.keys.getD MIN_KEYS []) (n.keys.getD j []) = true := by
    intro j hj1 hj2
    have h1 : okHi (c.keys.getD MIN_KEYS []) (some (n.keys.getD i [])) := by
      have := hmedwin.2
      rwa [childHi, if_neg (by omega)] at this
    by_cases hje : j = i
    · subst hje
      exact h1
    · exact bytesLt_trans h1 (sorted_getD_lt hsort (by omega) hj2)
  refine ⟨?_, ?_, ?_, hk2, ?_, ?_, ?_, ?_, ?_, ?_, ?_, hframe1⟩
  · rw [hstore _, if_neg (by omega), if_neg (by rw [hcpid]; exact hpidne),
      if_pos rfl, hn2]
  · rw [hn2]
  · rw [hn2]
  · rw [hk2, hv2, insertAt_length, insertAt_length, hvlen]
  · rw [hk2, hc2, insertAt_length, insertAt_length, hclen]
  · rw [hk2]
    exact sorted_insertAt hsort hile hlowm hhighm
  · intro k' hk'
    rw [hk2] at hk'
    rcases mem_insertAt hk' with hk' | hk'
    · exact hwin k' hk'
    · subst hk'
      constructor
      · by_cases hi0 : i = 0
        · have := hmedwin.1
          rwa [childLo, if_pos hi0] at this
        · have h1 := hmedwin.1
          rw [childLo, if_neg hi0] at h1
          exact okLo_trans (hwin _ (getD_mem [] (by omega))).1 h1
      · by_cases hie : i = n.keys.length
        · have := hmedwin.2
          rwa [childHi, if_pos hie] at this
        · have h1 := hmedwin.2
          rw [childHi, if_neg hie] at h1
          exact okHi_trans h1 (hwin _ (getD_mem [] (by omega))).2
  · -- every child of the updated parent is wellformed on its window
    intro j hj
    rw [hc2, insertAt_length] at hj
    rw [hc2]
    unfold childLo childHi
    rw [hk2, insertAt_length]
    rcases Nat.lt_trichotomy j i with hji | hji | hji
    · rw [getD_insertAt_lt _ _ _ _ _ (by omega) (by omega)]
      have hwlo : (if j = 0 then lo
          else some ((insertAt n.keys i (c.keys.getD MIN_KEYS [])).getD (j - 1) []))
          = childLo n lo j := by
        unfold childLo
        by_cases hj0 : j = 0
        · simp [hj0]
        · rw [if_neg hj0, if_neg hj0, getD_insertAt_lt _ _ _ _ _ (by omega) (by omega)]
      have hwhi : (if j = n.keys.length + 1 then hi
          else some ((insertAt n.keys i (c.keys.getD MIN_KEYS [])).getD j []))
          = childHi n hi j := by
        unfold childHi
        rw [if_neg (by omega), if_neg (by omega),
          getD_insertAt_lt _ _ _ _ _ (by omega) (by omega)]
      rw [hwlo, hwhi]
      exact (hgframe j (by omega) (by omega)).1
    · subst hji
      rw [getD_insertAt_lt _ _ _ _ _ (by omega) (by omega)]
      have hwlo : (if j = 0 then lo
          else some ((insertAt n.keys j (c.keys.getD MIN_KEYS [])).getD (j - 1) []))
          = childLo n lo j := by
        unfold childLo
        by_cases hj0 : j = 0
        · simp [hj0]
        · rw [if_neg hj0, if_neg hj0, getD_insertAt_lt _ _ _ _ _ (by omega) (by omega)]
      have hwhi : (if j = n.keys.length + 1 then hi
          else some ((insertAt n.keys j (c.keys.getD MIN_KEYS [])).getD j []))
          = some (c.keys.getD MIN_KEYS []) := by
        rw [if_neg (by omega), getD_insertAt_self _ _ _ _ hile]
      rw [hwlo, hwhi]
      exact hGL
    · by_cases hj1 : j = i + 1
      · subst hj1
        rw [getD_insertAt_self _ _ _ _ (by omega)]
        have hwlo : (if i + 1 = 0 then lo
            else some ((insertAt n.keys i (c.keys.getD MIN_KEYS [])).getD (i + 1 - 1) []))
            = some (c.keys.getD MIN_KEYS []) := by
          rw [if_neg (by omega)]
          have : i + 1 - 1 = i := by omega
          rw [this, getD_insertAt_self _ _ _ _ hile]
        have hwhi : (if i + 1 = n.keys.length + 1 then hi
            else some ((insertAt n.keys i (c.keys.getD MIN_KEYS [])).getD (i + 1) []))
            = childHi n hi i := by
          unfold childHi
          by_cases hie : i = n.keys.length
          · rw [if_pos (by omega), if_pos hie]
          · rw [if_neg (by omega), if_neg hie,
              getD_insertAt_gt _ _ _ _ _ (by omega) hile]
            simp
        rw [hwlo, hwhi]
        exact hGR
      · rw [getD_insertAt_gt _ _ _ _ _ (by omega) (by omega)]
        have hwlo : (if j = 0 then lo
            else some ((insertAt n.keys i (c.keys.getD MIN_KEYS [])).getD (j - 1) []))
            = childLo n lo (j - 1) := by
          unfold childLo
          rw [if_neg (by omega), if_neg (by omega),
            getD_insertAt_gt _ _ _ _ _ (by omega) hile]
        have hwhi : (if j = n.keys.length + 1 then hi
            else some ((insertAt n.keys i (c.keys.getD MIN_KEYS [])).getD j []))
            = childHi n hi (j - 1) := by
          unfold childHi
          by_cases hje : j = n.keys.length + 1
          · rw [if_pos hje, if_pos (by omega)]
          · rw [if_neg hje, if_neg (by omega),
              getD_insertAt_gt _ _ _ _ _ (by omega) hile]
        rw [hwlo, hwhi]
        exact (hgframe (j - 1) (by omega) (by omega)).1
  · -- subtree contents unchanged
    rw [hk2, hv2, hc2]
    exact glue_insert_split (fun q => treeList h ts.store q)
      (fun q => treeList h (splitChild ts n i c).1.store q)
      (c.keys.getD MIN_KEYS []) (c.values.getD MIN_KEYS 0) ts.nextPage i
      n.keys n.values n.children hile hvlen hclen hCT
      (fun j hj hji => (hgframe j hj hji).2.2)
  · -- page ids gain exactly the fresh sibling
    rw [hc2]
    have htk : n.children.take (i + 1)
        = n.children.take i ++ [n.children.getD i 0] := by
      rw [List.take_succ]
      congr 1
      rw [List.getElem?_eq_getElem hiC, List.getD_eq_getElem _ _ hiC]
      rfl
    have hmt : (n.children.take i).map
          (fun q => idsOf h (splitChild ts n i c).1.store q)
        = (n.children.take i).map (fun q => idsOf h ts.store q) := by
      apply List.ext_getElem (by simp)
      intro j hj1 hj2
      simp only [List.getElem_map]
      have hjt : j < i := by
        simp [List.length_take] at hj1
        omega
      have hjc : j < n.children.length := by omega
      simp only [List.getElem_take]
      rw [← List.getD_eq_getElem n.children 0 hjc]
      exact (hgframe j hjc (by omega)).2.1
    have hmd : (n.children.drop (i + 1)).map
          (fun q => idsOf h (splitChild ts n i c).1.store q)
        = (n.children.drop (i + 1)).map (fun q => idsOf h ts.store q) := by
      apply List.ext_getElem (by simp)
      intro j hj1 hj2
      simp only [List.getElem_map]
      have hjd : i + 1 + j < n.children.length := by
        simp [List.length_drop] at hj1
        omega
      simp only [List.getElem_drop]
      rw [← List.getD_eq_getElem n.children 0 hjd]
      exact (hgframe (i + 1 + j) hjd (by omega)).2.1
    have hL1 : ((insertAt n.children (i + 1) ts.nextPage).map
          (fun q => idsOf h (splitChild ts n i c).1.store q)).flatten
        = ((n.children.take i).map (fun q => idsOf h ts.store q)).flatten
          ++ (idsOf h (splitChild ts n i c).1.store (n.children.getD i 0)
            ++ (idsOf h (splitChild ts n i c).1.store ts.nextPage
              ++ ((n.children.drop (i + 1)).map
                (fun q => idsOf h ts.store q)).flatten)) := by
      rw [show insertAt n.children (i + 1) ts.nextPage
          = (n.children.take i ++ [n.children.getD i 0])
            ++ ts.nextPage :: n.children.drop (i + 1) from by rw [← htk]; rfl]
      rw [List.map_append, List.map_append, List.flatten_append, List.flatten_append,
        List.map_cons, List.flatten_cons, List.map_cons, List.flatten_cons, hmt, hmd]
      simp [List.append_assoc]
    have hcs : n.children
        = n.children.take i ++ n.children.getD i 0 :: n.children.drop (i + 1) :=
      (take_getD_drop _ i 0 hiC).symm
    have hR1 : (n.children.map (fun q => idsOf h ts.store q)).flatten
        = ((n.children.take i).map (fun q => idsOf h ts.store q)).flatten
          ++ (idsOf h ts.store (n.children.getD i 0)
            ++ ((n.children.drop (i + 1)).map (fun q => idsOf h ts.store q)).flatten) := by
      conv_lhs => rw [hcs]
      rw [List.map_append, List.map_cons, List.flatten_append, List.flatten_cons]
    rw [hL1, hR1]
    have hstep : List.Perm
        (idsOf h (splitChild ts n i c).1.store (n.children.getD i 0)
          ++ (idsOf h (splitChild ts n i c).1.store ts.nextPage
            ++ ((n.children.drop (i + 1)).map (fun q => idsOf h ts.store q)).flatten))
        (ts.nextPage :: (idsOf h ts.store (n.children.getD i 0)
          ++ ((n.children.drop (i + 1)).map (fun q => idsOf h ts.store q)).flatten)) := by
      have hx := List.Perm.append_right
        (((n.children.drop (i + 1)).map (fun q => idsOf h ts.store q)).flatten) hPermC
      rw [List.append_assoc] at hx
      exact hx
    exact (List.Perm.append_left _ hstep).trans List.perm_middle

theorem good_leaf_inv {st : Store} {id : Nat} {lo hi : Option (List Nat)}
    (hg : Good st id 0 lo hi) {m : Node} (hm : st id = some m) :
    m.page_id = id ∧ m.is_leaf = true ∧ m.values.length = m.keys.length
    ∧ Sorted m.keys ∧ (∀ k ∈ m.keys, okLo lo k ∧ okHi k hi) := by
  cases hg with
  | leaf id n lo hi hst hpid hleaf hvlen hsort hwin =>
    rw [hm] at hst
    injection hst with he
    subst he
    exact ⟨hpid, hleaf, hvlen, hsort, hwin⟩

theorem good_node_inv {st : Store} {id h : Nat} {lo hi : Option (List Nat)}
    (hg : Good st id (h + 1) lo hi) {m : Node} (hm : st id = some m) :
    m.page_id = id ∧ m.is_leaf = false ∧ m.values.length = m.keys.length
    ∧ m.children.length = m.keys.length + 1 ∧ Sorted m.keys
    ∧ (∀ k ∈ m.keys, okLo lo k ∧ okHi k hi)
    ∧ (∀ j, j < m.children.length →
        Good st (m.children.getD j 0) h (childLo m lo j) (childHi m hi j)) := by
  cases hg with
  | node id n lo hi h hst hpid hleaf hvlen hclen hsort hwin hch =>
    rw [hm] at hst
    injection hst with he
    subst he
    exact ⟨hpid, hleaf, hvlen, hclen, hsort, hwin, hch⟩

theorem siblings_disjoint {st : Store} {h : Nat} {cs : List Nat}
    (hnd : ((cs.map (fun q => idsOf h st q)).flatten).Nodup)
    {ja jb : Nat} (hja : ja < cs.length) (hjb : jb < cs.length) (hne : ja ≠ jb)
    {q : Nat} (hqa : q ∈ idsOf h st (cs.getD ja 0))
    (hqb : q ∈ idsOf h st (cs.getD jb 0)) : False := by
  rcases Nat.lt_or_ge ja jb with hlt | hge
  · exact disjoint_of_nodup_flatten hnd hlt (by simpa using hjb)
      (by rw [getD_map_ids _ hja]; exact hqa)
      (by rw [getD_map_ids _ hjb]; exact hqb)
  · have hlt : jb < ja := by omega
    exact disjoint_of_nodup_flatten hnd hlt (by simpa using hja)
      (by rw [getD_map_ids _ hjb]; exact hqb)
      (by rw [getD_map_ids _ hja]; exact hqa)

theorem seg_mem_flatten {st : Store} {h : Nat} {cs : List Nat} {j : Nat}
    (hj : j < cs.length) {q : Nat} (hq : q ∈ idsOf h st (cs.getD j 0)) :
    q ∈ (cs.map (fun q => idsOf h st q)).flatten :=
  List.mem_flatten.mpr ⟨_, List.mem_map.mpr ⟨cs.getD j 0, getD_mem 0 hj, rfl⟩, hq⟩

/-- `insert_non_full` on a wellformed subtree with a key strictly inside
the window and absent from the subtree: it succeeds, keeps the subtree
wellformed at the same height and root page, inserts the pair into the
sorted contents, allocates only fresh pages, and leaves every other
allocated page untouched. -/
theorem insertNonFull_correct :
    ∀ (h fuel : Nat) (ts : TreeState) (m : Node) (lo hi : Option (List Nat))
      (key : List Nat) (val : Nat),
      h < fuel →
      ts.store m.page_id = some m →
      Good ts.store m.page_id h lo hi →
      (idsOf h ts.store m.page_id).Nodup →
      (∀ q ∈ idsOf h ts.store m.page_id, q < ts.nextPage) →
      okLo lo key → okHi key hi →
      lookupKV (treeList h ts.store m.page_id) key = none →
      (insertNonFull fuel ts m key val).1 = .ok ()
      ∧ (insertNonFull fuel ts m key val).2.root = ts.root
      ∧ (insertNonFull fuel ts m key val).2.unique = ts.unique
      ∧ ts.nextPage ≤ (insertNonFull fuel ts m key val).2.nextPage
      ∧ Good (insertNonFull fuel ts m key val).2.store m.page_id h lo hi
      ∧ treeList h (insertNonFull fuel ts m key val).2.store m.page_id
          = kvsSortedInsert key val (treeList h ts.store m.page_id)
      ∧ (idsOf h (insertNonFull fuel ts m key val).2.store m.page_id).Nodup
      ∧ (∀ q ∈ idsOf h (insertNonFull fuel ts m key val).2.store m.page_id,
          q ∈ idsOf h ts.store m.page_id
            ∨ (ts.nextPage ≤ q ∧ q < (insertNonFull fuel ts m key val).2.nextPage))
      ∧ (∀ q, q ∉ idsOf h ts.store m.page_id → q < ts.nextPage →
          (insertNonFull fuel ts m key val).2.store q = ts.store q) := by
  intro h
  induction h with
  | zero =>
    intro fuel ts m lo hi key val hfuel hm hg hnd hbnd hklo hkhi hfresh
    obtain ⟨f, rfl⟩ : ∃ f, fuel = f + 1 := ⟨fuel - 1, by omega⟩
    obtain ⟨-, hleaf, hvlen, hsort, hwin⟩ := good_leaf_inv hg hm
    have hkm : key ∉ m.keys := by
      intro hkmem
      obtain ⟨j, hj, hje⟩ := List.mem_iff_getElem.mp hkmem
      have hp := key_mem_treeList hg hm hj
      rw [lookupKV_eq_none_iff] at hfresh
      refine hfresh _ hp ?_
      rw [List.getD_eq_getElem _ _ hj]
      exact hje
    obtain ⟨hsle, hslow, hshigh⟩ := scanPos_fresh hsort hkm
    have hcond : ¬(ts.unique = true ∧ 0 < scanPos m.keys key
        ∧ m.keys.getD (scanPos m.keys key - 1) [] = key) := by
      rintro ⟨-, hpos, heq⟩
      exact hkm (heq ▸ getD_mem [] (by omega))
    have hres : insertNonFull (f + 1) ts m key val
        = (.ok (), ⟨ts.root, ts.unique, ts.nextPage, saveNode ts.store
            ⟨m.page_id, insertAt m.keys (scanPos m.keys key) key,
              insertAt m.values (scanPos m.keys key) val, m.children, m.is_leaf⟩⟩) := by
      simp only [insertNonFull]
      rw [hleaf]
      rw [if_pos rfl, if_neg hcond]
    have hsave : (insertNonFull (f + 1) ts m key val).2.store m.page_id
        = some ⟨m.page_id, insertAt m.keys (scanPos m.keys key) key,
            insertAt m.values (scanPos m.keys key) val, m.children, m.is_leaf⟩ := by
      rw [hres]
      show saveNode ts.store _ m.page_id = _
      unfold saveNode
      rw [if_pos rfl]
    refine ⟨by rw [hres], by rw [hres], by rw [hres], by rw [hres], ?_, ?_, ?_, ?_, ?_⟩
    · refine Good.leaf m.page_id _ lo hi hsave rfl hleaf ?_
        (sorted_insertAt hsort hsle hslow hshigh) ?_
      · show (insertAt m.values (scanPos m.keys key) val).length
          = (insertAt m.keys (scanPos m.keys key) key).length
        rw [insertAt_length, insertAt_length, hvlen]
      · intro k' hk'
        rcases mem_insertAt hk' with hk' | hk'
        · exact hwin k' hk'
        · subst hk'
          exact ⟨hklo, hkhi⟩
    · rw [treeList_zero_eq hsave, treeList_zero_eq hm]
      show (insertAt m.keys (scanPos m.keys key) key).zip
          (insertAt m.values (scanPos m.keys key) val)
        = kvsSortedInsert key val (m.keys.zip m.values)
      have hlowz : ∀ x ∈ (m.keys.zip m.values).take (scanPos m.keys key),
          bytesLt x.1 key = true := by
        intro x hx
        obtain ⟨jj, hjj, hje⟩ := List.mem_iff_getElem.mp hx
        have hjj2 : jj < scanPos m.keys key ∧ jj < (m.keys.zip m.values).length := by
          rw [List.length_take, lt_min_iff] at hjj
          exact hjj
        have hjk : jj < m.keys.length := by
          have := hjj2.2
          rw [List.length_zip] at this
          omega
        have hxe : x = (m.keys.getD jj [], m.values.getD jj 0) := by
          rw [← hje, List.getElem_take, List.getElem_zip,
            List.getD_eq_getElem _ _ hjk, List.getD_eq_getElem _ _ (by omega)]
        rw [hxe]
        exact hslow jj hjj2.1
      have hhighz : ∀ x ∈ (m.keys.zip m.values).drop (scanPos m.keys key),
          bytesLt key x.1 = true := by
        intro x hx
        obtain ⟨jj, hjj, hje⟩ := List.mem_iff_getElem.mp hx
        have hlen2 : scanPos m.keys key + jj < (m.keys.zip m.values).length := by
          rw [List.length_drop] at hjj
          omega
        have hjk : scanPos m.keys key + jj < m.keys.length := by
          rw [List.length_zip] at hlen2
          omega
        have hxe : x = (m.keys.getD (scanPos m.keys key + jj) [],
            m.values.getD (scanPos m.keys key + jj) 0) := by
          rw [← hje, List.getElem_drop, List.getElem_zip,
            List.getD_eq_getElem _ _ hjk, List.getD_eq_getElem _ _ (by omega)]
        rw [hxe]
        exact hshigh _ (by omega) hjk
      rw [zip_insertAt _ _ _ _ _ hvlen,
        kvsSortedInsert_eq_insertAt key val (m.keys.zip m.values) (scanPos m.keys key)
          (by rw [List.length_zip]; omega) hlowz hhighz]
    · simp [idsOf]
    · intro q hq
      simp only [idsOf] at hq ⊢
      exact Or.inl hq
    · intro q hq hqb
      simp only [idsOf, List.mem_singleton] at hq
      rw [hres]
      exact if_neg hq
  | succ h₁ ih =>
    intro fuel ts m lo hi key val hfuel hm hg hnd hbnd hklo hkhi hfresh
    obtain ⟨f, rfl⟩ : ∃ f, fuel = f + 1 := ⟨fuel - 1, by omega⟩
    obtain ⟨-, hleaf, hvlen, hclen, hsort, hwin, hch⟩ := good_node_inv hg hm
    rw [treeList_succ_eq h₁ hm] at hfresh
    rw [idsOf_succ_eq h₁ hm] at hnd hbnd
    rw [treeList_succ_eq h₁ hm, idsOf_succ_eq h₁ hm]
    have hpidlt : m.page_id < ts.nextPage := hbnd _ (List.mem_cons_self _ _)
    have hkm : key ∉ m.keys := by
      intro hkmem
      obtain ⟨j, hj, hje⟩ := List.mem_iff_getElem.mp hkmem
      rw [lookupKV_eq_none_iff] at hfresh
      refine hfresh _ (sep_mem_glue (fun c => treeList h₁ ts.store c)
        m.keys m.values m.children hj) ?_
      rw [List.getD_eq_getElem _ _ hj]
      exact hje
    obtain ⟨hsle, hslow, hshigh⟩ := scanPos_fresh hsort hkm
    have hiC : scanPos m.keys key < m.children.length := by omega
    obtain ⟨c, hc1, hc2⟩ : ∃ c, ts.store (m.children.getD (scanPos m.keys key) 0) = some c
        ∧ c.page_id = m.children.getD (scanPos m.keys key) 0 := by
      obtain ⟨c, hca, hcb⟩ := good_inv (hch (scanPos m.keys key) hiC)
      exact ⟨c, hca, hcb⟩
    -- shared descent-and-reassembly step: insert into child `ic` of a
    -- wellformed internal node `p` in state `u`, then restore the node-level
    -- invariants from the recursive ones
    have descend : ∀ (u : TreeState) (p : Node) (ic : Nat) (c₂ : Node),
        u.store p.page_id = some p →
        p.is_leaf = false →
        p.values.length = p.keys.length →
        p.children.length = p.keys.length + 1 →
        Sorted p.keys →
        (∀ j, j < p.children.length →
          Good u.store (p.children.getD j 0) h₁ (childLo p lo j) (childHi p hi j)) →
        (p.page_id :: (p.children.map (fun q => idsOf h₁ u.store q)).flatten).Nodup →
        (∀ q ∈ p.page_id :: (p.children.map (fun q => idsOf h₁ u.store q)).flatten,
          q < u.nextPage) →
        ic ≤ p.keys.length →
        okLo (childLo p lo ic) key →
        okHi key (childHi p hi ic) →
        (∀ j, j < ic → bytesLt (p.keys.getD j []) key = true) →
        (∀ j, ic ≤ j → j < p.keys.length → bytesLt key (p.keys.getD j []) = true) →
        lookupKV (glue (fun q => treeList h₁ u.store q) p.keys p.values p.children) key
          = none →
        u.store (p.children.getD ic 0) = some c₂ →
        (insertNonFull f u c₂ key val).1 = .ok ()
        ∧ (insertNonFull f u c₂ key val).2.root = u.root
        ∧ (insertNonFull f u c₂ key val).2.unique = u.unique
        ∧ u.nextPage ≤ (insertNonFull f u c₂ key val).2.nextPage
        ∧ (insertNonFull f u c₂ key val).2.store p.page_id = some p
        ∧ (∀ j, j < p.children.length →
            Good (insertNonFull f u c₂ key val).2.store (p.children.getD j 0) h₁
              (childLo p lo j) (childHi p hi j))
        ∧ glue (fun q => treeList h₁ (insertNonFull f u c₂ key val).2.store q)
            p.keys p.values p.children
          = kvsSortedInsert key val
              (glue (fun q => treeList h₁ u.store q) p.keys p.values p.children)
        ∧ ((p.children.map
            (fun q => idsOf h₁ (insertNonFull f u c₂ key val).2.store q)).flatten).Nodup
        ∧ (∀ q ∈ (p.children.map
              (fun q => idsOf h₁ (insertNonFull f u c₂ key val).2.store q)).flatten,
            q ∈ (p.children.map (fun q => idsOf h₁ u.store q)).flatten
              ∨ (u.nextPage ≤ q ∧ q < (insertNonFull f u c₂ key val).2.nextPage))
        ∧ (∀ q, q ≠ p.page_id →
            q ∉ (p.children.map (fun q => idsOf h₁ u.store q)).flatten →
            q < u.nextPage →
            (insertNonFull f u c₂ key val).2.store q = u.store q) := by
      intro u p ic c₂ hup hpleaf hpvlen hpclen hpsort hpch hpnd hpbnd hicle hiclo hichi
        hbelow habove hfreshp hc₂
      have hicC : ic < p.children.length := by omega
      have hc₂pid : c₂.page_id = p.children.getD ic 0 := by
        obtain ⟨mm, hm1, hm2⟩ := good_inv (hpch ic hicC)
        rw [hc₂] at hm1
        injection hm1 with he
        subst he
        exact hm2
      have hchGood : Good u.store c₂.page_id h₁ (childLo p lo ic) (childHi p hi ic) := by
        rw [hc₂pid]
        exact hpch ic hicC
      have hchfresh : lookupKV (treeList h₁ u.store c₂.page_id) key = none := by
        rw [lookupKV_eq_none_iff] at hfreshp ⊢
        intro x hx
        rw [hc₂pid] at hx
        exact hfreshp x
          (@child_mem_glue (fun q => treeList h₁ u.store q) p.keys p.values p.children
            ic hicle x hx)
      have hsegnd : (idsOf h₁ u.store c₂.page_id).Nodup := by
        rw [hc₂pid]
        exact nodup_of_mem_flatten (List.nodup_cons.mp hpnd).2
          (List.mem_map.mpr ⟨p.children.getD ic 0, getD_mem 0 hicC, rfl⟩)
      have hsegbnd : ∀ q ∈ idsOf h₁ u.store c₂.page_id, q < u.nextPage := by
        intro q hq
        rw [hc₂pid] at hq
        exact hpbnd q (List.mem_cons.mpr (Or.inr (seg_mem_flatten hicC hq)))
      obtain ⟨hr1, hr2, hr3, hr4, hr5, hr6, hr7, hr8, hr9⟩ :=
        ih f u c₂ (childLo p lo ic) (childHi p hi ic) key val (by omega)
          (by rw [hc₂pid]; exact hc₂) hchGood
          hsegnd hsegbnd hiclo hichi hchfresh
      have hfrj : ∀ j, j < p.children.length → j ≠ ic →
          Good (insertNonFull f u c₂ key val).2.store (p.children.getD j 0) h₁
            (childLo p lo j) (childHi p hi j)
          ∧ idsOf h₁ (insertNonFull f u c₂ key val).2.store (p.children.getD j 0)
            = idsOf h₁ u.store (p.children.getD j 0)
          ∧ treeList h₁ (insertNonFull f u c₂ key val).2.store (p.children.getD j 0)
            = treeList h₁ u.store (p.children.getD j 0) := by
        intro j hj hji
        refine good_frame (hpch j hj) ?_
        intro q hq
        refine hr9 q ?_ (hpbnd q (List.mem_cons.mpr (Or.inr (seg_mem_flatten hj hq))))
        intro hq2
        rw [hc₂pid] at hq2
        exact siblings_disjoint (List.nodup_cons.mp hpnd).2 hj hicC hji hq hq2
      have hd5 : (insertNonFull f u c₂ key val).2.store p.page_id = some p := by
        have hnot : p.page_id ∉ idsOf h₁ u.store c₂.page_id := by
          intro hmem
          rw [hc₂pid] at hmem
          exact (List.nodup_cons.mp hpnd).1 (seg_mem_flatten hicC hmem)
        rw [hr9 _ hnot (hpbnd _ (List.mem_cons_self _ _))]
        exact hup
      have hd6 : ∀ j, j < p.children.length →
          Good (insertNonFull f u c₂ key val).2.store (p.children.getD j 0) h₁
            (childLo p lo j) (childHi p hi j) := by
        intro j hj
        by_cases hji : j = ic
        · subst hji
          have := hr5
          rwa [hc₂pid] at this
        · exact (hfrj j hj hji).1
      have hTc : treeList h₁ (insertNonFull f u c₂ key val).2.store
            (p.children.getD ic 0)
          = kvsSortedInsert key val (treeList h₁ u.store (p.children.getD ic 0)) := by
        rw [← hc₂pid]
        exact hr6
      have hd7 : glue (fun q => treeList h₁ (insertNonFull f u c₂ key val).2.store q)
            p.keys p.values p.children
          = kvsSortedInsert key val
              (glue (fun q => treeList h₁ u.store q) p.keys p.values p.children) := by
        by_cases hiclen : ic < p.keys.length
        · rw [glue_decomp (fun q => treeList h₁ (insertNonFull f u c₂ key val).2.store q)
              p.keys p.values p.children ic hiclen,
            glue_decomp (fun q => treeList h₁ u.store q)
              p.keys p.values p.children ic hiclen]
          have hA : glueSegs (fun q => treeList h₁ (insertNonFull f u c₂ key val).2.store q)
                (p.keys.take ic) p.values p.children
              = glueSegs (fun q => treeList h₁ u.store q)
                (p.keys.take ic) p.values p.children := by
            refine glueSegs_congr_getD _ _ _ _ _ ?_
            intro j hj
            have hjlt : j < ic := by
              simp [List.length_take] at hj
              omega
            exact (hfrj j (by omega) (by omega)).2.2
          have hB : glueSegs (fun q => treeList h₁ (insertNonFull f u c₂ key val).2.store q)
                (p.keys.drop (ic + 1)) (p.values.drop (ic + 1)) (p.children.drop (ic + 1))
              = glueSegs (fun q => treeList h₁ u.store q)
                (p.keys.drop (ic + 1)) (p.values.drop (ic + 1))
                (p.children.drop (ic + 1)) := by
            refine glueSegs_congr_getD _ _ _ _ _ ?_
            intro j hj
            rw [getD_drop]
            have hjlt : j < p.keys.length - (ic + 1) := by
              simpa [List.length_drop] using hj
            exact (hfrj (ic + 1 + j) (by omega) (by omega)).2.2
          have hLst : treeList h₁ (insertNonFull f u c₂ key val).2.store
                (p.children.getD p.keys.length 0)
              = treeList h₁ u.store (p.children.getD p.keys.length 0) :=
            (hfrj p.keys.length (by omega) (by omega)).2.2
          rw [hA, hB, hLst, hTc]
          have hgt : ∀ x ∈ (p.keys.getD ic [], p.values.getD ic 0)
                :: (glueSegs (fun q => treeList h₁ u.store q) (p.keys.drop (ic + 1))
                    (p.values.drop (ic + 1)) (p.children.drop (ic + 1))
                  ++ treeList h₁ u.store (p.children.getD p.keys.length 0)),
              bytesLt key x.1 = true := by
            intro x hx
            obtain ⟨hda, hdb⟩ := node_suffix_above hpch hpclen hpsort hiclen
              (habove ic (Nat.le_refl _) hiclen)
            rcases List.mem_cons.mp hx with hx | hx
            · rw [hx]
              exact habove ic (Nat.le_refl _) hiclen
            · rcases List.mem_append.mp hx with hx | hx
              · exact hda x hx
              · exact hdb x hx
          have hlt : ∀ x ∈ glueSegs (fun q => treeList h₁ u.store q)
                (p.keys.take ic) p.values p.children, bytesLt x.1 key = true :=
            node_prefix_below hpch hpclen (by omega) hbelow
          rw [kvsSortedInsert_append_right_of key val _ _ hgt,
            kvsSortedInsert_append_of_lt key val _ _ hlt]
        · have hice : ic = p.keys.length := by omega
          subst hice
          simp only [glue]
          have hA : glueSegs (fun q => treeList h₁ (insertNonFull f u c₂ key val).2.store q)
                p.keys p.values p.children
              = glueSegs (fun q => treeList h₁ u.store q) p.keys p.values p.children := by
            refine glueSegs_congr_getD _ _ _ _ _ ?_
            intro j hj
            exact (hfrj j (by omega) (by omega)).2.2
          have hlt : ∀ x ∈ glueSegs (fun q => treeList h₁ u.store q)
                p.keys p.values p.children, bytesLt x.1 key = true := by
            intro x hx
            refine node_prefix_below hpch hpclen (Nat.le_refl _)
              (fun j hj => hbelow j hj) x ?_
            rw [List.take_length]
            exact hx
          rw [hA, hTc, kvsSortedInsert_append_of_lt key val _ _ hlt]
      obtain ⟨hfu1, hfu2⟩ := flatten_update (fun q => idsOf h₁ u.store q)
        (fun q => idsOf h₁ (insertNonFull f u c₂ key val).2.store q)
        p.children ic u.nextPage (insertNonFull f u c₂ key val).2.nextPage hicC
        (List.nodup_cons.mp hpnd).2
        (fun q hq => hpbnd q (List.mem_cons.mpr (Or.inr hq)))
        hr4
        (by rw [← hc₂pid]; exact hr7)
        (fun q hq => by
          rw [← hc₂pid] at hq
          rcases hr8 q hq with hin | hrange
          · exact Or.inl (by rw [← hc₂pid]; exact hin)
          · exact Or.inr hrange)
        (fun j hj hji => (hfrj j hj hji).2.1)
      refine ⟨hr1, hr2, hr3, hr4, hd5, hd6, hd7, hfu1, hfu2, ?_⟩
      intro q hq1 hq2 hq3
      refine hr9 q ?_ hq3
      intro hmem
      rw [hc₂pid] at hmem
      exact hq2 (seg_mem_flatten hicC hmem)
    by_cases hfull : c.keys.length = MAX_KEYS
    · -- full child: split first, then descend into the reloaded child
      obtain ⟨spc1, spc2, spc3, spc4, spc5, spc6, spc7, spc8, spc9, spc10, spc11, spc12⟩ :=
        splitChild_correct hvlen hclen hsort hwin hch hsle hc1 hfull hnd hbnd
      obtain ⟨hroot2, huniq2, hnp2, hn22, hstore2⟩ :=
        splitChild_unfold ts m (scanPos m.keys key) c
      have hpnd2 : ((splitChild ts m (scanPos m.keys key) c).2.page_id
          :: ((splitChild ts m (scanPos m.keys key) c).2.children.map
            (fun q => idsOf h₁ (splitChild ts m (scanPos m.keys key) c).1.store q)).flatten).Nodup := by
        rw [spc2]
        refine List.nodup_cons.mpr ⟨?_, ?_⟩
        · intro hmem
          rcases List.mem_cons.mp (spc11.mem_iff.mp hmem) with he | hin
          · omega
          · exact (List.nodup_cons.mp hnd).1 hin
        · refine spc11.nodup_iff.mpr (List.nodup_cons.mpr ⟨?_, (List.nodup_cons.mp hnd).2⟩)
          intro hin
          exact Nat.lt_irrefl _ (hbnd _ (List.mem_cons.mpr (Or.inr hin)))
      have hpbnd2 : ∀ q ∈ (splitChild ts m (scanPos m.keys key) c).2.page_id
          :: ((splitChild ts m (scanPos m.keys key) c).2.children.map
            (fun q => idsOf h₁ (splitChild ts m (scanPos m.keys key) c).1.store q)).flatten,
          q < (splitChild ts m (scanPos m.keys key) c).1.nextPage := by
        rw [spc2, hnp2]
        intro q hq
        rcases List.mem_cons.mp hq with he | hin
        · omega
        · rcases List.mem_cons.mp (spc11.mem_iff.mp hin) with he | hin2
          · omega
          · have := hbnd _ (List.mem_cons.mpr (Or.inr hin2))
            omega
      have hkeys2len : (splitChild ts m (scanPos m.keys key) c).2.keys.length
          = m.keys.length + 1 := by
        rw [spc4, insertAt_length]
      have hmK : (splitChild ts m (scanPos m.keys key) c).2.keys.getD
            (scanPos m.keys key) [] = c.keys.getD MIN_KEYS [] := by
        rw [spc4, getD_insertAt_self _ _ _ _ hsle]
      have hmedne : c.keys.getD MIN_KEYS [] ≠ key := by
        have hp := key_mem_treeList (hch (scanPos m.keys key) hiC) hc1
          (show MIN_KEYS < c.keys.length by rw [hfull]; decide)
        rw [lookupKV_eq_none_iff] at hfresh
        exact hfresh _ (@child_mem_glue (fun q => treeList h₁ ts.store q)
          m.keys m.values m.children (scanPos m.keys key) hsle _ hp)
      have hfresh2 : lookupKV (glue
            (fun q => treeList h₁ (splitChild ts m (scanPos m.keys key) c).1.store q)
            (splitChild ts m (scanPos m.keys key) c).2.keys
            (splitChild ts m (scanPos m.keys key) c).2.values
            (splitChild ts m (scanPos m.keys key) c).2.children) key = none := by
        rw [spc10]
        exact hfresh
      have assemble : ∀ (ic : Nat) (c₃ : Node),
          insertNonFull (f + 1) ts m key val
            = insertNonFull f (splitChild ts m (scanPos m.keys key) c).1 c₃ key val →
          (splitChild ts m (scanPos m.keys key) c).1.store
              ((splitChild ts m (scanPos m.keys key) c).2.children.getD ic 0) = some c₃ →
          ic ≤ (splitChild ts m (scanPos m.keys key) c).2.keys.length →
          okLo (childLo (splitChild ts m (scanPos m.keys key) c).2 lo ic) key →
          okHi key (childHi (splitChild ts m (scanPos m.keys key) c).2 hi ic) →
          (∀ j, j < ic →
            bytesLt ((splitChild ts m (scanPos m.keys key) c).2.keys.getD j []) key
              = true) →
          (∀ j, ic ≤ j → j < (splitChild ts m (scanPos m.keys key) c).2.keys.length →
            bytesLt key ((splitChild ts m (scanPos m.keys key) c).2.keys.getD j [])
              = true) →
          (insertNonFull (f + 1) ts m key val).1 = .ok ()
          ∧ (insertNonFull (f + 1) ts m key val).2.root = ts.root
          ∧ (insertNonFull (f + 1) ts m key val).2.unique = ts.unique
          ∧ ts.nextPage ≤ (insertNonFull (f + 1) ts m key val).2.nextPage
          ∧ Good (insertNonFull (f + 1) ts m key val).2.store m.page_id (h₁ + 1) lo hi
          ∧ treeList (h₁ + 1) (insertNonFull (f + 1) ts m key val).2.store m.page_id
              = kvsSortedInsert key val
                  (glue (fun c => treeList h₁ ts.store c) m.keys m.values m.children)
          ∧ (idsOf (h₁ + 1) (insertNonFull (f + 1) ts m key val).2.store m.page_id).Nodup
          ∧ (∀ q ∈ idsOf (h₁ + 1) (insertNonFull (f + 1) ts m key val).2.store m.page_id,
              q ∈ m.page_id :: (m.children.map (fun q => idsOf h₁ ts.store q)).flatten
                ∨ (ts.nextPage ≤ q
                  ∧ q < (insertNonFull (f + 1) ts m key val).2.nextPage))
          ∧ (∀ q, q ∉ m.page_id
                :: (m.children.map (fun q => idsOf h₁ ts.store q)).flatten →
              q < ts.nextPage →
              (insertNonFull (f + 1) ts m key val).2.store q = ts.store q) := by
        intro ic c₃ hres hc₃ hicle hiclo hichi hbel hab
        obtain ⟨d1, d2, d3, d4, d5, d6, d7, d8, d9, d10⟩ :=
          descend (splitChild ts m (scanPos m.keys key) c).1
            (splitChild ts m (scanPos m.keys key) c).2 ic c₃
            (by rw [spc2]; exact spc1)
            (by rw [spc3]; exact hleaf)
            spc5 spc6 spc7 spc9 hpnd2 hpbnd2 hicle hiclo hichi hbel hab hfresh2 hc₃
        have hd5m : (insertNonFull f (splitChild ts m (scanPos m.keys key) c).1 c₃
              key val).2.store m.page_id
            = some (splitChild ts m (scanPos m.keys key) c).2 := by
          rw [← spc2]
          exact d5
        refine ⟨?_, ?_, ?_, ?_, ?_, ?_, ?_, ?_, ?_⟩
        · rw [hres]
          exact d1
        · rw [hres, d2, hroot2]
        · rw [hres, d3, huniq2]
        · rw [hres]
          have := d4
          rw [hnp2] at this
          omega
        · rw [hres]
          exact Good.node m.page_id _ lo hi h₁ hd5m spc2
            (by rw [spc3]; exact hleaf) spc5 spc6 spc7 spc8 d6
        · rw [hres, treeList_succ_eq h₁ hd5m, d7, spc10]
        · rw [hres, idsOf_succ_eq h₁ hd5m]
          refine List.nodup_cons.mpr ⟨?_, d8⟩
          intro hmem
          rcases d9 _ hmem with hin | ⟨hge, -⟩
          · rcases List.mem_cons.mp (spc11.mem_iff.mp hin) with he | hin2
            · omega
            · exact (List.nodup_cons.mp hnd).1 hin2
          · rw [hnp2] at hge
            omega
        · rw [hres, idsOf_succ_eq h₁ hd5m]
          intro q hq
          rcases List.mem_cons.mp hq with he | hin
          · subst he
            exact Or.inl (List.mem_cons_self _ _)
          · rcases d9 _ hin with hin2 | ⟨hge, hlt⟩
            · rcases List.mem_cons.mp (spc11.mem_iff.mp hin2) with he | hin3
              · subst he
                refine Or.inr ⟨Nat.le_refl _, ?_⟩
                have := d4
                rw [hnp2] at this
                omega
              · exact Or.inl (List.mem_cons.mpr (Or.inr hin3))
            · rw [hnp2] at hge
              exact Or.inr ⟨by omega, hlt⟩
        · rw [hres]
          intro q hq hqb
          have hq1 : q ≠ m.page_id := fun he => hq (List.mem_cons.mpr (Or.inl he))
          have hq2 : q ∉ (m.children.map (fun q => idsOf h₁ ts.store q)).flatten :=
            fun he => hq (List.mem_cons.mpr (Or.inr he))
          have hstep1 : (splitChild ts m (scanPos m.keys key) c).1.store q = ts.store q := by
            refine spc12 q hq1 ?_ (by omega)
            intro he
            subst he
            exact hq2 (seg_mem_flatten hiC (idsOf_mem_self h₁ _ _))
          have hstep2 : (insertNonFull f (splitChild ts m (scanPos m.keys key) c).1 c₃
                key val).2.store q
              = (splitChild ts m (scanPos m.keys key) c).1.store q := by
            refine d10 q (by rw [spc2]; exact hq1) ?_ (by rw [hnp2]; omega)
            intro hmem
            rcases List.mem_cons.mp (spc11.mem_iff.mp hmem) with he | hin
            · omega
            · exact hq2 hin
          rw [hstep2, hstep1]
      -- choose the post-split child according to the re-scan
      by_cases hbm : bytesLt ((splitChild ts m (scanPos m.keys key) c).2.keys.getD
          (scanPos m.keys key) []) key = true
      · -- the median is below the key: descend into the new right sibling
        have hicle : scanPos m.keys key + 1
            ≤ (splitChild ts m (scanPos m.keys key) c).2.keys.length := by
          rw [hkeys2len]
          omega
        obtain ⟨c₃, hc₃, -⟩ := good_inv (spc9 (scanPos m.keys key + 1)
          (by rw [spc6, hkeys2len]; omega))
        have hres : insertNonFull (f + 1) ts m key val
            = insertNonFull f (splitChild ts m (scanPos m.keys key) c).1 c₃ key val := by
          simp only [insertNonFull, hleaf, Bool.false_eq_true, if_false, loadNode_eq hc1]
          rw [if_pos hfull]
          rw [show splitChild ts m (scanPos m.keys key) c
            = ((splitChild ts m (scanPos m.keys key) c).1,
               (splitChild ts m (scanPos m.keys key) c).2) from rfl]
          simp only []
          rw [if_pos hbm, loadNode_eq hc₃]
        refine assemble (scanPos m.keys key + 1) c₃ hres hc₃ hicle ?_ ?_ ?_ ?_
        · unfold childLo
          rw [if_neg (by omega), show scanPos m.keys key + 1 - 1 = scanPos m.keys key
            from by omega, hmK]
          rw [hmK] at hbm
          exact hbm
        · unfold childHi
          by_cases hie : scanPos m.keys key = m.keys.length
          · rw [if_pos (by rw [hkeys2len]; omega)]
            exact hkhi
          · rw [if_neg (by rw [hkeys2len]; omega), spc4,
              getD_insertAt_gt _ _ _ _ _ (by omega) hsle]
            have : scanPos m.keys key + 1 - 1 = scanPos m.keys key := by omega
            rw [this]
            exact hshigh _ (Nat.le_refl _) (by omega)
        · intro j hj
          by_cases hje : j = scanPos m.keys key
          · subst hje
            rw [hmK]
            rw [hmK] at hbm
            exact hbm
          · rw [spc4, getD_insertAt_lt _ _ _ _ _ (by omega) (by omega)]
            exact hslow j (by omega)
        · intro j hj1 hj2
          rw [hkeys2len] at hj2
          rw [spc4, getD_insertAt_gt _ _ _ _ _ (by omega) hsle]
          exact hshigh _ (by omega) (by omega)
      · -- the key is below the median: descend into the trimmed child
        have hkltm : bytesLt key (c.keys.getD MIN_KEYS []) = true := by
          rw [hmK] at hbm
          cases hb2 : bytesLt key (c.keys.getD MIN_KEYS [])
          · exact absurd (bytesLt_conn (by simpa using hbm) hb2) hmedne
          · rfl
        have hicle : scanPos m.keys key
            ≤ (splitChild ts m (scanPos m.keys key) c).2.keys.length := by
          rw [hkeys2len]
          omega
        obtain ⟨c₃, hc₃, -⟩ := good_inv (spc9 (scanPos m.keys key)
          (by rw [spc6, hkeys2len]; omega))
        have hres : insertNonFull (f + 1) ts m key val
            = insertNonFull f (splitChild ts m (scanPos m.keys key) c).1 c₃ key val := by
          simp only [insertNonFull, hleaf, Bool.false_eq_true, if_false, loadNode_eq hc1]
          rw [if_pos hfull]
          rw [show splitChild ts m (scanPos m.keys key) c
            = ((splitChild ts m (scanPos m.keys key) c).1,
               (splitChild ts m (scanPos m.keys key) c).2) from rfl]
          simp only []
          rw [if_neg hbm, loadNode_eq hc₃]
        refine assemble (scanPos m.keys key) c₃ hres hc₃ hicle ?_ ?_ ?_ ?_
        · unfold childLo
          by_cases h0 : scanPos m.keys key = 0
          · rw [if_pos h0]
            exact hklo
          · rw [if_neg h0, spc4, getD_insertAt_lt _ _ _ _ _ (by omega) (by omega)]
            exact hslow _ (by omega)
        · unfold childHi
          rw [if_neg (by rw [hkeys2len]; omega), hmK]
          exact hkltm
        · intro j hj
          rw [spc4, getD_insertAt_lt _ _ _ _ _ (by omega) (by omega)]
          exact hslow j hj
        · intro j hj1 hj2
          rw [hkeys2len] at hj2
          by_cases hje : j = scanPos m.keys key
          · subst hje
            rw [hmK]
            exact hkltm
          · rw [spc4, getD_insertAt_gt _ _ _ _ _ (by omega) hsle]
            exact hshigh _ (by omega) (by omega)
    · -- child not full: descend directly
      have hres : insertNonFull (f + 1) ts m key val
          = insertNonFull f ts c key val := by
        simp only [insertNonFull, hleaf, Bool.false_eq_true, if_false, loadNode_eq hc1]
        rw [if_neg hfull]
      obtain ⟨d1, d2, d3, d4, d5, d6, d7, d8, d9, d10⟩ :=
        descend ts m (scanPos m.keys key) c hm hleaf hvlen hclen hsort hch hnd hbnd hsle
          (by
            unfold childLo
            by_cases h0 : scanPos m.keys key = 0
            · rw [if_pos h0]
              exact hklo
            · rw [if_neg h0]
              exact hslow _ (by omega))
          (by
            unfold childHi
            by_cases hlen : scanPos m.keys key = m.keys.length
            · rw [if_pos hlen]
              exact hkhi
            · rw [if_neg hlen]
              exact hshigh _ (Nat.le_refl _) (by omega))
          hslow hshigh hfresh hc1
      refine ⟨?_, ?_, ?_, ?_, ?_, ?_, ?_, ?_, ?_⟩
      · rw [hres]
        exact d1
      · rw [hres]
        exact d2
      · rw [hres]
        exact d3
      · rw [hres]
        exact d4
      · rw [hres]
        exact Good.node m.page_id m lo hi h₁ d5 rfl hleaf hvlen hclen hsort hwin d6
      · rw [hres, treeList_succ_eq h₁ d5]
        exact d7
      · rw [hres, idsOf_succ_eq h₁ d5]
        refine List.nodup_cons.mpr ⟨?_, d8⟩
        intro hmem
        rcases d9 _ hmem with hin | ⟨hge, -⟩
        · exact (List.nodup_cons.mp hnd).1 hin
        · exact Nat.lt_irrefl _ (Nat.lt_of_lt_of_le hpidlt hge)
      · rw [hres, idsOf_succ_eq h₁ d5]
        intro q hq
        rcases List.mem_cons.mp hq with he | hin
        · subst he
          exact Or.inl (List.mem_cons_self _ _)
        · rcases d9 _ hin with hin2 | hrange
          · exact Or.inl (List.mem_cons.mpr (Or.inr hin2))
          · exact Or.inr hrange
      · rw [hres]
        intro q hq hqb
        exact d10 q (fun he => hq (List.mem_cons.mpr (Or.inl he)))
          (fun he => hq (List.mem_cons.mpr (Or.inr he))) hqb

/-- `BTree::insert` on a wellformed tree with a fresh key: it succeeds,
and the tree stays wellformed (height grows by at most one through a root
split) with the pair inserted into the sorted contents. -/
theorem insertTree_correct {ts : TreeState} {h : Nat} (key : List Nat) (val : Nat)
    (fuel : Nat) (hfuel : h + 2 ≤ fuel)
    (hg : Good ts.store ts.root h none none)
    (hnd : (idsOf h ts.store ts.root).Nodup)
    (hbnd : ∀ q ∈ idsOf h ts.store ts.root, q < ts.nextPage)
    (hfresh : lookupKV (treeList h ts.store ts.root) key = none) :
    (insertTree fuel ts key val).1 = .ok ()
    ∧ ∃ hn, hn ≤ h + 1
      ∧ Good (insertTree fuel ts key val).2.store (insertTree fuel ts key val).2.root
          hn none none
      ∧ (idsOf hn (insertTree fuel ts key val).2.store
          (insertTree fuel ts key val).2.root).Nodup
      ∧ (∀ q ∈ idsOf hn (insertTree fuel ts key val).2.store
            (insertTree fuel ts key val).2.root,
          q < (insertTree fuel ts key val).2.nextPage)
      ∧ treeList hn (insertTree fuel ts key val).2.store
          (insertTree fuel ts key val).2.root
        = kvsSortedInsert key val (treeList h ts.store ts.root)
      ∧ (insertTree fuel ts key val).2.unique = ts.unique := by
  obtain ⟨r, hr1, hr2⟩ := good_inv hg
  by_cases hfull : r.keys.length = MAX_KEYS
  · -- split the full root under a fresh root page first
    have hres : insertTree fuel ts key val
        = insertNonFull fuel
            ⟨ts.nextPage,
              (splitChild ⟨ts.root, ts.unique, ts.nextPage + 1, ts.store⟩
                ⟨ts.nextPage, [], [], [ts.root], false⟩ 0 r).1.unique,
              (splitChild ⟨ts.root, ts.unique, ts.nextPage + 1, ts.store⟩
                ⟨ts.nextPage, [], [], [ts.root], false⟩ 0 r).1.nextPage,
              (splitChild ⟨ts.root, ts.unique, ts.nextPage + 1, ts.store⟩
                ⟨ts.nextPage, [], [], [ts.root], false⟩ 0 r).1.store⟩
            (splitChild ⟨ts.root, ts.unique, ts.nextPage + 1, ts.store⟩
              ⟨ts.nextPage, [], [], [ts.root], false⟩ 0 r).2 key val := by
      simp only [insertTree, loadNode_eq hr1]
      rw [if_pos hfull]
    obtain ⟨spc1, spc2, spc3, spc4, spc5, spc6, spc7, spc8, spc9, spc10, spc11, spc12⟩ :=
      @splitChild_correct ⟨ts.root, ts.unique, ts.nextPage + 1, ts.store⟩
        ⟨ts.nextPage, [], [], [ts.root], false⟩ 0 r h none none
        rfl rfl List.Pairwise.nil (by simp)
        (by
          intro j hj
          have hj0 : j = 0 := by
            simp at hj
            omega
          subst hj0
          simp only [childLo, childHi, if_pos rfl]
          exact hg)
        (Nat.zero_le _) hr1 hfull
        (by
          simp only [List.map_cons, List.map_nil, List.flatten_cons, List.flatten_nil,
            List.append_nil]
          refine List.nodup_cons.mpr ⟨?_, hnd⟩
          intro hmem
          exact Nat.lt_irrefl _ (hbnd _ hmem))
        (by
          simp only [List.map_cons, List.map_nil, List.flatten_cons, List.flatten_nil,
            List.append_nil]
          intro q hq
          rcases List.mem_cons.mp hq with he | hin
          · omega
          · have := hbnd _ hin
            omega)
    obtain ⟨hroot2, huniq2, hnp2, hn22, hstore2⟩ :=
      splitChild_unfold ⟨ts.root, ts.unique, ts.nextPage + 1, ts.store⟩
        ⟨ts.nextPage, [], [], [ts.root], false⟩ 0 r
    have hsimp : ∀ q ∈ ((([ts.root] : List Nat)).map
          (fun q => idsOf h ts.store q)).flatten, q ∈ idsOf h ts.store ts.root := by
      intro q hq
      simpa using hq
    have hm3 : (⟨ts.nextPage,
          (splitChild ⟨ts.root, ts.unique, ts.nextPage + 1, ts.store⟩
            ⟨ts.nextPage, [], [], [ts.root], false⟩ 0 r).1.unique,
          (splitChild ⟨ts.root, ts.unique, ts.nextPage + 1, ts.store⟩
            ⟨ts.nextPage, [], [], [ts.root], false⟩ 0 r).1.nextPage,
          (splitChild ⟨ts.root, ts.unique, ts.nextPage + 1, ts.store⟩
            ⟨ts.nextPage, [], [], [ts.root], false⟩ 0 r).1.store⟩ : TreeState).store
        (splitChild ⟨ts.root, ts.unique, ts.nextPage + 1, ts.store⟩
          ⟨ts.nextPage, [], [], [ts.root], false⟩ 0 r).2.page_id
        = some (splitChild ⟨ts.root, ts.unique, ts.nextPage + 1, ts.store⟩
          ⟨ts.nextPage, [], [], [ts.root], false⟩ 0 r).2 := by
      rw [spc2]
      exact spc1
    have hGood3 : Good (splitChild ⟨ts.root, ts.unique, ts.nextPage + 1, ts.store⟩
          ⟨ts.nextPage, [], [], [ts.root], false⟩ 0 r).1.store
        (splitChild ⟨ts.root, ts.unique, ts.nextPage + 1, ts.store⟩
          ⟨ts.nextPage, [], [], [ts.root], false⟩ 0 r).2.page_id
        (h + 1) none none := by
      refine Good.node _ _ none none h hm3 rfl (by rw [spc3]) spc5 spc6 spc7 spc8 spc9
    have htL : treeList (h + 1)
          (splitChild ⟨ts.root, ts.unique, ts.nextPage + 1, ts.store⟩
            ⟨ts.nextPage, [], [], [ts.root], false⟩ 0 r).1.store
          (splitChild ⟨ts.root, ts.unique, ts.nextPage + 1, ts.store⟩
            ⟨ts.nextPage, [], [], [ts.root], false⟩ 0 r).2.page_id
        = treeList h ts.store ts.root := by
      rw [treeList_succ_eq h (by rw [spc2] at hm3; exact hm3), spc10]
      show glue (fun q => treeList h ts.store q) [] [] [ts.root]
        = treeList h ts.store ts.root
      rw [glue_nil]
      rfl
    have hpid2 : (splitChild ⟨ts.root, ts.unique, ts.nextPage + 1, ts.store⟩
        ⟨ts.nextPage, [], [], [ts.root], false⟩ 0 r).2.page_id = ts.nextPage := spc2
    have hnp2' : (splitChild ⟨ts.root, ts.unique, ts.nextPage + 1, ts.store⟩
        ⟨ts.nextPage, [], [], [ts.root], false⟩ 0 r).1.nextPage = ts.nextPage + 2 := by
      rw [hnp2]
    have hperm' := spc11
    rw [show (⟨ts.root, ts.unique, ts.nextPage + 1, ts.store⟩ : TreeState).nextPage
        = ts.nextPage + 1 from rfl] at hperm'
    have hids3 : ∀ q ∈ idsOf (h + 1)
          (splitChild ⟨ts.root, ts.unique, ts.nextPage + 1, ts.store⟩
            ⟨ts.nextPage, [], [], [ts.root], false⟩ 0 r).1.store
          (splitChild ⟨ts.root, ts.unique, ts.nextPage + 1, ts.store⟩
            ⟨ts.nextPage, [], [], [ts.root], false⟩ 0 r).2.page_id,
        q = ts.nextPage ∨ q = ts.nextPage + 1 ∨ q ∈ idsOf h ts.store ts.root := by
      intro q hq
      rw [idsOf_succ_eq h hm3] at hq
      rcases List.mem_cons.mp hq with he | hin
      · rw [spc2] at he
        exact Or.inl he
      · rcases List.mem_cons.mp (hperm'.mem_iff.mp hin) with he | hin2
        · exact Or.inr (Or.inl he)
        · exact Or.inr (Or.inr (hsimp q hin2))
    have hnd3 : (idsOf (h + 1)
          (splitChild ⟨ts.root, ts.unique, ts.nextPage + 1, ts.store⟩
            ⟨ts.nextPage, [], [], [ts.root], false⟩ 0 r).1.store
          (splitChild ⟨ts.root, ts.unique, ts.nextPage + 1, ts.store⟩
            ⟨ts.nextPage, [], [], [ts.root], false⟩ 0 r).2.page_id).Nodup := by
      rw [idsOf_succ_eq h hm3]
      refine List.nodup_cons.mpr ⟨?_, ?_⟩
      · intro hmem
        rcases List.mem_cons.mp (hperm'.mem_iff.mp hmem) with he | hin2
        · rw [hpid2] at he
          omega
        · have hlt := hbnd _ (hsimp _ hin2)
          rw [hpid2] at hlt
          exact Nat.lt_irrefl _ hlt
      · refine hperm'.nodup_iff.mpr (List.nodup_cons.mpr ⟨?_, ?_⟩)
        · intro hin
          have := hbnd _ (hsimp _ hin)
          omega
        · simp only [List.map_cons, List.map_nil, List.flatten_cons, List.flatten_nil,
            List.append_nil]
          exact hnd
    have hbnd3 : ∀ q ∈ idsOf (h + 1)
          (splitChild ⟨ts.root, ts.unique, ts.nextPage + 1, ts.store⟩
            ⟨ts.nextPage, [], [], [ts.root], false⟩ 0 r).1.store
          (splitChild ⟨ts.root, ts.unique, ts.nextPage + 1, ts.store⟩
            ⟨ts.nextPage, [], [], [ts.root], false⟩ 0 r).2.page_id,
        q < (splitChild ⟨ts.root, ts.unique, ts.nextPage + 1, ts.store⟩
          ⟨ts.nextPage, [], [], [ts.root], false⟩ 0 r).1.nextPage := by
      intro q hq
      rw [hnp2']
      rcases hids3 q hq with he | he | hin
      · omega
      · omega
      · have := hbnd _ hin
        omega
    obtain ⟨r1, r2, r3, r4, r5, r6, r7, r8, r9⟩ :=
      insertNonFull_correct (h + 1) fuel
        ⟨ts.nextPage,
          (splitChild ⟨ts.root, ts.unique, ts.nextPage + 1, ts.store⟩
            ⟨ts.nextPage, [], [], [ts.root], false⟩ 0 r).1.unique,
          (splitChild ⟨ts.root, ts.unique, ts.nextPage + 1, ts.store⟩
            ⟨ts.nextPage, [], [], [ts.root], false⟩ 0 r).1.nextPage,
          (splitChild ⟨ts.root, ts.unique, ts.nextPage + 1, ts.store⟩
            ⟨ts.nextPage, [], [], [ts.root], false⟩ 0 r).1.store⟩
        (splitChild ⟨ts.root, ts.unique, ts.nextPage + 1, ts.store⟩
          ⟨ts.nextPage, [], [], [ts.root], false⟩ 0 r).2
        none none key val (by omega) hm3 hGood3 hnd3 hbnd3 trivial trivial
        (by rw [htL]; exact hfresh)
    have hroot3 : (insertTree fuel ts key val).2.root
        = (splitChild ⟨ts.root, ts.unique, ts.nextPage + 1, ts.store⟩
          ⟨ts.nextPage, [], [], [ts.root], false⟩ 0 r).2.page_id := by
      rw [hres, r2, spc2]
    refine ⟨by rw [hres]; exact r1, h + 1, Nat.le_refl _, ?_, ?_, ?_, ?_, ?_⟩
    · rw [hroot3, hres]
      exact r5
    · rw [hroot3, hres]
      exact r7
    · rw [hroot3, hres]
      intro q hq
      rcases r8 q hq with hin | ⟨hge, hlt⟩
      · exact lt_of_lt_of_le (hbnd3 q hin) r4
      · exact hlt
    · rw [hroot3, hres, r6, htL]
    · rw [hres, r3, huniq2]
  · -- the root is not full: descend directly
    have hres : insertTree fuel ts key val = insertNonFull fuel ts r key val := by
      simp only [insertTree, loadNode_eq hr1]
      rw [if_neg hfull]
    obtain ⟨r1, r2, r3, r4, r5, r6, r7, r8, r9⟩ :=
      insertNonFull_correct h fuel ts r none none key val (by omega)
        (by rw [hr2]; exact hr1) (by rw [hr2]; exact hg) (by rw [hr2]; exact hnd)
        (by rw [hr2]; exact hbnd) trivial trivial (by rw [hr2]; exact hfresh)
    have hroot3 : (insertTree fuel ts key val).2.root = r.page_id := by
      rw [hres, r2, hr2]
    refine ⟨by rw [hres]; exact r1, h, Nat.le_succ _, ?_, ?_, ?_, ?_, ?_⟩
    · rw [hroot3, hres]
      exact r5
    · rw [hroot3, hres]
      exact r7
    · rw [hroot3, hres]
      intro q hq
      rcases r8 q hq with hin | ⟨hge, hlt⟩
      · have := hbnd q (by rw [hr2] at hin; exact hin)
        omega
      · omega
    · rw [hroot3, hres, r6, hr2]
    · rw [hres, r3]

/-- Running a sequence of inserts with pairwise-distinct fresh keys keeps
the tree wellformed; the contents keys are a permutation of the inserted
keys (plus what was there), and every inserted pair is in the contents. -/
theorem insertSeq_inv :
    ∀ (kvs : List (List Nat × Nat)) (fuel : Nat) (ts : TreeState) (h : Nat)
      (cur : List (List Nat × Nat)),
      Good ts.store ts.root h none none →
      (idsOf h ts.store ts.root).Nodup →
      (∀ q ∈ idsOf h ts.store ts.root, q < ts.nextPage) →
      treeList h ts.store ts.root = cur →
      ((cur.map Prod.fst) ++ (kvs.map Prod.fst)).Nodup →
      h + kvs.length + 2 ≤ fuel →
      ∃ hn curn,
        hn ≤ h + kvs.length
        ∧ Good (insertSeq fuel ts kvs).store (insertSeq fuel ts kvs).root hn none none
        ∧ (idsOf hn (insertSeq fuel ts kvs).store (insertSeq fuel ts kvs).root).Nodup
        ∧ (∀ q ∈ idsOf hn (insertSeq fuel ts kvs).store (insertSeq fuel ts kvs).root,
            q < (insertSeq fuel ts kvs).nextPage)
        ∧ treeList hn (insertSeq fuel ts kvs).store (insertSeq fuel ts kvs).root = curn
        ∧ (curn.map Prod.fst).Perm (cur.map Prod.fst ++ kvs.map Prod.fst)
        ∧ (∀ x ∈ cur, x ∈ curn)
        ∧ (∀ x ∈ kvs, x ∈ curn)
        ∧ (insertSeq fuel ts kvs).unique = ts.unique
  | [], fuel, ts, h, cur, hg, hnd, hbnd, htl, hkeys, hfuel =>
    ⟨h, cur, Nat.le_refl _, hg, hnd, hbnd, htl, by simp, fun x hx => hx,
      by simp, rfl⟩
  | kv :: rest, fuel, ts, h, cur, hg, hnd, hbnd, htl, hkeys, hfuel => by
    have heq : insertSeq fuel ts (kv :: rest)
        = insertSeq fuel (insertTree fuel ts kv.1 kv.2).2 rest := rfl
    have hknotin : kv.1 ∉ cur.map Prod.fst := by
      intro hmem
      rw [List.nodup_append] at hkeys
      exact hkeys.2.2 hmem (by simp)
    have hfreshc : lookupKV (treeList h ts.store ts.root) kv.1 = none := by
      rw [htl]
      refine lookupKV_none_of_ne _ _ ?_
      intro x hx he
      exact hknotin (he ▸ List.mem_map.mpr ⟨x, hx, rfl⟩)
    obtain ⟨hok, h2, hle2, hg2, hnd2, hbnd2, htl2, huniq2⟩ :=
      insertTree_correct kv.1 kv.2 fuel (by simp at hfuel; omega) hg hnd hbnd hfreshc
    rw [htl] at htl2
    have hkeys2 : (((kvsSortedInsert kv.1 kv.2 cur).map Prod.fst)
        ++ (rest.map Prod.fst)).Nodup := by
      have hp1 : List.Perm
          (((kvsSortedInsert kv.1 kv.2 cur).map Prod.fst) ++ rest.map Prod.fst)
          ((kv.1 :: cur.map Prod.fst) ++ rest.map Prod.fst) :=
        List.Perm.append_right _ (kvsSortedInsert_keys_perm kv.1 kv.2 cur)
      have hmid : (kv.1 :: (cur.map Prod.fst ++ rest.map Prod.fst)).Nodup := by
        have hsrc : (cur.map Prod.fst ++ kv.1 :: rest.map Prod.fst).Nodup := by
          simpa using hkeys
        exact (List.Perm.nodup_iff List.perm_middle).mp hsrc
      exact (List.Perm.nodup_iff hp1).mpr hmid
    obtain ⟨hn, curn, hlen, hgn, hndn, hbndn, htln, hpermn, hmem1, hmem2, huniqn⟩ :=
      insertSeq_inv rest fuel (insertTree fuel ts kv.1 kv.2).2 h2
        (kvsSortedInsert kv.1 kv.2 cur) hg2 hnd2 hbnd2 htl2 hkeys2
        (by simp at hfuel; omega)
    refine ⟨hn, curn, by simp; omega, by rw [heq]; exact hgn, by rw [heq]; exact hndn,
      by rw [heq]; exact hbndn, by rw [heq]; exact htln, ?_, ?_, ?_,
      by rw [heq, huniqn, huniq2]⟩
    · refine hpermn.trans ?_
      refine List.Perm.trans (List.Perm.append_right _
        (kvsSortedInsert_keys_perm kv.1 kv.2 cur)) ?_
      show List.Perm (kv.1 :: (cur.map Prod.fst ++ rest.map Prod.fst))
        (cur.map Prod.fst ++ kv.1 :: rest.map Prod.fst)
      exact List.perm_middle.symm
    · intro x hx
      exact hmem1 x (kvsSortedInsert_mem kv.1 kv.2 cur x hx)
    · intro x hx
      rcases List.mem_cons.mp hx with he | hin
      · subst he
        exact hmem1 x (kvsSortedInsert_self x.1 x.2 cur)
      · exact hmem2 x hin

example : searchTree 20 c5tree [3] = .ok (some 3) := by decide

example : searchTree 20 c5tree [11] = .ok (some 11) := by decide

example : searchTree 20 c5tree [12] = .ok none := by decide

/-- C4: after inserting the twelve distinct keys `[0]…[11]` (which splits
the root, leaving the old root — page 0 — as the left child with exactly
`MIN_KEYS` keys) and then deleting the promoted median `[5]`, the
non-root node at page 0 has only 4 keys — below `MIN_KEYS` = 5.  The
"key found in internal node" branch of `delete_key` deletes the
predecessor from the child without the underflow rebalance that the
key-absent branch performs. -/
theorem C4_occupancy_bug :
    c4tree.root = 1
      ∧ childrenAt c4tree 1 = [0, 2]
      ∧ keyCountAt c4tree 0 = 4
      ∧ keyCountAt c4tree 0 < MIN_KEYS := by
  decide

/-- C5 counterexample: on a unique tree holding the twelve distinct keys
`[0]…[11]`, the key `[5]` sits in the internal root; `insert([5], 99)`
nevertheless returns Ok — the duplicate check only inspects the leaf at
the end of the descent, and the descent walks past an equal internal key
into the right subtree, which does not contain it. -/
theorem C5_unique_counterexample :
    keysAt c5tree c5tree.root = [[5]]
      ∧ isOkE (insertTree 20 c5tree [5] 99).1 = true := by
  decide

/-- C5 (amended): whenever the root of a unique tree is a non-full sorted
leaf containing `k` — the state of any unique tree that has absorbed
fewer than MAX_KEYS distinct keys — `insert(k, v)` returns DuplicateKey
for every `v` and leaves the tree (root, allocator and every stored node)
unchanged.  A key residing only in an internal node is not detected at
all (`C5_unique_counterexample`). -/
theorem C5_unique_leaf_amended (ts : TreeState) (n : Node) (k : List Nat) (v : Nat)
    (fuel : Nat)
    (hu : ts.unique = true)
    (hroot : ts.store ts.root = some n)
    (hleaf : n.is_leaf = true)
    (hnotfull : n.keys.length < MAX_KEYS)
    (hsorted : Sorted n.keys)
    (hmem : k ∈ n.keys) :
    insertTree (fuel + 1) ts k v = (.error .storage, ts) := by
  obtain ⟨hpos, hdup⟩ := scanPos_dup hsorted hmem
  unfold insertTree loadNode
  rw [hroot]
  simp only []
  rw [if_neg (by omega : ¬ n.keys.length = MAX_KEYS)]
  unfold insertNonFull
  simp only [hleaf, if_true]
  rw [if_pos ⟨hu, hpos, hdup⟩]

theorem C5_unique_leaf_amended_witness :
    (c5leafTS.unique = true
        ∧ c5leafTS.store c5leafTS.root = some c5leafNode
        ∧ c5leafNode.is_leaf = true
        ∧ c5leafNode.keys.length < MAX_KEYS
        ∧ Sorted c5leafNode.keys
        ∧ [2] ∈ c5leafNode.keys)
      ∧ insertTree 1 c5leafTS [2] 99 = (.error .storage, c5leafTS) :=
  ⟨⟨rfl, rfl, rfl, by decide, by decide, by decide⟩,
    C5_unique_leaf_amended c5leafTS c5leafNode [2] 99 0 rfl rfl rfl
      (by decide) (by decide) (by decide)⟩

/-- C10: `pin_page`, `unpin_page` and `mark_dirty` on a page id that is
not cached return an error and leave the pool unchanged; none of them can
read the disk — their model signatures (faithful to the source, which
performs no I/O in these methods) take no disk argument at all. -/
theorem C10_uncached_ops (bp : BufferPool) (id : PageId)
    (h : mapGet bp.pages id = none) :
    (pinPage bp id).1 = .error .storage ∧ (pinPage bp id).2 = bp
      ∧ (unpinPage bp id).1 = .error .storage ∧ (unpinPage bp id).2 = bp
      ∧ (markDirty bp id).1 = .error .storage ∧ (markDirty bp id).2 = bp := by
  unfold pinPage unpinPage markDirty
  rw [h]
  exact ⟨rfl, rfl, rfl, rfl, rfl, rfl⟩

theorem C10_uncached_ops_witness :
    mapGet (BufferPool.new 3).pages ⟨0, 5⟩ = none
      ∧ ((pinPage (BufferPool.new 3) ⟨0, 5⟩).1 = .error .storage
        ∧ (pinPage (BufferPool.new 3) ⟨0, 5⟩).2 = BufferPool.new 3
        ∧ (unpinPage (BufferPool.new 3) ⟨0, 5⟩).1 = .error .storage
        ∧ (unpinPage (BufferPool.new 3) ⟨0, 5⟩).2 = BufferPool.new 3
        ∧ (markDirty (BufferPool.new 3) ⟨0, 5⟩).1 = .error .storage
        ∧ (markDirty (BufferPool.new 3) ⟨0, 5⟩).2 = BufferPool.new 3) :=
  ⟨rfl, C10_uncached_ops (BufferPool.new 3) ⟨0, 5⟩ rfl⟩

end RustDB
